import Mathlib

/-!
Verification development for a 2D lattice topology-optimization program.

The program is a Python code base with three core components:
* a lattice model (`Node`, `Spring`, `Structure` in `src/model/`),
* an FEM equilibrium solver (`src/solver/fem_solver.py`),
* a structural validator and a greedy topology optimizer
  (`src/optimizer/validators.py`, `src/optimizer/topology_optimizer.py`).

This file gives a shallow embedding of those components and proves
properties of the embedding.  Modelling conventions:

* Machine floats are abstracted by exact fractions (`Frac`, a pair of
  integers interpreted as `num/den`), so that every definition is
  executable and kernel-decidable.  Grid positions are integers (every
  `Structure` the program can build places nodes on the integer grid).
* The results of the sparse linear solver `scipy.sparse.linalg.spsolve`,
  of the spring strain-energy formula `0.5·uᵀ·Ko·u` and of the spring
  stress formula are numerical computations on floats; they are
  abstracted as oracle parameters (`SpOutcome`-valued and `Frac`-valued
  functions).  All control flow surrounding them is embedded exactly.
* Python `assert` failures and uncaught exceptions are modelled by the
  `PyResult.raises` constructor.
* Python lists of mutable objects are modelled by immutable lists with
  positional update; springs refer to their endpoint nodes by id, and
  nodes are stored at the list index equal to their id (true of every
  structure the program constructs, and preserved by every operation).
-/

namespace TopOpt

/-- Exact fraction `num/den` used to model float-valued quantities.
All fractions built by the model have a positive denominator. -/
structure Frac where
  num : Int
  den : Int
deriving DecidableEq, Repr

namespace Frac

/-- Build a fraction, normalising the sign into the numerator. -/
def mk' (n d : Int) : Frac := if d < 0 then ⟨-n, -d⟩ else ⟨n, d⟩

/-- The fraction `n/1`. -/
def ofInt (n : Int) : Frac := ⟨n, 1⟩

/-- Zero. -/
def zero : Frac := ⟨0, 1⟩

/-- One. -/
def one : Frac := ⟨1, 1⟩

/-- Addition of fractions. -/
def add (a b : Frac) : Frac := mk' (a.num * b.den + b.num * a.den) (a.den * b.den)

/-- Negation. -/
def neg (a : Frac) : Frac := ⟨-a.num, a.den⟩

/-- Multiplication. -/
def mul (a b : Frac) : Frac := mk' (a.num * b.num) (a.den * b.den)

/-- Division. -/
def div (a b : Frac) : Frac := mk' (a.num * b.den) (a.den * b.num)

/-- Boolean `≤` comparison (cross multiplication; correct for positive
denominators, which all fractions built by the model have). -/
def ble (a b : Frac) : Bool := decide (a.num * b.den ≤ b.num * a.den)

/-- Boolean `<` comparison. -/
def blt (a b : Frac) : Bool := decide (a.num * b.den < b.num * a.den)

/-- Python `int(x)`: truncation toward zero. -/
def truncz (a : Frac) : Int := a.num.tdiv a.den

/-- Python `x != 0` for a float: the fraction is non-zero. -/
def nz (a : Frac) : Bool := decide (a.num ≠ 0)

/-- Python `max(a, b)`: returns `a` when `a ≥ b`, else `b`. -/
def fmax (a b : Frac) : Frac := if ble b a then a else b

/-- Python `min(a, b)`: returns `a` when `a ≤ b`, else `b`. -/
def fmin (a b : Frac) : Frac := if ble a b then a else b

/-- Interpretation of a fraction as a rational number. -/
def toRat (a : Frac) : ℚ := (a.num : ℚ) / (a.den : ℚ)

/-- Sum of a list of fractions (Python `sum`, left fold from 0). -/
def lsum (l : List Frac) : Frac := l.foldl add zero

/-- Python `max(list)`: first maximal element, left fold. -/
def lmax (l : List Frac) : Frac :=
  match l with
  | [] => zero
  | x :: xs => xs.foldl fmax x

end Frac

/-- Model of `model/node.py::Node`.  Positions are on the integer grid
(`float(x)` of grid indices in the source); `fix_x`/`fix_y` are the
0/1 flags, modelled as `Bool`; forces are float-valued, modelled as
`Frac`.  The solved-displacement fields `u_x`/`u_y` are not carried:
they are written by `solve_structure` but read by nothing in the
embedded scope (only the out-of-scope renderer), and they influence no
control flow.  (`Material` carries no state the embedded claims touch;
the `E/210` scale factor is absorbed into the energy oracle.) -/
structure Node where
  id : Nat
  x : Int
  y : Int
  active : Bool
  fix_x : Bool
  fix_y : Bool
  force_x : Frac
  force_y : Frac
deriving DecidableEq, Repr

/-- A fresh node as built by `Node.__init__`. -/
def mkNode (nid : Nat) (x y : Int) : Node :=
  ⟨nid, x, y, true, false, false, Frac.zero, Frac.zero⟩

/-- Model of `model/spring.py::Spring`.  Endpoints are stored by node
id (`node_a.id` / `node_b.id`); `k` is the optional explicit stiffness
override. -/
structure Spring where
  id : Nat
  a : Nat
  b : Nat
  k : Option Frac
  active : Bool
deriving DecidableEq, Repr

/-- Model of `model/structure.py::Structure`. -/
structure Structure where
  width : Nat
  height : Nat
  nodes : List Node
  springs : List Spring
deriving DecidableEq, Repr

/-- Positional update of one list element. -/
def modifyAt {α : Type} (f : α → α) : Nat → List α → List α
  | _, [] => []
  | 0, x :: xs => f x :: xs
  | n + 1, x :: xs => x :: modifyAt f n xs

/-- The nodes of `Structure.generate_grid`: row-major ids `y*width + x`. -/
def gridNodes (w h : Nat) : List Node :=
  (List.range h).flatMap fun y =>
    (List.range w).map fun x => mkNode (y * w + x) (Int.ofNat x) (Int.ofNat y)

/-- The endpoint pairs of `Structure.generate_grid`, in generation
order: for each cell, right, down, down-right diagonal, then the
anti-diagonal from `(x+1,y)` to `(x,y+1)`. -/
def gridSpringPairs (w h : Nat) : List (Nat × Nat) :=
  (List.range h).flatMap fun y =>
    (List.range w).flatMap fun x =>
      (if x + 1 < w then [(y * w + x, y * w + x + 1)] else []) ++
      (if y + 1 < h then [(y * w + x, (y + 1) * w + x)] else []) ++
      (if x + 1 < w ∧ y + 1 < h then [(y * w + x, (y + 1) * w + x + 1)] else []) ++
      (if x + 1 < w ∧ y + 1 < h then [(y * w + x + 1, (y + 1) * w + x)] else [])

/-- `Structure.__init__` / `generate_grid`: the fresh full grid.
Spring ids are assigned sequentially in generation order. -/
def mkStructure (w h : Nat) : Structure :=
  { width := w
    height := h
    nodes := gridNodes w h
    springs := (gridSpringPairs w h).enum.map fun p => ⟨p.1, p.2.1, p.2.2, none, true⟩ }

/-- Read a node by list position (`structure.nodes[i]`). -/
def nodeAt (s : Structure) (i : Nat) : Option Node := s.nodes[i]?

/-- Whether the node stored at position `i` of a node list exists and
is active. -/
def activeInList (l : List Node) (i : Nat) : Bool :=
  match l[i]? with
  | some n => n.active
  | none => false

/-- Whether the node stored at position `i` exists and is active. -/
def activeAt (s : Structure) (i : Nat) : Bool :=
  activeInList s.nodes i

/-- `Structure.remove_node`: deactivate the node stored at position
`node_id` and every spring whose endpoint id matches `node_id`.
(The source asserts the id is valid and the node active; all call
sites inside the program satisfy that, and theorems about this
operation carry the corresponding hypotheses.) -/
def removeNode (s : Structure) (nid : Nat) : Structure :=
  { s with
    nodes := modifyAt (fun n => { n with active := false }) nid s.nodes
    springs := s.springs.map fun sp =>
      if sp.a = nid ∨ sp.b = nid then { sp with active := false } else sp }

/-- `Structure.active_node_count`. -/
def activeNodeCount (s : Structure) : Nat := s.nodes.countP (·.active)

/-- `Structure.active_spring_count`. -/
def activeSpringCount (s : Structure) : Nat := s.springs.countP (·.active)

/-- `TopologyOptimizer._take_snapshot`: the active bitmaps of nodes
and springs. -/
def takeSnapshot (s : Structure) : List Bool × List Bool :=
  (s.nodes.map (·.active), s.springs.map (·.active))

/-- `TopologyOptimizer._restore_snapshot`: write the recorded bitmaps
back positionally. -/
def restoreSnapshot (s : Structure) (snap : List Bool × List Bool) : Structure :=
  { s with
    nodes := s.nodes.zipWith (fun n act => { n with active := act }) snap.1
    springs := s.springs.zipWith (fun sp act => { sp with active := act }) snap.2 }

/-- `TopologyOptimizer._restore_node`: re-activate the node at position
`node_id`, then re-activate each incident spring whose other endpoint
is active (activity read after the node update, as in the source). -/
def restoreNode (s : Structure) (nid : Nat) : Structure :=
  let nodes' := modifyAt (fun n => { n with active := true }) nid s.nodes
  let act : Nat → Bool := fun i => activeInList nodes' i
  { s with
    nodes := nodes'
    springs := s.springs.map fun sp =>
      if sp.a = nid ∨ sp.b = nid then
        (if act (if sp.a = nid then sp.b else sp.a) then { sp with active := true } else sp)
      else sp }

/-- The write-back step of `solve_structure` stores `u[2*id]`,
`u[2*id+1]` into each node's displacement fields; since the embedding
carries no displacement fields, it leaves the structure unchanged. -/
def writeBackU (s : Structure) (_u : List Frac) : Structure := s

/-- Well-formedness of a structure as the program builds them: each
node is stored at the position equal to its id, and every spring's
endpoints are ids of stored nodes.  Every structure produced by
`Structure.__init__` satisfies this, and no operation changes ids. -/
def WF (s : Structure) : Prop :=
  (∀ (i : Nat) (n : Node), s.nodes[i]? = some n → n.id = i) ∧
  (∀ sp ∈ s.springs, sp.a < s.nodes.length ∧ sp.b < s.nodes.length)

/-- A structure is spring-consistent when a spring is active exactly
when both of its endpoint nodes are active. -/
def SC (s : Structure) : Prop :=
  ∀ sp ∈ s.springs, sp.active = (activeAt s sp.a && activeAt s sp.b)

instance (s : Structure) : Decidable (SC s) := by
  unfold SC; infer_instance

/-! ### Graph layer

`validators.py` builds a `networkx.Graph` whose node set is the set of
active node ids and whose edges come from active springs.
`networkx` silently adds an edge's endpoints to the vertex set, so the
effective vertex set is the union of the active node ids and the
endpoints of active springs; the embedding reproduces that. -/

/-- Ids of active nodes, in storage order. -/
def activeIds (s : Structure) : List Nat :=
  (s.nodes.filter (·.active)).map (·.id)

/-- Endpoint pairs of active springs, in storage order. -/
def activeEdges (s : Structure) : List (Nat × Nat) :=
  (s.springs.filter (·.active)).map fun sp => (sp.a, sp.b)

/-- The vertex set of the `networkx` graph: active node ids together
with the endpoints of active springs (without duplicates). -/
def graphVerts (s : Structure) : List Nat :=
  (activeIds s ++ (activeEdges s).flatMap fun e => [e.1, e.2]).dedup

/-- Whether `u` and `v` are joined by some edge of the list. -/
def adjacent (edges : List (Nat × Nat)) (u v : Nat) : Bool :=
  edges.any fun e => (e.1 = u ∧ e.2 = v) ∨ (e.1 = v ∧ e.2 = u)

/-- One step of breadth-first closure: add every vertex of `verts`
adjacent to the current set. -/
def stepSet (edges : List (Nat × Nat)) (verts S : List Nat) : List Nat :=
  S ++ verts.filter fun v => ¬ v ∈ S ∧ S.any fun u => adjacent edges u v

/-- Vertices of `verts` reachable from `r` through `edges`, computed by
iterating the closure step `verts.length` times (enough to reach the
fixpoint). -/
def reachFrom (edges : List (Nat × Nat)) (verts : List Nat) (r : Nat) : List Nat :=
  Nat.rec (motive := fun _ => List Nat) [r]
    (fun _ S => stepSet edges verts S) verts.length

/-- `StructureValidator.is_connected`: trivially true for at most one
active node, otherwise every graph vertex must be reachable from the
first one. -/
def isConnected (s : Structure) : Bool :=
  let act := activeIds s
  if act.length ≤ 1 then true
  else
    let verts := graphVerts s
    let edges := activeEdges s
    match verts with
    | [] => true
    | r :: _ => verts.all fun v => v ∈ reachFrom edges verts r

/-- `StructureValidator.has_load_paths`: false when no active node has
a fixed degree of freedom; otherwise every active node carrying a
non-zero force must reach some support. -/
def hasLoadPaths (s : Structure) : Bool :=
  let verts := graphVerts s
  let edges := activeEdges s
  let supports := (s.nodes.filter fun n => n.active ∧ (n.fix_x ∨ n.fix_y)).map (·.id)
  if supports.isEmpty then false
  else s.nodes.all fun n =>
    if n.active ∧ (n.force_x.nz ∨ n.force_y.nz) then
      supports.any fun sid => sid ∈ reachFrom edges verts n.id
    else true

/-- Displacement vector of a spring: endpoint `b` position minus
endpoint `a` position (`get_direction_vector` before normalisation). -/
def springVec (s : Structure) (sp : Spring) : Int × Int :=
  match s.nodes[sp.a]?, s.nodes[sp.b]? with
  | some na, some nb => (nb.x - na.x, nb.y - na.y)
  | _, _ => (0, 0)

/-- Squared length of an integer vector. -/
def lenSq (v : Int × Int) : Int := v.1 * v.1 + v.2 * v.2

/-- The source tests `|cross(ref_unit, d_unit)| < 1e-6` on normalised
direction vectors.  In exact arithmetic that is equivalent to
`cross(ref, d)² · 10¹² < lenSq ref · lenSq d` on the raw vectors. -/
def nearParallel (r d : Int × Int) : Bool :=
  decide ((r.1 * d.2 - r.2 * d.1) ^ 2 * 10 ^ 12 < lenSq r * lenSq d)

/-- `StructureValidator.neighbors_stable_after_removal`: after
hypothetically removing `nid`, every active, not fully fixed neighbour
must keep at least two remaining incident active springs that are not
all mutually near-parallel. -/
def neighborsStable (s : Structure) (nid : Nat) : Bool :=
  let incident := fun (sp : Spring) => sp.active ∧ (sp.a = nid ∨ sp.b = nid)
  let affected := (s.springs.filter incident).map (·.id)
  let neighbors := ((s.springs.filter incident).map fun sp =>
    if sp.a = nid then sp.b else sp.a).dedup
  neighbors.all fun nbId =>
    match s.nodes[nbId]? with
    | none => true
    | some node =>
      if ¬ node.active then true
      else if node.fix_x ∧ node.fix_y then true
      else
        let dirs := (s.springs.filter fun sp =>
          sp.active ∧ ¬ sp.id ∈ affected ∧ (sp.a = nbId ∨ sp.b = nbId)).map (springVec s)
        match dirs with
        | [] => false
        | [_] => false
        | ref :: rest => ¬ rest.all fun d => nearParallel ref d

/-- `StructureValidator.can_remove_node`: short-circuit on the local
mechanism check, then speculatively deactivate the node and its active
incident springs, evaluate connectivity and (only if connected) load
paths, and restore the node and the recorded springs.  Returns the
verdict together with the (restored) structure state.  The source
records the affected spring objects and re-activates exactly those;
since those are exactly the positions satisfying `incident` in the
entry state, the restored state `s2` is written directly over the
entry lists (the composition of the deactivation and the recorded
re-activation). -/
def canRemoveNode (s : Structure) (nid : Nat) : Bool × Structure :=
  if ¬ neighborsStable s nid then (false, s)
  else
    let incident := fun (sp : Spring) => sp.active ∧ (sp.a = nid ∨ sp.b = nid)
    let s1 : Structure :=
      { s with
        nodes := modifyAt (fun n => { n with active := false }) nid s.nodes
        springs := s.springs.map fun sp =>
          if incident sp then { sp with active := false } else sp }
    let connected := isConnected s1
    let lp := if connected then hasLoadPaths s1 else false
    let s2 : Structure :=
      { s1 with
        nodes := modifyAt (fun n => { n with active := true }) nid s.nodes
        springs := s.springs.map fun sp =>
          if incident sp then { sp with active := true } else sp }
    (connected && lp, s2)

/-- Number of active springs incident to `v` (`degree` dictionary of
`optimization_batch` / `_cleanup_dangling`; a spring contributes to
both endpoints). -/
def activeDegree (s : Structure) (v : Nat) : Nat :=
  (s.springs.countP fun sp => sp.active ∧ sp.a = v) +
  (s.springs.countP fun sp => sp.active ∧ sp.b = v)

/-- Number of connected components of the graph `(verts, edges)`. -/
def compCountGo (edges : List (Nat × Nat)) (verts : List Nat) : Nat → List Nat → Nat
  | 0, _ => 0
  | _, [] => 0
  | fuel + 1, v :: rest =>
    1 + compCountGo edges verts fuel (rest.filter fun w => ¬ w ∈ reachFrom edges verts v)

/-- Number of connected components. -/
def componentsCount (edges : List (Nat × Nat)) (verts : List Nat) : Nat :=
  compCountGo edges verts verts.length verts

/-- `networkx.articulation_points` over the active graph: the vertices
whose removal increases the number of connected components. -/
def articulationPoints (s : Structure) : List Nat :=
  let verts := graphVerts s
  let edges := activeEdges s
  verts.filter fun v =>
    componentsCount (edges.filter fun e => e.1 ≠ v ∧ e.2 ≠ v) (verts.erase v) >
    componentsCount edges verts

/-! ### Equilibrium solver (`solver/fem_solver.py`)

The sparse factorisation `scipy.sparse.linalg.spsolve` operates on
floats; it is abstracted as an oracle mapping the free index set and a
flag (`false` = plain `K_ff`, `true` = regularised `K_ff + εI`) to an
outcome: an exception, or a value vector together with the result of
the `np.isfinite` check.  Everything else — the constrained index set,
the reduction to free indices, the retry policy and the scatter of the
solution back to full length — is embedded exactly. -/

/-- Outcome of one `spsolve` call. -/
inductive SpOutcome
  | raises
  | vals (finite : Bool) (xs : List Frac)
deriving DecidableEq, Repr

/-- Python-style result: an uncaught exception or a value. -/
inductive PyResult (α : Type)
  | raises
  | ok (a : α)
deriving DecidableEq, Repr

/-- `get_fixed_dofs`: both DOFs of every inactive node, plus the
explicitly fixed DOFs of active nodes. -/
def getFixedDofs (s : Structure) : List Nat :=
  s.nodes.flatMap fun n =>
    if ¬ n.active then [2 * n.id, 2 * n.id + 1]
    else (if n.fix_x then [2 * n.id] else []) ++ (if n.fix_y then [2 * n.id + 1] else [])

/-- `assemble_force_vector`: length `2N`, `F[2i] = force_x`,
`F[2i+1] = -force_y` (the vertical sign flip of the source). -/
def assembleForceVector (s : Structure) : List Frac :=
  s.nodes.flatMap fun n => [n.force_x, n.force_y.neg]

/-- The free DOF indices: `range n` minus the fixed ones (the model of
`np.setdiff1d(np.arange(n), fixed)`). -/
def freeDofs (n : Nat) (fixedIdx : List Nat) : List Nat :=
  (List.range n).filter fun i => ¬ i ∈ fixedIdx

/-- Scatter the reduced solution back to full length: position `i`
receives the entry of `xs` at the rank of `i` inside `free`, and `0`
at every constrained position. -/
def scatter (n : Nat) (free : List Nat) (xs : List Frac) : List Frac :=
  (List.range n).map fun i =>
    match free.indexOf? i with
    | some j => xs.getD j Frac.zero
    | none => Frac.zero

/-- `fem_solver.solve`: reduce to the free DOFs, call the solver, on
failure (exception or non-finite values) retry once on the regularised
system, and on a second failure return `none`.  The function itself
never raises. -/
def solveRed (o : List Nat → Bool → SpOutcome) (n : Nat) (fixedIdx : List Nat) :
    Option (List Frac) :=
  let free := freeDofs n fixedIdx
  if free.isEmpty then some (List.replicate n Frac.zero)
  else
    match o free false with
    | .vals true xs => some (scatter n free xs)
    | _ =>
      match o free true with
      | .vals true xs => some (scatter n free xs)
      | _ => none

/-- `solve_structure`: assemble (pure), assert that at least one DOF is
constrained (raising otherwise), solve on the free DOFs and write the
displacements back into the nodes.  The oracle additionally receives
the current structure, abstracting the dependence of `K` on the active
springs. -/
def solveStructure (o : Structure → List Nat → Bool → SpOutcome) (s : Structure) :
    PyResult (Option (List Frac) × Structure) :=
  let F := assembleForceVector s
  let fixed := getFixedDofs s
  if fixed.isEmpty then .raises
  else
    match solveRed (o s) F.length fixed with
    | some u => .ok (some u, writeBackU s u)
    | none => .ok (none, s)

/-! ### Topology optimizer (`optimizer/topology_optimizer.py`)

Floating-point quantities derived from a displacement field are
abstracted by two further oracles: `sE` gives a spring's strain energy
`0.5·uᵀ·Ko·u` (scaled by `E/210`) and `stO` its stress.  All selection,
mutation, snapshot and scheduling logic is embedded exactly. -/

/-- The numerical oracles: the sparse solver, the spring strain-energy
values and the spring stress values. -/
structure Orac where
  sp : Structure → List Nat → Bool → SpOutcome
  sE : Structure → List Frac → Nat → Frac
  stO : Structure → List Frac → Nat → Frac

/-- `compute_spring_energies`: id/energy pairs of the active springs,
in storage order. -/
def computeSpringEnergies (o : Orac) (s : Structure) (u : List Frac) : List (Nat × Frac) :=
  s.springs.filterMap fun sp => if sp.active then some (sp.id, o.sE s u sp.id) else none

/-- `compute_spring_stresses`: id/stress pairs of the active springs. -/
def computeSpringStresses (o : Orac) (s : Structure) (u : List Frac) : List (Nat × Frac) :=
  s.springs.filterMap fun sp => if sp.active then some (sp.id, o.stO s u sp.id) else none

/-- Importance of one node: half of each incident active spring's
energy, accumulated in spring-storage order. -/
def nodeEnergyOf (o : Orac) (s : Structure) (u : List Frac) (nid : Nat) : Frac :=
  s.springs.foldl (fun acc sp =>
    if sp.active then
      let half := (o.sE s u sp.id).div ⟨2, 1⟩
      let acc1 := if sp.a = nid then acc.add half else acc
      if sp.b = nid then acc1.add half else acc1
    else acc) Frac.zero

/-- `compute_node_energies`: importance of every active node that has
no fixed DOF and no applied force, keyed by id in storage order. -/
def computeNodeEnergies (o : Orac) (s : Structure) (u : List Frac) : List (Nat × Frac) :=
  s.nodes.filterMap fun n =>
    if n.active ∧ ¬ (n.fix_x ∨ n.fix_y) ∧ ¬ (n.force_x.nz ∨ n.force_y.nz) then
      some (n.id, nodeEnergyOf o s u n.id)
    else none

/-- Parameters of one `optimization_batch` call. -/
structure BatchPs where
  u : List Frac
  batchSize : Int
  validateFem : Bool
  fastMode : Bool
  maxFemAttempts : Nat
  useSymmetry : Bool

/-- Running state of the candidate loop of `optimization_batch`. -/
structure BatchSt where
  cur : Structure
  removed : Nat
  femAttempts : Nat
  processed : List Nat

/-- The validity check of one candidate inside `optimization_batch`:
articulation-point protection plus the local mechanism check in fast
mode, the mechanism check alone for (stale-)degree ≤ 1 nodes, and the
full `can_remove_node` otherwise.  Returns the verdict and the
structure state after the check (`can_remove_node` restores its
speculative mutation). -/
def checkCandidate (fastMode : Bool) (prot : List Nat) (s0 cur : Structure) (nid : Nat) :
    Bool × Structure :=
  if fastMode then
    if nid ∈ prot then (false, cur)
    else (neighborsStable cur nid, cur)
  else if activeDegree s0 nid ≤ 1 then (neighborsStable cur nid, cur)
  else canRemoveNode cur nid

/-- The mirror-candidate computation of `optimization_batch` under
`use_symmetry`: the reflection across the vertical axis, accepted only
if distinct, unprocessed, active, free and unloaded. -/
def mirrorCandidate (useSymmetry : Bool) (w nid : Nat) (processed : List Nat)
    (cur : Structure) : Option Nat :=
  if useSymmetry then
    let x := nid % w
    let m := (nid / w) * w + (w - 1 - x)
    if m ≠ nid ∧ ¬ m ∈ processed then
      match cur.nodes[m]? with
      | some mn =>
        if mn.active ∧ ¬ mn.fix_x ∧ ¬ mn.fix_y ∧ ¬ mn.force_x.nz ∧ ¬ mn.force_y.nz
        then some m else none
      | none => none
    else none
  else none

/-- The candidate loop of `optimization_batch`.  `s0` is the structure
at batch entry (stale `degree` dictionary and articulation set, and
the grid width for the mirror computation). -/
def batchGo (o : Orac) (s0 : Structure) (ps : BatchPs) (protectedIds : List Nat) :
    List (Nat × Frac) → BatchSt → PyResult (Structure × Nat)
  | [], st => .ok (st.cur, st.removed)
  | (nid, _) :: rest, st =>
    if ps.batchSize ≤ (st.removed : Int) then .ok (st.cur, st.removed)
    else if nid ∈ st.processed then batchGo o s0 ps protectedIds rest st
    else
      let checkRes := checkCandidate ps.fastMode protectedIds s0 st.cur nid
      if ¬ checkRes.1 then batchGo o s0 ps protectedIds rest { st with cur := checkRes.2 }
      else
        let cur1 := checkRes.2
        let mirror0 := mirrorCandidate ps.useSymmetry s0.width nid st.processed cur1
        let cur2 := removeNode cur1 nid
        let proc2 := nid :: st.processed
        let next :=
          match mirror0 with
          | none => (cur2, proc2, (none : Option Nat))
          | some m =>
            let mRes := checkCandidate ps.fastMode protectedIds s0 cur2 m
            if mRes.1 then (removeNode mRes.2 m, m :: proc2, some m)
            else (mRes.2, proc2, none)
        let cur3 := next.1
        let proc3 := next.2.1
        let mirror := next.2.2
        if ps.validateFem then
          let fa := st.femAttempts + 1
          match solveStructure o.sp cur3 with
          | .raises => .raises
          | .ok (none, cur4) =>
            let cur5 := restoreNode cur4 nid
            let proc4 := proc3.erase nid
            let afterM :=
              match mirror with
              | some m => (restoreNode cur5 m, proc4.erase m)
              | none => (cur5, proc4)
            if 0 < ps.maxFemAttempts ∧ ps.maxFemAttempts ≤ fa then .ok (afterM.1, st.removed)
            else batchGo o s0 ps protectedIds rest
              { cur := afterM.1, removed := st.removed, femAttempts := fa, processed := afterM.2 }
          | .ok (some _, cur4) =>
            batchGo o s0 ps protectedIds rest
              { cur := cur4, removed := st.removed + 1 + (if mirror.isSome then 1 else 0),
                femAttempts := fa, processed := proc3 }
        else
          batchGo o s0 ps protectedIds rest
            { cur := cur3, removed := st.removed + 1 + (if mirror.isSome then 1 else 0),
              femAttempts := st.femAttempts, processed := proc3 }

/-- `optimization_batch`: score and rank the removal candidates
(ascending by importance, stable, hence equal to Python's `sorted`),
then walk the ranked list. -/
def optimizationBatch (o : Orac) (s : Structure) (ps : BatchPs) : PyResult (Structure × Nat) :=
  let ne := computeNodeEnergies o s ps.u
  if ne.isEmpty then .ok (s, 0)
  else
    let protectedIds := if ps.fastMode then articulationPoints s else []
    let ranked := List.insertionSort (fun a b => Frac.ble a.2 b.2 = true) ne
    batchGo o s ps protectedIds ranked { cur := s, removed := 0, femAttempts := 0, processed := [] }

/-- `_adaptive_batch_size`. -/
def adaptiveBatchSize (progress : Frac) (nActive : Nat) : Int :=
  let frac : Frac :=
    if progress.blt ⟨30, 100⟩ then ⟨2, 100⟩
    else if progress.blt ⟨60, 100⟩ then ⟨1, 100⟩
    else if progress.blt ⟨85, 100⟩ then ⟨2, 1000⟩
    else Frac.zero
  if Frac.zero.blt frac then max 1 ((Frac.mul ⟨(nActive : Int), 1⟩ frac).truncz) else 1

/-- One sweep of `_cleanup_dangling`: degrees are the stale ones from
the sweep entry state, activity is read live. -/
def cleanupPass (s : Structure) : Structure × Nat :=
  (List.range s.nodes.length).foldl (fun acc i =>
    match acc.1.nodes[i]? with
    | none => acc
    | some n =>
      if ¬ n.active then acc
      else if n.fix_x ∨ n.fix_y then acc
      else if n.force_x.nz ∨ n.force_y.nz then acc
      else if activeDegree s n.id ≤ 1 then (removeNode acc.1 n.id, acc.2 + 1)
      else acc) (s, 0)

/-- The `while changed` loop of `_cleanup_dangling`; each continuing
sweep removes at least one active node, so `nodes.length + 1` sweeps
always reach the fixpoint. -/
def cleanupGo : Nat → Structure → Nat → Structure × Nat
  | 0, s, tot => (s, tot)
  | fuel + 1, s, tot =>
    let p := cleanupPass s
    if p.2 = 0 then (s, tot) else cleanupGo fuel p.1 (tot + p.2)

/-- `_cleanup_dangling`. -/
def cleanupDangling (s : Structure) : Structure × Nat :=
  cleanupGo (s.nodes.length + 1) s 0

/-- The retry loop of `_halving_fallback` (six rounds). -/
def halvingGo (o : Orac) (u : List Frac) (fastMode : Bool) (snap : List Bool × List Bool) :
    Nat → Int → Structure → PyResult (Structure × Nat)
  | 0, _, s => .ok (s, 0)
  | fuel + 1, bs, s =>
    match optimizationBatch o s
      { u := u, batchSize := bs, validateFem := false, fastMode := fastMode,
        maxFemAttempts := 0, useSymmetry := false } with
    | .raises => .raises
    | .ok (s1, removed) =>
      if 0 < removed then
        match solveStructure o.sp s1 with
        | .raises => .raises
        | .ok (some _, s2) => .ok (s2, removed)
        | .ok (none, s2) =>
          halvingGo o u fastMode snap fuel (max 1 (bs.fdiv 2)) (restoreSnapshot s2 snap)
      else
        halvingGo o u fastMode snap fuel (max 1 (bs.fdiv 2)) (restoreSnapshot s1 snap)

/-- `_halving_fallback`. -/
def halvingFallback (o : Orac) (s : Structure) (u : List Frac) (remaining : Int)
    (fastMode : Bool) : PyResult (Structure × Nat) :=
  halvingGo o u fastMode (takeSnapshot s) 6 (min 20 remaining) s

/-- Mutable state of the `run` main loop: the structure, the
consecutive-failure counter, the current snapshot (bitmaps plus the
displacement field it was taken with), the progress clamps, the local
variable `n_active`, the energy history and the sequence of progress
callbacks already emitted. -/
structure RunSt where
  s : Structure
  failures : Nat
  snap : Option ((List Bool × List Bool) × List Frac)
  maxProg : Frac
  minActive : Nat
  nActiveVar : Nat
  hist : List Frac
  events : List (Frac × Nat × Nat)
deriving Repr

/-- Result of one loop iteration: exit the loop or continue. -/
inductive StepOut
  | halt (st : RunSt)
  | cont (st : RunSt)

/-- The progress fraction: `min(removed_so_far / nodes_to_remove, 1)`
when there is something to remove, else `1`. -/
def progressOf (totalNodes nodesToRemove na : Nat) : Frac :=
  if 0 < nodesToRemove then
    Frac.fmin (Frac.mk' (Int.ofNat (totalNodes - na)) (Int.ofNat nodesToRemove)) Frac.one
  else Frac.one

/-- Clamp and emit one progress callback: the reported fraction is the
running maximum, the reported active count the running minimum. -/
def emitProgress (target na : Nat) (p : Frac) (st : RunSt) :
    Frac × Nat × List (Frac × Nat × Nat) :=
  let mp := Frac.fmax st.maxProg p
  let ma := min st.minActive na
  (mp, ma, st.events ++ [(mp, ma, target)])

/-- The rollback branch of one `run` iteration (entered when the
equilibrium solve fails); the state's structure field already holds
the solver's returned structure. -/
def runStepB (o : Orac) (fastMode useSymmetry : Bool)
    (totalNodes targetNodes nodesToRemove : Nat) (st : RunSt) : PyResult StepOut :=
  match st.snap with
  | none => .ok (.halt st)
  | some (bits, snapU) =>
    let s2 := restoreSnapshot st.s bits
    if fastMode then
      match halvingFallback o s2 snapU ((st.nActiveVar : Int) - (targetNodes : Int)) true with
      | .raises => .raises
      | .ok (s3, halved) =>
        if halved = 0 then .ok (.halt { st with s := s3, snap := none })
        else
          let na := activeNodeCount s3
          let pr := emitProgress targetNodes na (progressOf totalNodes nodesToRemove na) st
          .ok (.cont { st with s := s3, snap := none, maxProg := pr.1, minActive := pr.2.1, nActiveVar := na, events := pr.2.2 })
    else
      match optimizationBatch o s2
        { u := snapU, batchSize := 1, validateFem := true, fastMode := false,
          maxFemAttempts := 0, useSymmetry := useSymmetry } with
      | .raises => .raises
      | .ok (s3, removed) =>
        if removed = 0 then .ok (.halt { st with s := s3, snap := none })
        else
          let na := activeNodeCount s3
          let pr := emitProgress targetNodes na (progressOf totalNodes nodesToRemove na) st
          .ok (.cont { st with s := s3, snap := none, maxProg := pr.1, minActive := pr.2.1, nActiveVar := na, events := pr.2.2 })

/-- The optimization branch of one `run` iteration (entered when the
equilibrium solve succeeds and no stress break fires); the state's
structure field already holds the solver's returned structure. -/
def runStepA (o : Orac) (fastMode useSymmetry : Bool)
    (totalNodes targetNodes nodesToRemove : Nat) (u : List Frac) (st : RunSt) :
    PyResult StepOut :=
  let energies := computeSpringEnergies o st.s u
  let hist' := st.hist ++ [Frac.lsum (energies.map (·.2))]
  let na := activeNodeCount st.s
  let p := progressOf totalNodes nodesToRemove na
  let bs0 : Int :=
    if fastMode then
      let frac : Frac :=
        if p.blt ⟨50, 100⟩ then ⟨3, 100⟩
        else if p.blt ⟨80, 100⟩ then ⟨15, 1000⟩
        else ⟨5, 1000⟩
      min 30 (max 1 ((Frac.mul ⟨(na : Int), 1⟩ frac).truncz))
    else adaptiveBatchSize p na
  let bs := min bs0 ((na : Int) - (targetNodes : Int))
  let snap' := (takeSnapshot st.s, u)
  match optimizationBatch o st.s
    { u := u, batchSize := bs, validateFem := false, fastMode := fastMode,
      maxFemAttempts := 0, useSymmetry := useSymmetry } with
  | .raises => .raises
  | .ok (s3, removed) =>
    if removed = 0 then
      let f' := st.failures + 1
      if 3 ≤ f' then
        .ok (.halt { st with s := s3, hist := hist', snap := some snap', failures := f', nActiveVar := na })
      else
        .ok (.cont { st with s := s3, hist := hist', snap := some snap', failures := f', nActiveVar := na })
    else
      let s4 := (cleanupDangling s3).1
      let na' := activeNodeCount s4
      let pr := emitProgress targetNodes na' (progressOf totalNodes nodesToRemove na') st
      .ok (.cont { s := s4, failures := 0, snap := some snap', maxProg := pr.1, minActive := pr.2.1, nActiveVar := na', hist := hist', events := pr.2.2 })

/-- One iteration of the `while` loop of `TopologyOptimizer.run`. -/
def runStep (o : Orac) (fastMode useSymmetry : Bool)
    (totalNodes targetNodes nodesToRemove : Nat)
    (stressInfo : Option (Frac × Frac)) (st : RunSt) : PyResult StepOut :=
  if ¬ (targetNodes < activeNodeCount st.s) then .ok (.halt st)
  else
    match solveStructure o.sp st.s with
    | .raises => .raises
    | .ok (none, s1) =>
      runStepB o fastMode useSymmetry totalNodes targetNodes nodesToRemove { st with s := s1 }
    | .ok (some u, s1) =>
      let stressBreak : Bool :=
        match stressInfo with
        | some (limit, sref) =>
          let cur := computeSpringStresses o s1 u
          if ¬ cur.isEmpty then limit.blt ((Frac.lmax (cur.map (·.2))).div sref) else false
        | none => false
      if stressBreak then .ok (.halt { st with s := s1 })
      else runStepA o fastMode useSymmetry totalNodes targetNodes nodesToRemove u { st with s := s1 }

/-- Result of the fuelled loop. -/
inductive LoopRes
  | raises
  | out (st : RunSt)
  | fuelex

/-- The fuelled `while` loop. -/
def runLoop (o : Orac) (fastMode useSymmetry : Bool)
    (totalNodes targetNodes nodesToRemove : Nat)
    (stressInfo : Option (Frac × Frac)) : Nat → RunSt → LoopRes
  | 0, _ => .fuelex
  | fuel + 1, st =>
    match runStep o fastMode useSymmetry totalNodes targetNodes nodesToRemove stressInfo st with
    | .raises => .raises
    | .ok (.halt st') => .out st'
    | .ok (.cont st') =>
      runLoop o fastMode useSymmetry totalNodes targetNodes nodesToRemove stressInfo fuel st'

/-- Termination measure of the loop: lexicographic combination of the
snapshot-or-current active count, the current active count, and the
remaining failure allowance, flattened into one natural number. -/
def runMeasure (st : RunSt) : Nat :=
  let N := st.s.nodes.length
  let base :=
    match st.snap with
    | some sn => sn.1.1.countP id
    | none => activeNodeCount st.s
  let sflag : Nat := match st.snap with | none => 1 | some _ => 0
  4 * (N + 1) * (2 * base + sflag) + 4 * activeNodeCount st.s + (3 - st.failures)

/-- The initial loop state of `TopologyOptimizer.run`. -/
def runSt0 (total target : Nat) (s0 : Structure) : RunSt :=
  { s := s0, failures := 0, snap := none, maxProg := Frac.zero,
    minActive := total, nActiveVar := total, hist := [],
    events := [(Frac.zero, total, target)] }

/-- The main loop of `TopologyOptimizer.run` and its post-processing:
the fuelled `while` loop (fuel `runMeasure + 1`, which the termination
theorem shows is never exhausted), the final snapshot check with its
solve-or-rollback, and the closing cleanup sweep. -/
def runMain (o : Orac) (fastMode useSymmetry : Bool) (total target : Nat)
    (stressInfo : Option (Frac × Frac)) (s0 : Structure) :
    PyResult (Structure × List Frac × List (Frac × Nat × Nat)) :=
  match runLoop o fastMode useSymmetry total target (total - target) stressInfo
    (runMeasure (runSt0 total target s0) + 1) (runSt0 total target s0) with
  | .raises => .raises
  | .fuelex => .raises
  | .out stF =>
    let sEnd : PyResult Structure :=
      match stF.snap with
      | none => .ok stF.s
      | some sn =>
        match solveStructure o.sp stF.s with
        | .raises => .raises
        | .ok (none, s') => .ok (restoreSnapshot s' sn.1)
        | .ok (some _, s') => .ok s'
    match sEnd with
    | .raises => .raises
    | .ok sLast => .ok ((cleanupDangling sLast).1, stF.hist, stF.events)

/-- `TopologyOptimizer.run`.  The returned triple is the final
structure, the energy history, and the sequence of
`(progress, active, target)` triples passed to the progress callback. -/
def run (o : Orac) (s : Structure) (massFraction : Frac)
    (stressRatioLimit : Option Frac) (fastMode useSymmetry : Bool) :
    PyResult (Structure × List Frac × List (Frac × Nat × Nat)) :=
  if ¬ (Frac.zero.blt massFraction ∧ massFraction.blt Frac.one) then .raises
  else
    let total := s.nodes.length
    let target := max 2 ((Frac.mul ⟨(total : Int), 1⟩ massFraction).truncz.toNat)
    let pre : PyResult (Option (Frac × Frac) × Structure) :=
      match stressRatioLimit with
      | none => .ok (none, s)
      | some limit =>
        match solveStructure o.sp s with
        | .raises => .raises
        | .ok (none, s') => .ok (none, s')
        | .ok (some uR, s') =>
          let refs := computeSpringStresses o s' uR
          if refs.isEmpty then .ok (none, s')
          else .ok (some (limit, Frac.lmax (refs.map (·.2))), s')
    match pre with
    | .raises => .raises
    | .ok (stressInfo, s0) => runMain o fastMode useSymmetry total target stressInfo s0

/-! ### Test fixtures

Concrete structures used to instantiate theorems with hypotheses and
to refute over-general claims. -/

/-- Mark node `i` as a support (both DOFs fixed). -/
def withFixed (s : Structure) (i : Nat) : Structure :=
  { s with nodes := modifyAt (fun n => { n with fix_x := true, fix_y := true }) i s.nodes }

/-- Apply a vertical force at node `i`. -/
def withForceY (s : Structure) (i : Nat) (v : Frac) : Structure :=
  { s with nodes := modifyAt (fun n => { n with force_y := v }) i s.nodes }

/-- The 2×2 demo structure: node 0 fixed, node 3 loaded. -/
def fix22 : Structure := withForceY (withFixed (mkStructure 2 2) 0) 3 ⟨-1, 1⟩

/-- The 3×3 demo structure of `validators.py`: node 0 fixed, node 2
loaded. -/
def fix33 : Structure := withForceY (withFixed (mkStructure 3 3) 0) 2 ⟨-1, 1⟩

/-- An oracle whose solver always succeeds with a zero displacement
field and whose energies and stresses are all zero. -/
def oAll : Orac :=
  { sp := fun _ free _ => .vals true (List.replicate free.length Frac.zero)
    sE := fun _ _ _ => Frac.zero
    stO := fun _ _ _ => Frac.zero }

/-- Deactivate the spring stored at position `i`. -/
def springOff (s : Structure) (i : Nat) : Structure :=
  { s with springs := modifyAt (fun sp => { sp with active := false }) i s.springs }

/-- A 3×3 structure with one manually deactivated spring between two
active nodes (position 4, endpoints 1 and 2): spring-inconsistent. -/
def cex8 : Structure := springOff (withForceY (withFixed (mkStructure 3 3) 0) 8 ⟨-1, 1⟩) 4

/-- An oracle whose solver succeeds exactly on states with all nine
nodes active, forcing a rollback after the first removal. -/
def oCount9 : Orac :=
  { sp := fun s free _ =>
      if activeNodeCount s = 9 then .vals true (List.replicate free.length Frac.zero)
      else .vals false []
    sE := fun _ _ _ => Frac.zero
    stO := fun _ _ _ => Frac.zero }

/-- A 3×3 structure with every node fixed: nothing is removable. -/
def cexAllFix : Structure := (List.range 9).foldl withFixed (mkStructure 3 3)

/-- A sparse 3×3 structure: only nodes 0 (fixed), 2 and 5 (loaded)
remain active, leaving node 0 isolated from the component {2, 5}. -/
def cex2 : Structure :=
  withForceY (withFixed ([1, 3, 4, 6, 7, 8].foldl removeNode (mkStructure 3 3)) 0) 5 ⟨-1, 1⟩

/-! ### Basic lemmas -/

theorem modifyAt_eq_self {α : Type} (f : α → α) (i : Nat) (l : List α)
    (h : ∀ a, l[i]? = some a → f a = a) : modifyAt f i l = l := by
  induction l generalizing i with
  | nil => simp [modifyAt]
  | cons x xs ih =>
    cases i with
    | zero => simpa [modifyAt] using h x (by simp)
    | succ j =>
      simp only [modifyAt, List.cons.injEq, true_and]
      exact ih j fun a ha => h a (by simpa using ha)

theorem map_eq_self_of {α : Type} (f : α → α) (l : List α)
    (h : ∀ a ∈ l, f a = a) : l.map f = l := by
  induction l with
  | nil => rfl
  | cons x xs ih =>
    simp only [List.map_cons, List.cons.injEq]
    exact ⟨h x (by simp), ih fun a ha => h a (by simp [ha])⟩

theorem node_set_active_true (n : Node) (h : n.active = true) :
    { n with active := true } = n := by
  cases n; simp_all

theorem spring_set_active_true (sp : Spring) (h : sp.active = true) :
    { sp with active := true } = sp := by
  cases sp; simp_all

/-- The state component of `can_remove_node` on an active node: the
entry state, exactly. -/
theorem canRemoveNode_state (s : Structure) (nid : Nat) (h : activeAt s nid = true) :
    (canRemoveNode s nid).2 = s := by
  obtain ⟨w, ht, nodes, springs⟩ := s
  simp only [canRemoveNode]
  split
  · rfl
  · simp only [Structure.mk.injEq, true_and]
    constructor
    · exact modifyAt_eq_self _ _ _ fun a ha => by
        apply node_set_active_true
        have hv : activeAt ⟨w, ht, nodes, springs⟩ nid = a.active := by
          simp [activeAt, activeInList, ha]
        rw [← hv]; exact h
    · exact map_eq_self_of _ _ fun sp _ => by
        by_cases hc : sp.active = true ∧ (sp.a = nid ∨ sp.b = nid)
        · simp only [hc, if_pos]
          exact spring_set_active_true sp hc.1
        · simp [hc]

/-- C6 (theorem): `can_remove_node` hands back the lattice exactly as
it found it — the speculative deactivation is unconditionally undone —
so a second call on the returned state yields the same verdict. -/
theorem canRemoveNode_restores (s : Structure) (nid : Nat) (h : activeAt s nid = true) :
    (canRemoveNode s nid).2 = s ∧
    (canRemoveNode ((canRemoveNode s nid).2) nid).1 = (canRemoveNode s nid).1 := by
  have h2 := canRemoveNode_state s nid h
  exact ⟨h2, by rw [h2]⟩

/-- C6 (witness): instantiation at the 3×3 demo structure and node 4. -/
theorem canRemoveNode_restores_witness :
    activeAt fix33 4 = true ∧ (canRemoveNode fix33 4).2 = fix33 :=
  ⟨by decide, (canRemoveNode_restores fix33 4 (by decide)).1⟩

/-! ### Solver theorems -/

theorem indexOf?_eq_none_of_not_mem {l : List Nat} {i : Nat} (h : ¬ i ∈ l) :
    l.indexOf? i = none := by
  induction l with
  | nil => rfl
  | cons x xs ih =>
    have hx : ¬ (x = i) := fun he => h (by simp [he])
    simp only [List.indexOf?, List.findIdx?_cons]
    simp only [List.indexOf?] at ih
    have : (x == i) = false := by simpa using hx
    simp [this, ih fun hm => h (by simp [hm])]

theorem scatter_length (n : Nat) (free : List Nat) (xs : List Frac) :
    (scatter n free xs).length = n := by
  simp [scatter]

theorem scatter_fixed_eq_zero (n : Nat) (fixedIdx : List Nat) (xs : List Frac)
    (i : Nat) (hi : i < n) (hmem : i ∈ fixedIdx) :
    (scatter n (freeDofs n fixedIdx) xs).getD i Frac.zero = Frac.zero := by
  have hnot : ¬ i ∈ freeDofs n fixedIdx := by
    simp [freeDofs, hmem]
  unfold scatter
  rw [List.getD_eq_getElem?_getD]
  rw [List.getElem?_map]
  simp [List.getElem?_range hi, indexOf?_eq_none_of_not_mem hnot]

theorem forceVector_length (s : Structure) :
    (assembleForceVector s).length = 2 * s.nodes.length := by
  unfold assembleForceVector
  induction s.nodes with
  | nil => rfl
  | cons n ns ih => simp [List.flatMap_cons, ih]; omega

/-- The DOF indices of an inactive node are collected by
`get_fixed_dofs`, as are the explicitly fixed DOFs of active nodes. -/
theorem mem_getFixedDofs (s : Structure) (n : Node) (hn : n ∈ s.nodes) :
    (n.active = false → 2 * n.id ∈ getFixedDofs s ∧ 2 * n.id + 1 ∈ getFixedDofs s) ∧
    (n.active = true → (n.fix_x = true → 2 * n.id ∈ getFixedDofs s) ∧
      (n.fix_y = true → 2 * n.id + 1 ∈ getFixedDofs s)) := by
  refine ⟨fun ha => ⟨?_, ?_⟩, fun ha => ⟨fun hf => ?_, fun hf => ?_⟩⟩ <;>
    · unfold getFixedDofs
      rw [List.mem_flatMap]
      refine ⟨n, hn, ?_⟩
      simp_all

/-- C4 (theorem): every successful `solve_structure` returns a vector
of length `2N` whose entries at both DOFs of every inactive node and
at every explicitly fixed DOF of an active node are exactly zero, and
whose free part is exactly what the linear solver produced on the free
index set (or all zeros when no DOF is free). -/
theorem solveStructure_constrained_zero (o : Structure → List Nat → Bool → SpOutcome)
    (s : Structure) (hwf : WF s) (u : List Frac) (s' : Structure)
    (hok : solveStructure o s = .ok (some u, s')) :
    u.length = 2 * s.nodes.length ∧
    (∀ n ∈ s.nodes,
      (n.active = false →
        u.getD (2 * n.id) Frac.zero = Frac.zero ∧ u.getD (2 * n.id + 1) Frac.zero = Frac.zero) ∧
      (n.active = true →
        (n.fix_x = true → u.getD (2 * n.id) Frac.zero = Frac.zero) ∧
        (n.fix_y = true → u.getD (2 * n.id + 1) Frac.zero = Frac.zero))) ∧
    (let nn := 2 * s.nodes.length
     let free := freeDofs nn (getFixedDofs s)
     (free = [] ∧ u = List.replicate nn Frac.zero) ∨
     (∃ xs, (o s free false = .vals true xs ∨ o s free true = .vals true xs) ∧
        u = scatter nn free xs)) := by
  have hlen := forceVector_length s
  unfold solveStructure at hok
  by_cases hfix : (getFixedDofs s).isEmpty
  · simp [hfix] at hok
  · rw [if_neg hfix] at hok
    rcases hred : solveRed (o s) (assembleForceVector s).length (getFixedDofs s) with _ | uu
    · rw [hred] at hok; exact absurd hok (by simp)
    · rw [hred] at hok
      have huu : uu = u := by
        have := hok
        simp only [PyResult.ok.injEq, Prod.mk.injEq, Option.some.injEq] at this
        exact this.1
      subst huu
      unfold solveRed at hred
      rw [hlen] at hred
      set nn := 2 * s.nodes.length with hnn
      set free := freeDofs nn (getFixedDofs s) with hfree
      by_cases hfe : free.isEmpty
      · rw [if_pos hfe] at hred
        have hu : uu = List.replicate nn Frac.zero := by
          simpa using hred.symm
        subst hu
        refine ⟨by simp, ?_, Or.inl ⟨List.isEmpty_iff.mp hfe, rfl⟩⟩
        intro n _
        constructor
        · intro _
          constructor <;> (rw [List.getD_eq_getElem?_getD, List.getElem?_replicate]; split <;> rfl)
        · intro _
          constructor <;> intro _ <;>
            (rw [List.getD_eq_getElem?_getD, List.getElem?_replicate]; split <;> rfl)
      · rw [if_neg hfe] at hred
        have main : ∃ xs, (o s free false = .vals true xs ∨ o s free true = .vals true xs) ∧
            uu = scatter nn free xs := by
          rcases h1 : o s free false with _ | ⟨fin, xs⟩
          · rw [h1] at hred
            rcases h2 : o s free true with _ | ⟨fin2, xs2⟩
            · rw [h2] at hred; simp at hred
            · rw [h2] at hred
              cases fin2
              · simp at hred
              · exact ⟨xs2, Or.inr rfl, by simpa using hred.symm⟩
          · rw [h1] at hred
            cases fin
            · rcases h2 : o s free true with _ | ⟨fin2, xs2⟩
              · rw [h2] at hred; simp at hred
              · rw [h2] at hred
                cases fin2
                · simp at hred
                · exact ⟨xs2, Or.inr rfl, by simpa using hred.symm⟩
            · exact ⟨xs, Or.inl rfl, by simpa using hred.symm⟩
        rcases main with ⟨xs, hxs, hu⟩
        subst hu
        refine ⟨scatter_length _ _ _, ?_, Or.inr ⟨xs, hxs, rfl⟩⟩
        intro n hn
        have hid : n.id < s.nodes.length := by
          rcases List.mem_iff_getElem.mp hn with ⟨i, hi, hgi⟩
          have := hwf.1 i n (by simp [List.getElem?_eq_getElem hi, hgi])
          omega
        have hfd := mem_getFixedDofs s n hn
        constructor
        · intro ha
          exact ⟨scatter_fixed_eq_zero nn _ xs _ (by omega) ((hfd.1 ha).1),
            scatter_fixed_eq_zero nn _ xs _ (by omega) ((hfd.1 ha).2)⟩
        · intro ha
          exact ⟨fun hf => scatter_fixed_eq_zero nn _ xs _ (by omega) ((hfd.2 ha).1 hf),
            fun hf => scatter_fixed_eq_zero nn _ xs _ (by omega) ((hfd.2 ha).2 hf)⟩

/-- A decidable sufficient check for `WF`. -/
theorem wf_of_check (s : Structure)
    (h1 : s.nodes.enum.all (fun p => p.2.id == p.1) = true)
    (h2 : s.springs.all
      (fun sp => decide (sp.a < s.nodes.length) && decide (sp.b < s.nodes.length)) = true) :
    WF s := by
  constructor
  · intro i n h
    have hm : (i, n) ∈ s.nodes.enum := List.mem_enum_iff_getElem?.mpr h
    have := List.all_eq_true.mp h1 _ hm
    simpa using this
  · intro sp hsp
    have := List.all_eq_true.mp h2 _ hsp
    simpa using this

/-- C4 (witness): instantiation at the 2×2 demo structure. -/
theorem solveStructure_constrained_zero_witness :
    WF fix22 ∧
    ∃ u s', solveStructure oAll.sp fix22 = .ok (some u, s') ∧
      u.getD 0 Frac.zero = Frac.zero := by
  have hwf : WF fix22 := wf_of_check fix22 (by decide) (by decide)
  have hok : solveStructure oAll.sp fix22 =
      .ok (some (scatter 8 (freeDofs 8 (getFixedDofs fix22))
        (List.replicate 6 Frac.zero)),
        writeBackU fix22 (scatter 8 (freeDofs 8 (getFixedDofs fix22))
          (List.replicate 6 Frac.zero))) := by decide
  have h := solveStructure_constrained_zero oAll.sp fix22 hwf _ _ hok
  refine ⟨hwf, _, _, hok, ?_⟩
  have hn0 : fix22.nodes.getD 0 (mkNode 0 0 0) ∈ fix22.nodes := by decide
  have h2 := (h.2.1 (fix22.nodes.getD 0 (mkNode 0 0 0)) hn0).2 (by decide)
  have hx := h2.1 (by decide)
  simpa using hx

/-- C5 (theorem): when the direct reduced solve fails (exception or
non-finite values), `solve` retries exactly once on the regularised
system; if the retry yields finite values it returns their scatter,
and if the retry also fails it returns the definitive value `none` —
no exception escapes. -/
theorem solveRed_retry_once (o : List Nat → Bool → SpOutcome) (n : Nat)
    (fixedIdx : List Nat) (hfree : ¬ (freeDofs n fixedIdx).isEmpty)
    (h1 : o (freeDofs n fixedIdx) false = .raises ∨
      ∃ xs, o (freeDofs n fixedIdx) false = .vals false xs) :
    (∀ xs, o (freeDofs n fixedIdx) true = .vals true xs →
      solveRed o n fixedIdx = some (scatter n (freeDofs n fixedIdx) xs)) ∧
    ((o (freeDofs n fixedIdx) true = .raises ∨
      ∃ xs, o (freeDofs n fixedIdx) true = .vals false xs) →
      solveRed o n fixedIdx = none) := by
  unfold solveRed
  rw [if_neg hfree]
  constructor
  · intro xs h2
    rcases h1 with h1 | ⟨ys, h1⟩ <;> rw [h1] <;> rw [h2]
  · intro h2
    rcases h1 with h1 | ⟨ys, h1⟩ <;> rw [h1] <;>
      (rcases h2 with h2 | ⟨zs, h2⟩ <;> rw [h2])

/-- C5 (witness): a concrete oracle whose first call raises and whose
retry reports non-finite values. -/
theorem solveRed_retry_once_witness :
    let o := fun (_ : List Nat) (reg : Bool) =>
      if reg then SpOutcome.vals false [Frac.zero] else SpOutcome.raises
    ¬ (freeDofs 2 [0]).isEmpty ∧ solveRed o 2 [0] = none := by
  intro o
  refine ⟨by decide, ?_⟩
  exact (solveRed_retry_once o 2 [0] (by decide) (Or.inl rfl)).2 (Or.inr ⟨[Frac.zero], rfl⟩)

/-- `get_fixed_dofs` is empty on a structure whose nodes are all
active and unconstrained. -/
theorem getFixedDofs_nil (s : Structure)
    (hact : ∀ n ∈ s.nodes, n.active = true)
    (hfix : ∀ n ∈ s.nodes, n.fix_x = false ∧ n.fix_y = false) :
    getFixedDofs s = [] := by
  unfold getFixedDofs
  rw [List.flatMap_eq_nil_iff]
  intro n hn
  simp [hact n hn, (hfix n hn).1, (hfix n hn).2]

/-- C3 (amended, theorem): a structure in which every node is active
and no node has a fixed DOF is rejected by the assertion of
`solve_structure`: the call raises and the linear solver is never
consulted (the `raises` branch precedes the solve).  The qualification
“every node is active” is essential, see the counterexample. -/
theorem solveStructure_rejects_unsupported (o : Structure → List Nat → Bool → SpOutcome)
    (s : Structure)
    (hact : ∀ n ∈ s.nodes, n.active = true)
    (hfix : ∀ n ∈ s.nodes, n.fix_x = false ∧ n.fix_y = false) :
    solveStructure o s = .raises := by
  unfold solveStructure
  rw [if_pos]
  rw [getFixedDofs_nil s hact hfix]
  rfl

/-- C3 (witness): the fresh 2×2 grid has no supports and is rejected. -/
theorem solveStructure_rejects_unsupported_witness :
    solveStructure oAll.sp (mkStructure 2 2) = .raises := by
  apply solveStructure_rejects_unsupported oAll.sp (mkStructure 2 2)
  · decide
  · decide

/-- Whether a solver result is a successfully computed solution. -/
def isOkSome : PyResult (Option (List Frac) × Structure) → Bool
  | .ok (some _, _) => true
  | _ => false

/-- A 2×2 grid with node 3 deactivated and no supports anywhere. -/
def cex3 : Structure := removeNode (mkStructure 2 2) 3

/-- C3 (counterexample): a structure in which no node has a fixed DOF
(`no supports defined at all`) but one node is inactive is *not*
rejected — `get_fixed_dofs` is non-empty because the inactive node's
DOFs count as constrained, so `solve_structure` reaches the linear
solve and can return a silently computed solution. -/
theorem solveStructure_unsupported_not_rejected :
    (∀ n ∈ cex3.nodes, n.fix_x = false ∧ n.fix_y = false) ∧
    getFixedDofs cex3 ≠ [] ∧
    isOkSome (solveStructure oAll.sp cex3) = true := by
  refine ⟨?_, by decide, by decide⟩
  decide

/-! ### Element stiffness matrix (`model/spring.py`) over the reals

The element formulas involve square roots and `arctan2`, so this part
of the embedding lives in `ℝ` (and is therefore noncomputable); the
integer grid positions are cast into `ℝ`. -/

/-- Cast of a fraction into `ℝ`. -/
noncomputable def Frac.toReal (a : Frac) : ℝ := (a.toRat : ℝ)

/-- `Spring.get_length`: Euclidean distance of the endpoints. -/
noncomputable def springLen (s : Structure) (sp : Spring) : ℝ :=
  Real.sqrt (((springVec s sp).1 : ℝ) ^ 2 + ((springVec s sp).2 : ℝ) ^ 2)

/-- `Spring.get_direction_vector`: the normalised direction from
`node_a` to `node_b`. -/
noncomputable def unitDir (s : Structure) (sp : Spring) : Fin 2 → ℝ :=
  fun i =>
    (if i = 0 then ((springVec s sp).1 : ℝ) else ((springVec s sp).2 : ℝ)) / springLen s sp

/-- `abs(np.degrees(np.arctan2(dy, dx)))`: `arctan2` is the complex
argument of `dx + dy·i`. -/
noncomputable def angleDeg (s : Structure) (sp : Spring) : ℝ :=
  |Complex.arg ⟨((springVec s sp).1 : ℝ), ((springVec s sp).2 : ℝ)⟩| * 180 / Real.pi

/-- The ±5° diagonal detection window of `Spring.get_stiffness`. -/
def isDiagAngle (s : Structure) (sp : Spring) : Prop :=
  |angleDeg s sp - 45| < 5 ∨ |angleDeg s sp - 135| < 5

/-- `Spring.get_stiffness`: the explicit coefficient when set,
otherwise `1/√2` for diagonal springs and `1` for axis-aligned ones. -/
noncomputable def getStiffness (s : Structure) (sp : Spring) : ℝ :=
  match sp.k with
  | some c => c.toReal
  | none =>
    haveI := Classical.propDecidable (isDiagAngle s sp)
    if isDiagAngle s sp then 1 / Real.sqrt 2 else 1

/-- The local 2×2 matrix `[[1,-1],[-1,1]]`. -/
def Kloc : Matrix (Fin 2) (Fin 2) ℝ :=
  Matrix.of fun i j => if i = j then 1 else -1

/-- Outer product of a plane vector with itself. -/
def outerM (e : Fin 2 → ℝ) : Matrix (Fin 2) (Fin 2) ℝ :=
  Matrix.of fun i j => e i * e j

/-- Kronecker product of two 2×2 matrices as a 4×4 matrix in the DOF
order `[ax, ay, bx, by]`. -/
def kron2 (A B : Matrix (Fin 2) (Fin 2) ℝ) : Matrix (Fin 4) (Fin 4) ℝ :=
  Matrix.of fun i j =>
    A ⟨i.val / 2, by omega⟩ ⟨j.val / 2, by omega⟩ *
    B ⟨i.val % 2, by omega⟩ ⟨j.val % 2, by omega⟩

/-- `Spring.get_stiffness_matrix`: `kron(k·[[1,-1],[-1,1]], outer(e,e))`. -/
noncomputable def getStiffnessMatrix (s : Structure) (sp : Spring) :
    Matrix (Fin 4) (Fin 4) ℝ :=
  kron2 (getStiffness s sp • Kloc) (outerM (unitDir s sp))

/-- One of the two diagonal 2×2 blocks of a 4×4 matrix. -/
def diagBlock (M : Matrix (Fin 4) (Fin 4) ℝ) (b : Fin 2) :
    Matrix (Fin 2) (Fin 2) ℝ :=
  Matrix.of fun i j => M ⟨b.val * 2 + i.val, by omega⟩ ⟨b.val * 2 + j.val, by omega⟩

/-- C7 (amended, theorem): for every element of non-degenerate length,
the stiffness matrix equals `k · kron([[1,-1],[-1,1]], outer(e,e))`
and is symmetric; each diagonal 2×2 block is non-negative-semidefinite
whenever the stiffness coefficient is non-negative — which is always
the case for the auto-derived coefficient, but can fail for a negative
explicit override (see the counterexample). -/
theorem stiffnessMatrix_spec (s : Structure) (sp : Spring)
    (hlen : (1 : ℝ) / 10 ^ 9 < springLen s sp)
    (hk : sp.k = none ∨ ∃ c, sp.k = some c ∧ (0 : ℝ) ≤ c.toReal) :
    getStiffnessMatrix s sp = getStiffness s sp • kron2 Kloc (outerM (unitDir s sp)) ∧
    (getStiffnessMatrix s sp).transpose = getStiffnessMatrix s sp ∧
    (∀ b : Fin 2, ∀ v : Fin 2 → ℝ,
      0 ≤ Matrix.dotProduct v ((diagBlock (getStiffnessMatrix s sp) b).mulVec v)) := by
  have hknn : 0 ≤ getStiffness s sp := by
    rcases hk with hk | ⟨c, hk, hc⟩
    · unfold getStiffness
      rw [hk]
      have hs : (0 : ℝ) ≤ 1 / Real.sqrt 2 := by positivity
      by_cases hd : isDiagAngle s sp
      · rwa [if_pos hd]
      · rw [if_neg hd]
        norm_num
    · unfold getStiffness
      rw [hk]
      exact hc
  refine ⟨?_, ?_, ?_⟩
  · ext i j
    simp only [getStiffnessMatrix, kron2, Matrix.smul_apply, Matrix.of_apply, smul_eq_mul]
    ring
  · ext i j
    simp only [getStiffnessMatrix, kron2, Matrix.transpose_apply, Matrix.of_apply,
      Matrix.smul_apply, Kloc, outerM, smul_eq_mul]
    have hK : ∀ a b : Fin 2, (if a = b then (1 : ℝ) else -1) = if b = a then 1 else -1 := by
      intro a b
      by_cases hab : a = b
      · simp [hab]
      · rw [if_neg hab, if_neg fun h => hab h.symm]
    rw [hK]
    ring
  · intro b v
    set k := getStiffness s sp with hkdef
    set e := unitDir s sp with hedef
    have hval : Matrix.dotProduct v ((diagBlock (getStiffnessMatrix s sp) b).mulVec v) =
        k * (e 0 * v 0 + e 1 * v 1) ^ 2 := by
      fin_cases b <;>
        · simp only [diagBlock, getStiffnessMatrix, kron2, Kloc, outerM,
            Matrix.mulVec, Matrix.dotProduct, Fin.sum_univ_two, Matrix.of_apply,
            Matrix.smul_apply, smul_eq_mul, ← hkdef, ← hedef]
          norm_num
          ring
    rw [hval]
    positivity

/-- C7 (witness): a horizontal element with explicit unit stiffness. -/
theorem stiffnessMatrix_spec_witness :
    let sW : Structure :=
      { width := 2, height := 1, nodes := [mkNode 0 0 0, mkNode 1 1 0],
        springs := [⟨0, 0, 1, some ⟨1, 1⟩, true⟩] }
    let spW : Spring := ⟨0, 0, 1, some ⟨1, 1⟩, true⟩
    (1 : ℝ) / 10 ^ 9 < springLen sW spW ∧
    (getStiffnessMatrix sW spW).transpose = getStiffnessMatrix sW spW := by
  intro sW spW
  have hlen : (1 : ℝ) / 10 ^ 9 < springLen sW spW := by
    have hv : springVec sW spW = (1, 0) := by decide
    have hL : springLen sW spW = 1 := by
      unfold springLen
      rw [hv]
      norm_num
    rw [hL]
    norm_num
  exact ⟨hlen, (stiffnessMatrix_spec sW spW hlen
    (Or.inr ⟨⟨1, 1⟩, rfl, by norm_num [Frac.toReal, Frac.toRat]⟩)).2.1⟩

/-- C7 (counterexample): with a negative explicit stiffness override
(`Spring.__init__` accepts any `k`), the first diagonal 2×2 block of
the stiffness matrix is not non-negative-semidefinite: the quadratic
form at `v = (1,0)` is `-1`. -/
theorem stiffnessMatrix_nsd_fails :
    let sN : Structure :=
      { width := 2, height := 1, nodes := [mkNode 0 0 0, mkNode 1 1 0],
        springs := [⟨0, 0, 1, some ⟨-1, 1⟩, true⟩] }
    let spN : Spring := ⟨0, 0, 1, some ⟨-1, 1⟩, true⟩
    (1 : ℝ) / 10 ^ 9 < springLen sN spN ∧
    ¬ (∀ b : Fin 2, ∀ v : Fin 2 → ℝ,
        0 ≤ Matrix.dotProduct v ((diagBlock (getStiffnessMatrix sN spN) b).mulVec v)) := by
  intro sN spN
  have hv : springVec sN spN = (1, 0) := by decide
  have hL : springLen sN spN = 1 := by
    unfold springLen
    rw [hv]
    norm_num
  constructor
  · rw [hL]
    norm_num
  · intro hall
    have h := hall 0 ![1, 0]
    have hcontra : Matrix.dotProduct (![1, 0] : Fin 2 → ℝ)
        ((diagBlock (getStiffnessMatrix sN spN) 0).mulVec ![1, 0]) = -1 := by
      simp only [diagBlock, getStiffnessMatrix, kron2, Kloc, outerM,
        Matrix.mulVec, Matrix.dotProduct, Fin.sum_univ_two, Matrix.of_apply,
        Matrix.smul_apply, smul_eq_mul, unitDir, hv, hL]
      have hk : getStiffness sN spN = -1 := by
        unfold getStiffness
        norm_num [Frac.toReal, Frac.toRat]
      rw [hk]
      norm_num [Matrix.cons_val_zero, Matrix.cons_val_one]
    rw [hcontra] at h
    linarith

end TopOpt

namespace TopOpt

/-! ### List and state lemmas -/

theorem modifyAt_length {α : Type} (f : α → α) (i : Nat) (l : List α) :
    (modifyAt f i l).length = l.length := by
  induction l generalizing i with
  | nil => simp [modifyAt]
  | cons x xs ih =>
    cases i with
    | zero => simp [modifyAt]
    | succ j => simp [modifyAt, ih]

theorem modifyAt_getElem? {α : Type} (f : α → α) (i j : Nat) (l : List α) :
    (modifyAt f i l)[j]? = if i = j then l[j]?.map f else l[j]? := by
  induction l generalizing i j with
  | nil => simp [modifyAt]
  | cons x xs ih =>
    cases i with
    | zero =>
      cases j with
      | zero => simp [modifyAt]
      | succ jj => simp [modifyAt]
    | succ ii =>
      cases j with
      | zero => simp [modifyAt]
      | succ jj => simpa [modifyAt] using ih ii jj

theorem countP_modifyAt {α : Type} (p : α → Bool) (f : α → α) (i : Nat) (l : List α)
    (a : α) (ha : l[i]? = some a) :
    (modifyAt f i l).countP p + (if p a then 1 else 0) =
      l.countP p + (if p (f a) then 1 else 0) := by
  induction l generalizing i with
  | nil => simp at ha
  | cons x xs ih =>
    cases i with
    | zero =>
      have hx : x = a := by simpa using ha
      subst hx
      simp only [modifyAt, List.countP_cons]
      by_cases h1 : p x <;> by_cases h2 : p (f x) <;> simp [h1, h2] <;> omega
    | succ j =>
      have ha' : xs[j]? = some a := by simpa using ha
      simp only [modifyAt, List.countP_cons]
      have := ih j ha'
      by_cases h1 : p x <;> simp [h1] <;> omega

theorem map_modifyAt_eq {α β : Type} (g : α → β) (f : α → α) (i : Nat) (l : List α)
    (h : ∀ a, g (f a) = g a) : (modifyAt f i l).map g = l.map g := by
  induction l generalizing i with
  | nil => simp [modifyAt]
  | cons x xs ih =>
    cases i with
    | zero => simp [modifyAt, h]
    | succ j => simp [modifyAt, ih j]

theorem map_comp_eq {α β : Type} (g : α → β) (f : α → α) (l : List α)
    (h : ∀ a ∈ l, g (f a) = g a) : (l.map f).map g = l.map g := by
  induction l with
  | nil => rfl
  | cons x xs ih =>
    simp only [List.map_cons, List.cons.injEq]
    exact ⟨h x (by simp), ih fun a ha => h a (by simp [ha])⟩

theorem countP_map_le {α : Type} (p : α → Bool) (f : α → α) (l : List α)
    (h : ∀ a ∈ l, p (f a) = true → p a = true) :
    (l.map f).countP p ≤ l.countP p := by
  rw [List.countP_map]
  exact List.countP_mono_left fun a ha hpa => h a ha hpa

/-- Nodes length is preserved by every mutating operation. -/
theorem removeNode_nodes_length (s : Structure) (nid : Nat) :
    (removeNode s nid).nodes.length = s.nodes.length := modifyAt_length _ _ _

theorem restoreNode_nodes_length (s : Structure) (nid : Nat) :
    (restoreNode s nid).nodes.length = s.nodes.length := modifyAt_length _ _ _

theorem activeAt_removeNode (s : Structure) (nid j : Nat) :
    activeAt (removeNode s nid) j = if j = nid then false else activeAt s j := by
  unfold activeAt activeInList removeNode
  simp only [modifyAt_getElem?]
  by_cases h : nid = j
  · subst h
    simp only [if_pos rfl, if_pos rfl]
    cases s.nodes[nid]? <;> simp
  · rw [if_neg h, if_neg fun hh => h hh.symm]

theorem activeAt_restoreNode (s : Structure) (nid j : Nat) :
    activeAt (restoreNode s nid) j =
      if j = nid ∧ nid < s.nodes.length then true else activeAt s j := by
  unfold activeAt activeInList restoreNode
  simp only [modifyAt_getElem?]
  by_cases h : nid = j
  · subst h
    simp only [if_pos rfl]
    by_cases hlt : nid < s.nodes.length
    · rcases List.getElem?_eq_some_iff.mpr ⟨hlt, rfl⟩ with h2
      rcases hx : s.nodes[nid]? with _ | n
      · exact absurd hx (by simp [hlt])
      · simp [hlt]
    · have : s.nodes[nid]? = none := by
        simp [List.getElem?_eq_none_iff]; omega
      simp [this, hlt]
  · rw [if_neg h]
    rw [if_neg (by intro hc; exact h hc.1.symm)]

theorem activeAt_restoreSnapshot (s t : Structure) (j : Nat)
    (hlen : t.nodes.length = s.nodes.length) :
    activeAt (restoreSnapshot s (takeSnapshot t)) j = activeAt t j := by
  unfold activeAt activeInList restoreSnapshot takeSnapshot
  simp only [List.getElem?_zipWith, List.getElem?_map]
  rcases hx : s.nodes[j]? with _ | n <;> rcases hy : t.nodes[j]? with _ | m
  · simp
  · exfalso
    have h1 : s.nodes.length ≤ j := by
      rw [← List.getElem?_eq_none_iff]; exact hx
    have h2 : j < t.nodes.length := List.getElem?_eq_some_iff.mp hy |>.1
    omega
  · exfalso
    have h1 : t.nodes.length ≤ j := by
      rw [← List.getElem?_eq_none_iff]; exact hy
    have h2 : j < s.nodes.length := List.getElem?_eq_some_iff.mp hx |>.1
    omega
  · simp

/-- Active node count after `remove_node`, in additive form. -/
theorem count_removeNode (s : Structure) (nid : Nat) :
    activeNodeCount (removeNode s nid) + (if activeAt s nid = true then 1 else 0) =
      activeNodeCount s := by
  unfold activeNodeCount removeNode activeAt activeInList
  rcases hx : s.nodes[nid]? with _ | n
  · simp only [hx]
    have hmod : modifyAt (fun n => { n with active := false }) nid s.nodes = s.nodes := by
      apply modifyAt_eq_self
      intro a ha
      rw [hx] at ha
      cases ha
    simp [hmod]
  · have h2 := countP_modifyAt (·.active) (fun n => { n with active := false }) nid s.nodes n hx
    have hval : (if (·.active : Node → Bool) ({ n with active := false } : Node) = true
        then 1 else 0) = 0 := by simp
    rw [hval] at h2
    have hbeta : ((fun (x : Node) => x.active) n) = n.active := rfl
    simp only [hbeta] at h2
    simp only [hx]
    omega

theorem count_restoreNode (s : Structure) (nid : Nat)
    (hlt : nid < s.nodes.length) (hin : activeAt s nid = false) :
    activeNodeCount (restoreNode s nid) = activeNodeCount s + 1 := by
  simp only [activeNodeCount, restoreNode]
  rcases hx : s.nodes[nid]? with _ | n
  · exfalso
    have : s.nodes.length ≤ nid := by rw [← List.getElem?_eq_none_iff]; exact hx
    omega
  · have h2 := countP_modifyAt (·.active) (fun n => { n with active := true }) nid s.nodes n hx
    unfold activeAt activeInList at hin
    rw [hx] at hin
    have hin' : n.active = false := by simpa using hin
    have hbeta : ((fun (x : Node) => x.active) n) = n.active := rfl
    simp only [hbeta, hin'] at h2
    simp only [Bool.false_eq_true, if_false, if_true] at h2
    omega

theorem count_restoreSnapshot (s t : Structure)
    (hlen : t.nodes.length = s.nodes.length) :
    activeNodeCount (restoreSnapshot s (takeSnapshot t)) = activeNodeCount t := by
  unfold activeNodeCount restoreSnapshot takeSnapshot
  have : ∀ (l1 : List Node) (l2 : List Node), l2.length = l1.length →
      (l1.zipWith (fun n act => { n with active := act }) (l2.map (·.active))).countP (·.active) =
        l2.countP (·.active) := by
    intro l1
    induction l1 with
    | nil =>
      intro l2 h
      simp only [List.length_nil] at h
      rw [List.length_eq_zero] at h
      subst h
      simp
    | cons x xs ih =>
      intro l2 h
      cases l2 with
      | nil => simp at h
      | cons y ys =>
        simp only [List.map_cons, List.zipWith_cons_cons, List.countP_cons]
        have := ih ys (by simpa using h)
        simp [this]
  exact this s.nodes t.nodes hlen

theorem activeNodeCount_le_length (s : Structure) :
    activeNodeCount s ≤ s.nodes.length := List.countP_le_length _

end TopOpt

namespace TopOpt

/-! ### Skeleton equality and spring consistency -/

/-- Canonical node with the activity bit cleared: two nodes with equal
`stripN` agree on everything except `active`. -/
def stripN (n : Node) : Node := { n with active := false }

/-- Canonical spring with the activity bit cleared. -/
def stripS (sp : Spring) : Spring := { sp with active := false }

/-- Two structures with the same skeleton: equal except possibly in
the activity bits.  Every mutating operation of the program preserves
the skeleton. -/
def skelEq (s t : Structure) : Prop :=
  s.width = t.width ∧ s.height = t.height ∧
  s.nodes.map stripN = t.nodes.map stripN ∧
  s.springs.map stripS = t.springs.map stripS

/-- Whether the node at position `j` is protected (has a fixed DOF or
a non-zero applied force). -/
def ffAt (s : Structure) (j : Nat) : Bool :=
  match s.nodes[j]? with
  | some n => n.fix_x || n.fix_y || n.force_x.nz || n.force_y.nz
  | none => false

/-- Whether the spring stored at position `i` exists and is active. -/
def springActiveAt (s : Structure) (i : Nat) : Bool :=
  match s.springs[i]? with
  | some sp => sp.active
  | none => false

theorem skelEq_refl (s : Structure) : skelEq s s := ⟨rfl, rfl, rfl, rfl⟩

theorem skelEq_symm {s t : Structure} (h : skelEq s t) : skelEq t s :=
  ⟨h.1.symm, h.2.1.symm, h.2.2.1.symm, h.2.2.2.symm⟩

theorem skelEq_trans {s t u : Structure} (h1 : skelEq s t) (h2 : skelEq t u) : skelEq s u :=
  ⟨h1.1.trans h2.1, h1.2.1.trans h2.2.1, h1.2.2.1.trans h2.2.2.1, h1.2.2.2.trans h2.2.2.2⟩

theorem skelEq_nodes_length {s t : Structure} (h : skelEq s t) :
    s.nodes.length = t.nodes.length := by
  have := congrArg List.length h.2.2.1
  simpa using this

theorem skelEq_springs_length {s t : Structure} (h : skelEq s t) :
    s.springs.length = t.springs.length := by
  have := congrArg List.length h.2.2.2
  simpa using this

theorem skelEq_node_strip {s t : Structure} (h : skelEq s t) (j : Nat) :
    (s.nodes[j]?).map stripN = (t.nodes[j]?).map stripN := by
  have := congrArg (fun l => l[j]?) h.2.2.1
  simpa using this

theorem skelEq_spring_strip {s t : Structure} (h : skelEq s t) (i : Nat) :
    (s.springs[i]?).map stripS = (t.springs[i]?).map stripS := by
  have := congrArg (fun l => l[i]?) h.2.2.2
  simpa using this

theorem ffAt_of_skelEq {s t : Structure} (h : skelEq s t) (j : Nat) :
    ffAt s j = ffAt t j := by
  have hs := skelEq_node_strip h j
  unfold ffAt
  rcases h1 : s.nodes[j]? with _ | n <;> rcases h2 : t.nodes[j]? with _ | m <;>
    rw [h1, h2] at hs <;> simp at hs <;> try rfl
  have : stripN n = stripN m := hs
  have h3 := congrArg Node.fix_x this
  have h4 := congrArg Node.fix_y this
  have h5 := congrArg Node.force_x this
  have h6 := congrArg Node.force_y this
  simp [stripN] at h3 h4 h5 h6
  simp [h3, h4, h5, h6]

theorem WF_of_skelEq {s t : Structure} (h : skelEq s t) (hwf : WF s) : WF t := by
  constructor
  · intro i n hn
    have hs := skelEq_node_strip h i
    rcases h1 : s.nodes[i]? with _ | n0
    · rw [h1, hn] at hs; simp at hs
    · rw [h1, hn] at hs
      simp at hs
      have := hwf.1 i n0 h1
      have hid := congrArg Node.id hs
      simp [stripN] at hid
      omega
  · intro sp hsp
    rcases List.mem_iff_getElem.mp hsp with ⟨i, hi, hgi⟩
    have hs := skelEq_spring_strip h i
    rcases h1 : s.springs[i]? with _ | sp0
    · rw [h1] at hs
      rw [List.getElem?_eq_getElem hi, hgi] at hs
      simp at hs
    · rw [h1, List.getElem?_eq_getElem hi] at hs
      rw [hgi] at hs
      simp at hs
      obtain ⟨hlt2, hval2⟩ := List.getElem?_eq_some_iff.mp h1
      have hsp0 : sp0 ∈ s.springs := hval2 ▸ List.getElem_mem _
      have := hwf.2 sp0 hsp0
      have ha := congrArg Spring.a hs
      have hb := congrArg Spring.b hs
      simp [stripS] at ha hb
      rw [← skelEq_nodes_length h, ← ha, ← hb]
      exact this

theorem map_congr_mem {α β : Type} (f g : α → β) (l : List α)
    (h : ∀ a ∈ l, f a = g a) : l.map f = l.map g := by
  induction l with
  | nil => rfl
  | cons x xs ih =>
    simp only [List.map_cons, List.cons.injEq]
    exact ⟨h x (by simp), ih fun a ha => h a (by simp [ha])⟩

theorem spring_set_active_false (sp : Spring) (h : sp.active = false) :
    { sp with active := false } = sp := by
  cases sp; simp_all

theorem node_set_active_false (n : Node) (h : n.active = false) :
    { n with active := false } = n := by
  cases n; simp_all

theorem skelEq_removeNode (s : Structure) (nid : Nat) : skelEq s (removeNode s nid) := by
  refine ⟨rfl, rfl, ?_, ?_⟩
  · exact (map_modifyAt_eq stripN (fun n => { n with active := false }) nid s.nodes
      fun a => rfl).symm
  · exact (map_comp_eq stripS
      (fun sp => if sp.a = nid ∨ sp.b = nid then { sp with active := false } else sp)
      s.springs fun sp _ => by
        by_cases hc : sp.a = nid ∨ sp.b = nid <;> simp [hc, stripS]).symm

theorem stripS_set_true (c : Bool) (sp : Spring) :
    stripS (if c = true then { sp with active := true } else sp) = stripS sp := by
  cases c <;> simp [stripS]

theorem skelEq_restoreNode (s : Structure) (nid : Nat) : skelEq s (restoreNode s nid) := by
  refine ⟨rfl, rfl, ?_, ?_⟩
  · exact (map_modifyAt_eq stripN (fun n => { n with active := true }) nid s.nodes
      fun a => rfl).symm
  · refine (map_comp_eq stripS _ s.springs fun sp _ => ?_).symm
    by_cases hc : sp.a = nid ∨ sp.b = nid
    · simp only [hc, if_pos]
      exact stripS_set_true _ sp
    · simp [hc]

theorem skelEq_restoreSnapshot (s : Structure) (snap : List Bool × List Bool)
    (h1 : snap.1.length = s.nodes.length) (h2 : snap.2.length = s.springs.length) :
    skelEq s (restoreSnapshot s snap) := by
  refine ⟨rfl, rfl, ?_, ?_⟩
  · have : ∀ (l : List Node) (bs : List Bool), bs.length = l.length →
        (l.zipWith (fun n act => { n with active := act }) bs).map stripN = l.map stripN := by
      intro l
      induction l with
      | nil => intro bs h; simp
      | cons x xs ih =>
        intro bs h
        cases bs with
        | nil => simp at h
        | cons b bs' =>
          simp only [List.zipWith_cons_cons, List.map_cons, List.cons.injEq]
          exact ⟨rfl, ih bs' (by simpa using h)⟩
    exact (this s.nodes snap.1 h1).symm
  · have : ∀ (l : List Spring) (bs : List Bool), bs.length = l.length →
        (l.zipWith (fun sp act => { sp with active := act }) bs).map stripS = l.map stripS := by
      intro l
      induction l with
      | nil => intro bs h; simp
      | cons x xs ih =>
        intro bs h
        cases bs with
        | nil => simp at h
        | cons b bs' =>
          simp only [List.zipWith_cons_cons, List.map_cons, List.cons.injEq]
          exact ⟨rfl, ih bs' (by simpa using h)⟩
    exact (this s.springs snap.2 h2).symm

/-- Restoring a snapshot taken from a structure with the same skeleton
reproduces that structure exactly. -/
theorem restore_takeSnapshot {s t : Structure} (h : skelEq t s) :
    restoreSnapshot s (takeSnapshot t) = t := by
  obtain ⟨hw, hh, hn, hsp⟩ := h
  obtain ⟨w1, h1, nodes1, springs1⟩ := s
  obtain ⟨w2, h2, nodes2, springs2⟩ := t
  simp only at hw hh hn hsp
  simp only [restoreSnapshot, takeSnapshot, Structure.mk.injEq]
  refine ⟨hw.symm, hh.symm, ?_, ?_⟩
  · clear hsp
    induction nodes2 generalizing nodes1 with
    | nil =>
      cases nodes1 with
      | nil => rfl
      | cons y ys => simp at hn
    | cons x xs ih =>
      cases nodes1 with
      | nil => simp at hn
      | cons y ys =>
        simp only [List.map_cons, List.cons.injEq] at hn
        simp only [List.map_cons, List.zipWith_cons_cons, List.cons.injEq]
        constructor
        · have := hn.1
          cases x with
          | mk xid xx xy xact xfx xfy xfox xfoy =>
            cases y with
            | mk yid yx yy yact yfx yfy yfox yfoy =>
              simp [stripN] at this
              simp [this]
        · exact ih ys hn.2
  · clear hn
    induction springs2 generalizing springs1 with
    | nil =>
      cases springs1 with
      | nil => rfl
      | cons y ys => simp at hsp
    | cons x xs ih =>
      cases springs1 with
      | nil => simp at hsp
      | cons y ys =>
        simp only [List.map_cons, List.cons.injEq] at hsp
        simp only [List.map_cons, List.zipWith_cons_cons, List.cons.injEq]
        constructor
        · have := hsp.1
          cases x with
          | mk xid xa xb xk xact =>
            cases y with
            | mk yid ya yb yk yact =>
              simp [stripS] at this
              simp [this]
        · exact ih ys hsp.2

end TopOpt

namespace TopOpt

theorem structure_ext {s t : Structure} (h1 : s.width = t.width) (h2 : s.height = t.height)
    (h3 : s.nodes = t.nodes) (h4 : s.springs = t.springs) : s = t := by
  cases s; cases t; simp_all

theorem removeNode_springs (s : Structure) (nid : Nat) :
    (removeNode s nid).springs = s.springs.map fun sp =>
      if sp.a = nid ∨ sp.b = nid then { sp with active := false } else sp := rfl

theorem restoreNode_springs (s : Structure) (nid : Nat) :
    (restoreNode s nid).springs = s.springs.map fun sp =>
      if sp.a = nid ∨ sp.b = nid then
        (if activeAt (restoreNode s nid) (if sp.a = nid then sp.b else sp.a) = true then
          { sp with active := true } else sp)
      else sp := rfl

theorem bool_eq_false {b : Bool} (h : ¬ b = true) : b = false := by
  cases b
  · rfl
  · exact absurd rfl h

theorem SC_removeNode {s : Structure} (h : SC s) (nid : Nat) : SC (removeNode s nid) := by
  intro sp' hsp'
  rw [removeNode_springs] at hsp'
  rcases List.mem_map.mp hsp' with ⟨sp, hsp, hf⟩
  subst hf
  by_cases hc : sp.a = nid ∨ sp.b = nid
  · rw [if_pos hc]
    show false = (activeAt (removeNode s nid) sp.a && activeAt (removeNode s nid) sp.b)
    rcases hc with hca | hcb
    · have ha : activeAt (removeNode s nid) sp.a = false := by
        rw [activeAt_removeNode, if_pos hca]
      rw [ha, Bool.false_and]
    · have hb : activeAt (removeNode s nid) sp.b = false := by
        rw [activeAt_removeNode, if_pos hcb]
      rw [hb, Bool.and_false]
  · rw [if_neg hc]
    push_neg at hc
    show sp.active = (activeAt (removeNode s nid) sp.a && activeAt (removeNode s nid) sp.b)
    rw [h sp hsp, activeAt_removeNode, activeAt_removeNode, if_neg hc.1, if_neg hc.2]

theorem SC_restoreNode {s : Structure} (h : SC s) (nid : Nat)
    (hlt : nid < s.nodes.length) : SC (restoreNode s nid) := by
  have hact : ∀ j, activeAt (restoreNode s nid) j =
      if j = nid then true else activeAt s j := by
    intro j
    rw [activeAt_restoreNode]
    by_cases hj : j = nid
    · simp [hj, hlt]
    · simp [hj]
  intro sp' hsp'
  rw [restoreNode_springs] at hsp'
  rcases List.mem_map.mp hsp' with ⟨sp, hsp, hf⟩
  subst hf
  by_cases hc : sp.a = nid ∨ sp.b = nid
  · rw [if_pos hc]
    by_cases hother : activeAt (restoreNode s nid) (if sp.a = nid then sp.b else sp.a) = true
    · rw [if_pos hother]
      show true = (activeAt (restoreNode s nid) sp.a && activeAt (restoreNode s nid) sp.b)
      by_cases hca : sp.a = nid
      · have h1 : activeAt (restoreNode s nid) sp.a = true := by
          rw [hca, hact nid, if_pos rfl]
        have h2 : activeAt (restoreNode s nid) sp.b = true := by
          rw [if_pos hca] at hother
          exact hother
        rw [h1, h2]
        rfl
      · have hcb : sp.b = nid := hc.resolve_left hca
        have h1 : activeAt (restoreNode s nid) sp.a = true := by
          rw [if_neg hca] at hother
          exact hother
        have h2 : activeAt (restoreNode s nid) sp.b = true := by
          rw [hcb, hact nid, if_pos rfl]
        rw [h1, h2]
        rfl
    · rw [if_neg hother]
      show sp.active = (activeAt (restoreNode s nid) sp.a && activeAt (restoreNode s nid) sp.b)
      rw [h sp hsp]
      by_cases hca : sp.a = nid
      · rw [if_pos hca] at hother
        have hbfalse : activeAt (restoreNode s nid) sp.b = false := bool_eq_false hother
        have hbne : sp.b ≠ nid := by
          intro hb
          rw [hb, hact nid, if_pos rfl] at hbfalse
          cases hbfalse
        have hsb : activeAt s sp.b = false := by
          have := hact sp.b
          rw [if_neg hbne] at this
          rw [← this]
          exact hbfalse
        rw [hsb, Bool.and_false, hbfalse, Bool.and_false]
      · have hcb : sp.b = nid := hc.resolve_left hca
        rw [if_neg hca] at hother
        have hafalse : activeAt (restoreNode s nid) sp.a = false := bool_eq_false hother
        have hane : sp.a ≠ nid := hca
        have hsa : activeAt s sp.a = false := by
          have := hact sp.a
          rw [if_neg hane] at this
          rw [← this]
          exact hafalse
        rw [hsa, Bool.false_and, hafalse, Bool.false_and]
  · rw [if_neg hc]
    push_neg at hc
    show sp.active = (activeAt (restoreNode s nid) sp.a && activeAt (restoreNode s nid) sp.b)
    rw [h sp hsp, hact sp.a, hact sp.b, if_neg hc.1, if_neg hc.2]

end TopOpt

namespace TopOpt

@[simp] theorem spring_upd_a (sp : Spring) (v : Bool) :
    ({ sp with active := v } : Spring).a = sp.a := rfl

@[simp] theorem spring_upd_b (sp : Spring) (v : Bool) :
    ({ sp with active := v } : Spring).b = sp.b := rfl

@[simp] theorem spring_upd_active (sp : Spring) (v : Bool) :
    ({ sp with active := v } : Spring).active = v := rfl

@[simp] theorem spring_upd_upd (sp : Spring) (v w : Bool) :
    ({ ({ sp with active := v } : Spring) with active := w } : Spring) =
      { sp with active := w } := rfl

@[simp] theorem node_upd_active (n : Node) (v : Bool) :
    ({ n with active := v } : Node).active = v := rfl

theorem list_ext_opt {α : Type} {l1 l2 : List α} (h : ∀ i : Nat, l1[i]? = l2[i]?) : l1 = l2 := by
  induction l1 generalizing l2 with
  | nil =>
    cases l2 with
    | nil => rfl
    | cons y ys => have := h 0; simp at this
  | cons x xs ih =>
    cases l2 with
    | nil => have := h 0; simp at this
    | cons y ys =>
      have h0 := h 0
      simp at h0
      rw [h0]
      have : xs = ys := ih fun i => by simpa using h (i + 1)
      rw [this]

/-- Pointwise form of the restore-after-remove identity on one spring. -/
theorem restore_one_pointwise (act : Nat → Bool) (nid : Nat) (sp : Spring)
    (hs : sp.active = (act sp.a && act sp.b)) (hn : act nid = true) :
    (fun sp2 => if sp2.a = nid ∨ sp2.b = nid then
        (if act (if sp2.a = nid then sp2.b else sp2.a) = true then
          { sp2 with active := true } else sp2)
      else sp2)
    ((fun sp1 => if sp1.a = nid ∨ sp1.b = nid then { sp1 with active := false } else sp1) sp)
      = sp := by
  by_cases hc : sp.a = nid ∨ sp.b = nid
  · simp only [if_pos hc, spring_upd_a, spring_upd_b, spring_upd_upd]
    by_cases hca : sp.a = nid
    · rw [if_pos hca]
      have hsv : sp.active = act sp.b := by
        rw [hs, hca, hn, Bool.true_and]
      by_cases hb : act sp.b = true
      · rw [if_pos hb]
        exact spring_set_active_true sp (by rw [hsv, hb])
      · rw [if_neg hb]
        exact spring_set_active_false sp (by rw [hsv]; exact bool_eq_false hb)
    · have hcb : sp.b = nid := hc.resolve_left hca
      rw [if_neg hca]
      have hsv : sp.active = act sp.a := by
        rw [hs, hcb, hn, Bool.and_true]
      by_cases hb : act sp.a = true
      · rw [if_pos hb]
        exact spring_set_active_true sp (by rw [hsv, hb])
      · rw [if_neg hb]
        exact spring_set_active_false sp (by rw [hsv]; exact bool_eq_false hb)
  · simp only [if_neg hc]

/-- Undoing `remove_node` with `_restore_node` is exact on
spring-consistent states. -/
theorem restore_exact {s : Structure} (hsc : SC s) (nid : Nat)
    (hlt : nid < s.nodes.length) (hact : activeAt s nid = true) :
    restoreNode (removeNode s nid) nid = s := by
  have hlen : (removeNode s nid).nodes.length = s.nodes.length := removeNode_nodes_length s nid
  have hactR : ∀ j, activeAt (restoreNode (removeNode s nid) nid) j = activeAt s j := by
    intro j
    rw [activeAt_restoreNode, activeAt_removeNode]
    by_cases hj : j = nid
    · subst hj
      rw [if_pos ⟨rfl, by omega⟩, hact]
    · rw [if_neg (by tauto), if_neg hj]
  have hnodes : (restoreNode (removeNode s nid) nid).nodes = s.nodes := by
    apply list_ext_opt
    intro i
    show (modifyAt (fun n => { n with active := true }) nid
      (modifyAt (fun n => { n with active := false }) nid s.nodes))[i]? = s.nodes[i]?
    rw [modifyAt_getElem?, modifyAt_getElem?]
    by_cases hi : nid = i
    · subst hi
      rw [if_pos rfl, if_pos rfl, Option.map_map]
      rcases hx : s.nodes[nid]? with _ | n
      · rfl
      · have hone : n.active = true := by
          unfold activeAt activeInList at hact
          rw [hx] at hact
          exact hact
        exact congrArg some (node_set_active_true n hone)
    · rw [if_neg hi, if_neg hi]
  have hsprings : (restoreNode (removeNode s nid) nid).springs = s.springs := by
    rw [restoreNode_springs, removeNode_springs, List.map_map]
    apply map_eq_self_of
    intro sp hsp
    refine restore_one_pointwise (fun j => activeAt (restoreNode (removeNode s nid) nid) j)
      nid sp ?_ ?_
    · show sp.active = (activeAt (restoreNode (removeNode s nid) nid) sp.a &&
        activeAt (restoreNode (removeNode s nid) nid) sp.b)
      rw [hactR, hactR]
      exact hsc sp hsp
    · show activeAt (restoreNode (removeNode s nid) nid) nid = true
      rw [hactR]
      exact hact
  exact structure_ext rfl rfl hnodes hsprings

end TopOpt

namespace TopOpt

/-- Pointwise form of the mirror-pair restore identity on one spring:
removing `n` then `m`, then restoring `n`, equals removing `m` alone. -/
theorem restore_two_pointwise (acts actR : Nat → Bool) (n m : Nat)
    (hrel : ∀ j, actR j = if j = m then false else acts j)
    (hn : acts n = true) (hnm : n ≠ m) (sp : Spring)
    (hs : sp.active = (acts sp.a && acts sp.b)) :
    (fun sp2 => if sp2.a = n ∨ sp2.b = n then
        (if actR (if sp2.a = n then sp2.b else sp2.a) = true then
          { sp2 with active := true } else sp2)
      else sp2)
    ((fun sp1 => if sp1.a = m ∨ sp1.b = m then { sp1 with active := false } else sp1)
     ((fun sp0 => if sp0.a = n ∨ sp0.b = n then { sp0 with active := false } else sp0) sp))
      = (if sp.a = m ∨ sp.b = m then { sp with active := false } else sp) := by
  by_cases hcn : sp.a = n ∨ sp.b = n
  · by_cases hcm : sp.a = m ∨ sp.b = m
    · -- incident to both: the surviving endpoint of the `n`-springs is `m`
      have hother : (if sp.a = n then sp.b else sp.a) = m := by
        by_cases hca : sp.a = n
        · rw [if_pos hca]
          rcases hcm with h1 | h1
          · exact absurd (hca.symm.trans h1) hnm
          · exact h1
        · rw [if_neg hca]
          rcases hcm with h1 | h1
          · exact h1
          · rcases hcn with h2 | h2
            · exact absurd h2 hca
            · exact absurd (h2.symm.trans h1) hnm
      simp only [if_pos hcn, if_pos hcm, spring_upd_a, spring_upd_b, spring_upd_upd, hother]
      rw [hrel m, if_pos rfl]
      simp
    · simp only [if_pos hcn, if_neg hcm, spring_upd_a, spring_upd_b, spring_upd_upd]
      have hotherne : (if sp.a = n then sp.b else sp.a) ≠ m := by
        by_cases hca : sp.a = n
        · rw [if_pos hca]
          intro hb
          exact hcm (Or.inr hb)
        · rw [if_neg hca]
          intro ha
          exact hcm (Or.inl ha)
      have hval : sp.active = acts (if sp.a = n then sp.b else sp.a) := by
        by_cases hca : sp.a = n
        · rw [if_pos hca, hs, hca, hn, Bool.true_and]
        · have hcb : sp.b = n := hcn.resolve_left hca
          rw [if_neg hca, hs, hcb, hn, Bool.and_true]
      rw [hrel, if_neg hotherne]
      by_cases hb : acts (if sp.a = n then sp.b else sp.a) = true
      · rw [if_pos hb]
        exact spring_set_active_true sp (by rw [hval, hb])
      · rw [if_neg hb]
        exact spring_set_active_false sp (by rw [hval]; exact bool_eq_false hb)
  · by_cases hcm : sp.a = m ∨ sp.b = m
    · simp only [if_neg hcn, if_pos hcm, spring_upd_a, spring_upd_b]
    · simp only [if_neg hcn, if_neg hcm]

/-- Removing `n`, removing `m`, then restoring `n` equals removing `m`
alone, on spring-consistent states. -/
theorem restore_after_two {s : Structure} (hsc : SC s) (n m : Nat)
    (hlt : n < s.nodes.length) (hact : activeAt s n = true) (hnm : n ≠ m) :
    restoreNode (removeNode (removeNode s n) m) n = removeNode s m := by
  have hlen2 : (removeNode (removeNode s n) m).nodes.length = s.nodes.length := by
    rw [removeNode_nodes_length, removeNode_nodes_length]
  have hactR : ∀ j, activeAt (restoreNode (removeNode (removeNode s n) m) n) j =
      if j = m then false else activeAt s j := by
    intro j
    rw [activeAt_restoreNode, activeAt_removeNode, activeAt_removeNode]
    by_cases hj : j = n
    · subst hj
      rw [if_pos ⟨rfl, by omega⟩, if_neg hnm, hact]
    · rw [if_neg (by tauto)]
      by_cases hjm : j = m <;> simp [hjm, hj]
  have hnodes : (restoreNode (removeNode (removeNode s n) m) n).nodes =
      (removeNode s m).nodes := by
    apply list_ext_opt
    intro i
    show (modifyAt (fun nd => { nd with active := true }) n
      (modifyAt (fun nd => { nd with active := false }) m
        (modifyAt (fun nd => { nd with active := false }) n s.nodes)))[i]? =
      (modifyAt (fun nd => { nd with active := false }) m s.nodes)[i]?
    rw [modifyAt_getElem?]
    by_cases hin : n = i
    · rw [if_pos hin]
      subst hin
      rw [modifyAt_getElem?, if_neg (show ¬ m = n from fun h => hnm h.symm)]
      rw [modifyAt_getElem?, if_pos rfl, Option.map_map]
      rw [modifyAt_getElem?, if_neg (show ¬ m = n from fun h => hnm h.symm)]
      rcases hx : s.nodes[n]? with _ | nd
      · rfl
      · have hone : nd.active = true := by
          unfold activeAt activeInList at hact
          rw [hx] at hact
          exact hact
        exact congrArg some (node_set_active_true nd hone)
    · rw [if_neg hin, modifyAt_getElem?]
      by_cases him : m = i
      · rw [if_pos him, modifyAt_getElem?, if_neg hin]
        rw [modifyAt_getElem?, if_pos him]
      · rw [if_neg him, modifyAt_getElem?, if_neg hin, modifyAt_getElem?, if_neg him]
  have hsprings : (restoreNode (removeNode (removeNode s n) m) n).springs =
      (removeNode s m).springs := by
    rw [restoreNode_springs, removeNode_springs (removeNode s n) m,
      removeNode_springs s n, List.map_map, List.map_map, removeNode_springs s m]
    apply map_congr_mem
    intro sp hsp
    refine restore_two_pointwise (fun j => activeAt s j)
      (fun j => activeAt (restoreNode (removeNode (removeNode s n) m) n) j) n m
      ?_ hact hnm sp ?_
    · intro j
      show activeAt (restoreNode (removeNode (removeNode s n) m) n) j =
        if j = m then false else activeAt s j
      exact hactR j
    · show sp.active = (activeAt s sp.a && activeAt s sp.b)
      exact hsc sp hsp
  exact structure_ext rfl rfl hnodes hsprings

end TopOpt

namespace TopOpt

theorem solveStructure_state (o : Structure → List Nat → Bool → SpOutcome) (s : Structure) :
    ∀ u' s', solveStructure o s = .ok (u', s') → s' = s := by
  intro u' s' h
  unfold solveStructure at h
  by_cases hf : (getFixedDofs s).isEmpty
  · rw [if_pos hf] at h
    cases h
  · rw [if_neg hf] at h
    split at h <;>
      (simp only [PyResult.ok.injEq, Prod.mk.injEq] at h; exact h.2.symm)

/-- Candidate keys of `compute_node_energies` are active, unprotected,
in-range node ids. -/
theorem nodeEnergies_key {o : Orac} {s : Structure} {u : List Frac} {nid : Nat} {e : Frac}
    (hwf : WF s) (hmem : (nid, e) ∈ computeNodeEnergies o s u) :
    activeAt s nid = true ∧ ffAt s nid = false ∧ nid < s.nodes.length := by
  unfold computeNodeEnergies at hmem
  rcases List.mem_filterMap.mp hmem with ⟨n, hn, hcond⟩
  by_cases hc : n.active = true ∧ ¬ (n.fix_x = true ∨ n.fix_y = true) ∧
      ¬ (n.force_x.nz = true ∨ n.force_y.nz = true)
  · rw [if_pos hc] at hcond
    have hid : n.id = nid := by
      have := congrArg Prod.fst (Option.some.inj hcond)
      simpa using this
    rcases List.mem_iff_getElem.mp hn with ⟨i, hi, hgi⟩
    have hidx := hwf.1 i n (by rw [List.getElem?_eq_getElem hi, hgi])
    have hni : s.nodes[nid]? = some n := by
      rw [← hid, hidx]
      rw [List.getElem?_eq_getElem hi, hgi]
    refine ⟨?_, ?_, ?_⟩
    · unfold activeAt activeInList
      rw [hni]
      exact hc.1
    · unfold ffAt
      rw [hni]
      have h1 : n.fix_x = false := by
        rcases hx : n.fix_x with _ | _
        · rfl
        · exact absurd (Or.inl hx) hc.2.1
      have h2 : n.fix_y = false := by
        rcases hx : n.fix_y with _ | _
        · rfl
        · exact absurd (Or.inr hx) hc.2.1
      have h3 : n.force_x.nz = false := by
        rcases hx : n.force_x.nz with _ | _
        · rfl
        · exact absurd (Or.inl hx) hc.2.2
      have h4 : n.force_y.nz = false := by
        rcases hx : n.force_y.nz with _ | _
        · rfl
        · exact absurd (Or.inr hx) hc.2.2
      simp [h1, h2, h3, h4]
    · have : nid < s.nodes.length := by
        rw [← hid, hidx]
        exact hi
      exact this
  · rw [if_neg hc] at hcond
    cases hcond

/-- The running invariant of the candidate loop of
`optimization_batch`, relative to the batch entry state `s0`. -/
structure BatchInv (s0 : Structure) (st : BatchSt) : Prop where
  skel : skelEq s0 st.cur
  sc : SC st.cur
  nodeRel : ∀ j : Nat, activeAt st.cur j = (activeAt s0 j && decide (¬ j ∈ st.processed))
  procOk : ∀ j ∈ st.processed, activeAt s0 j = true ∧ ffAt s0 j = false ∧ j < s0.nodes.length
  procNodup : st.processed.Nodup
  removedEq : st.removed = st.processed.length
  countEq : activeNodeCount st.cur + st.processed.length = activeNodeCount s0

/-- The conclusions extracted from the invariant at any exit point. -/
theorem BatchInv.concl {s0 : Structure} {st : BatchSt} (h : BatchInv s0 st) :
    skelEq s0 st.cur ∧ SC st.cur ∧
    (∀ j, activeAt st.cur j = true → activeAt s0 j = true) ∧
    (∀ j, ffAt s0 j = true → activeAt st.cur j = activeAt s0 j) ∧
    activeNodeCount st.cur + st.removed = activeNodeCount s0 := by
  refine ⟨h.skel, h.sc, ?_, ?_, ?_⟩
  · intro j hj
    have := h.nodeRel j
    rw [hj] at this
    exact (Bool.and_eq_true _ _ |>.mp this.symm).1
  · intro j hj
    have hnp : ¬ j ∈ st.processed := by
      intro hmem
      have := (h.procOk j hmem).2.1
      rw [hj] at this
      cases this
    rw [h.nodeRel j]
    simp [hnp]
  · rw [h.removedEq]
    exact h.countEq

/-- Invariant update for one accepted removal. -/
theorem BatchInv.step_remove {s0 : Structure} {st : BatchSt} (h : BatchInv s0 st)
    (nid : Nat) (hact0 : activeAt s0 nid = true) (hff : ffAt s0 nid = false)
    (hlt : nid < s0.nodes.length) (hnp : ¬ nid ∈ st.processed) (fa : Nat) :
    BatchInv s0 ⟨removeNode st.cur nid, st.removed + 1, fa, nid :: st.processed⟩ := by
  have hcur : activeAt st.cur nid = true := by
    rw [h.nodeRel nid, hact0]
    simp [hnp]
  refine ⟨skelEq_trans h.skel (skelEq_removeNode _ _), SC_removeNode h.sc nid, ?_, ?_, ?_, ?_, ?_⟩
  · intro j
    rw [activeAt_removeNode]
    by_cases hj : j = nid
    · subst hj
      simp
    · rw [if_neg hj, h.nodeRel j]
      simp [hj]
  · intro j hj
    rcases List.mem_cons.mp hj with hj1 | hj2
    · subst hj1
      exact ⟨hact0, hff, hlt⟩
    · exact h.procOk j hj2
  · exact List.nodup_cons.mpr ⟨hnp, h.procNodup⟩
  · simp [h.removedEq]
  · have hc := count_removeNode st.cur nid
    rw [hcur] at hc
    simp at hc
    have := h.countEq
    simp only [List.length_cons]
    omega

/-- The invariant is insensitive to the `fem_attempts` counter. -/
theorem BatchInv.withFa {s0 : Structure} {st : BatchSt} (h : BatchInv s0 st) (fa : Nat) :
    BatchInv s0 ⟨st.cur, st.removed, fa, st.processed⟩ :=
  ⟨h.skel, h.sc, h.nodeRel, h.procOk, h.procNodup, h.removedEq, h.countEq⟩

/-- The candidate check hands back the structure it was given (the only
check that mutates, `can_remove_node`, restores). -/
theorem checkCandidate_state (fm : Bool) (prot : List Nat) (s0 cur : Structure) (nid : Nat)
    (h : activeAt cur nid = true) :
    (checkCandidate fm prot s0 cur nid).2 = cur := by
  unfold checkCandidate
  split
  · split
    · rfl
    · rfl
  · split
    · rfl
    · exact canRemoveNode_state cur nid h

/-- Facts recorded by a successful mirror-candidate computation: the
mirror id is distinct from the candidate, unprocessed, active,
unprotected and in range. -/
theorem mirrorCandidate_some {sym : Bool} {w nid : Nat} {proc : List Nat} {cur : Structure}
    {m : Nat} (h : mirrorCandidate sym w nid proc cur = some m) :
    ¬ m = nid ∧ ¬ m ∈ proc ∧ activeAt cur m = true ∧ ffAt cur m = false ∧
      m < cur.nodes.length := by
  simp only [mirrorCandidate] at h
  by_cases hs : sym = true
  swap
  · rw [if_neg hs] at h
    cases h
  rw [if_pos hs] at h
  by_cases hc : (nid / w) * w + (w - 1 - nid % w) ≠ nid ∧
      ¬ (nid / w) * w + (w - 1 - nid % w) ∈ proc
  swap
  · rw [if_neg hc] at h
    cases h
  rw [if_pos hc] at h
  rcases hn : cur.nodes[(nid / w) * w + (w - 1 - nid % w)]? with _ | mn
  · rw [hn] at h
    cases h
  rw [hn] at h
  simp only [] at h
  by_cases hf : mn.active = true ∧ ¬ mn.fix_x = true ∧ ¬ mn.fix_y = true ∧
      ¬ mn.force_x.nz = true ∧ ¬ mn.force_y.nz = true
  swap
  · rw [if_neg hf] at h
    cases h
  rw [if_pos hf] at h
  have hm : (nid / w) * w + (w - 1 - nid % w) = m := Option.some.inj h
  subst hm
  refine ⟨hc.1, hc.2, ?_, ?_, ?_⟩
  · unfold activeAt activeInList
    rw [hn]
    exact hf.1
  · unfold ffAt
    rw [hn]
    have h1 : mn.fix_x = false := by
      rcases hx : mn.fix_x with _ | _
      · rfl
      · exact absurd hx hf.2.1
    have h2 : mn.fix_y = false := by
      rcases hx : mn.fix_y with _ | _
      · rfl
      · exact absurd hx hf.2.2.1
    have h3 : mn.force_x.nz = false := by
      rcases hx : mn.force_x.nz with _ | _
      · rfl
      · exact absurd hx hf.2.2.2.1
    have h4 : mn.force_y.nz = false := by
      rcases hx : mn.force_y.nz with _ | _
      · rfl
      · exact absurd hx hf.2.2.2.2
    simp [h1, h2, h3, h4]
  · by_contra hlen
    rw [List.getElem?_eq_none (Nat.le_of_not_lt hlen)] at hn
    cases hn

/-- Master induction over the ranked candidate list of
`optimization_batch`: the loop invariant survives every branch of the
candidate loop, so each normal exit satisfies the batch conclusions —
skeleton preserved, spring consistency, activity only lost, protected
nodes untouched, and the removal count exact. -/
theorem batchGo_spec (o : Orac) (s0 : Structure) (ps : BatchPs) (prot : List Nat) :
    ∀ (cands : List (Nat × Frac)) (st : BatchSt),
      (∀ p ∈ cands, activeAt s0 p.1 = true ∧ ffAt s0 p.1 = false ∧ p.1 < s0.nodes.length) →
      BatchInv s0 st →
      ∀ s' r, batchGo o s0 ps prot cands st = .ok (s', r) →
        skelEq s0 s' ∧ SC s' ∧
        (∀ j, activeAt s' j = true → activeAt s0 j = true) ∧
        (∀ j, ffAt s0 j = true → activeAt s' j = activeAt s0 j) ∧
        activeNodeCount s' + r = activeNodeCount s0 := by
  intro cands
  induction cands with
  | nil =>
    intro st hc hInv s' r h
    simp only [batchGo] at h
    injection h with h1
    injection h1 with h2 h3
    subst h2
    subst h3
    exact hInv.concl
  | cons cand rest ih =>
    obtain ⟨nid, e⟩ := cand
    intro st hc hInv s' r h
    have hcand1 : activeAt s0 nid = true := (hc (nid, e) (List.mem_cons_self _ _)).1
    have hcand2 : ffAt s0 nid = false := (hc (nid, e) (List.mem_cons_self _ _)).2.1
    have hcand3 : nid < s0.nodes.length := (hc (nid, e) (List.mem_cons_self _ _)).2.2
    have hcrest : ∀ p ∈ rest, activeAt s0 p.1 = true ∧ ffAt s0 p.1 = false ∧
        p.1 < s0.nodes.length := fun p hp => hc p (List.mem_cons_of_mem _ hp)
    simp only [batchGo] at h
    by_cases hstop : ps.batchSize ≤ (st.removed : Int)
    · rw [if_pos hstop] at h
      injection h with h1
      injection h1 with h2 h3
      subst h2
      subst h3
      exact hInv.concl
    rw [if_neg hstop] at h
    by_cases hproc : nid ∈ st.processed
    · rw [if_pos hproc] at h
      exact ih st hcrest hInv s' r h
    rw [if_neg hproc] at h
    have hactcur : activeAt st.cur nid = true := by
      rw [hInv.nodeRel nid, hcand1]
      simp [hproc]
    have hltc : nid < st.cur.nodes.length := by
      rw [← skelEq_nodes_length hInv.skel]
      exact hcand3
    have hck2 : (checkCandidate ps.fastMode prot s0 st.cur nid).2 = st.cur :=
      checkCandidate_state _ _ _ _ _ hactcur
    rw [hck2] at h
    by_cases hcan : (checkCandidate ps.fastMode prot s0 st.cur nid).1 = true
    swap
    · rw [if_pos hcan] at h
      exact ih st hcrest hInv s' r h
    rw [if_neg (not_not_intro hcan)] at h
    rcases hmir : mirrorCandidate ps.useSymmetry s0.width nid st.processed st.cur with _ | m
    · -- no mirror candidate
      rw [hmir] at h
      simp only [] at h
      by_cases hval : ps.validateFem = true
      swap
      · rw [if_neg hval] at h
        exact ih _ hcrest
          (hInv.step_remove nid hcand1 hcand2 hcand3 hproc st.femAttempts) s' r h
      rw [if_pos hval] at h
      rcases hsol : solveStructure o.sp (removeNode st.cur nid) with _ | ⟨u4, cur4⟩
      · rw [hsol] at h
        simp only [] at h
        cases h
      rw [hsol] at h
      have hc4 : cur4 = removeNode st.cur nid := solveStructure_state _ _ u4 cur4 hsol
      subst hc4
      rcases u4 with _ | uvec
      · -- solve failed: restore and either break or continue
        simp only [] at h
        have hres : restoreNode (removeNode st.cur nid) nid = st.cur :=
          restore_exact hInv.sc nid hltc hactcur
        have herase : (nid :: st.processed).erase nid = st.processed := by simp
        rw [hres, herase] at h
        by_cases hbrk : 0 < ps.maxFemAttempts ∧ ps.maxFemAttempts ≤ st.femAttempts + 1
        · rw [if_pos hbrk] at h
          injection h with h1
          injection h1 with h2 h3
          subst h2
          subst h3
          exact hInv.concl
        · rw [if_neg hbrk] at h
          exact ih _ hcrest (hInv.withFa (st.femAttempts + 1)) s' r h
      · -- solve succeeded: keep the removal
        simp only [] at h
        exact ih _ hcrest
          (hInv.step_remove nid hcand1 hcand2 hcand3 hproc (st.femAttempts + 1)) s' r h
    · -- mirror candidate m accepted by the symmetry filter
      rw [hmir] at h
      simp only [] at h
      obtain ⟨hmnid, hmproc, hmact, hmff, hmlt⟩ := mirrorCandidate_some hmir
      have hact0m : activeAt s0 m = true := by
        have hrel := hInv.nodeRel m
        rw [hmact] at hrel
        exact (Bool.and_eq_true _ _ |>.mp hrel.symm).1
      have hff0m : ffAt s0 m = false := by
        rw [ffAt_of_skelEq hInv.skel m]
        exact hmff
      have hlt0m : m < s0.nodes.length := by
        rw [skelEq_nodes_length hInv.skel]
        exact hmlt
      have hactm2 : activeAt (removeNode st.cur nid) m = true := by
        rw [activeAt_removeNode, if_neg hmnid]
        exact hmact
      have hmres2 : (checkCandidate ps.fastMode prot s0 (removeNode st.cur nid) m).2 =
          removeNode st.cur nid :=
        checkCandidate_state _ _ _ _ _ hactm2
      by_cases hmres : (checkCandidate ps.fastMode prot s0 (removeNode st.cur nid) m).1 = true
      · -- mirror also removed
        simp only [if_pos hmres] at h
        simp only [hmres2] at h
        have hmem2 : ¬ m ∈ nid :: st.processed := by
          simp [List.mem_cons, hmnid, hmproc]
        by_cases hval : ps.validateFem = true
        swap
        · rw [if_neg hval] at h
          exact ih _ hcrest
            ((hInv.step_remove nid hcand1 hcand2 hcand3 hproc 0).step_remove m
              hact0m hff0m hlt0m hmem2 st.femAttempts) s' r h
        rw [if_pos hval] at h
        rcases hsol : solveStructure o.sp (removeNode (removeNode st.cur nid) m)
          with _ | ⟨u4, cur4⟩
        · rw [hsol] at h
          simp only [] at h
          cases h
        rw [hsol] at h
        have hc4 : cur4 = removeNode (removeNode st.cur nid) m :=
          solveStructure_state _ _ u4 cur4 hsol
        subst hc4
        rcases u4 with _ | uvec
        · -- solve failed: restore both removals
          simp only [] at h
          have hr1 : restoreNode (removeNode (removeNode st.cur nid) m) nid =
              removeNode st.cur m :=
            restore_after_two hInv.sc nid m hltc hactcur (Ne.symm hmnid)
          have hr2 : restoreNode (removeNode st.cur m) m = st.cur :=
            restore_exact hInv.sc m hmlt hmact
          have he1 : (m :: nid :: st.processed).erase nid = m :: st.processed := by
            simp [List.erase_cons, hmnid]
          rw [hr1, hr2, he1] at h
          have he2 : (m :: st.processed).erase m = st.processed := by
            simp [List.erase_cons]
          rw [he2] at h
          by_cases hbrk : 0 < ps.maxFemAttempts ∧ ps.maxFemAttempts ≤ st.femAttempts + 1
          · rw [if_pos hbrk] at h
            injection h with h1
            injection h1 with h2 h3
            subst h2
            subst h3
            exact hInv.concl
          · rw [if_neg hbrk] at h
            exact ih _ hcrest (hInv.withFa (st.femAttempts + 1)) s' r h
        · -- solve succeeded: keep both removals
          simp only [] at h
          exact ih _ hcrest
            ((hInv.step_remove nid hcand1 hcand2 hcand3 hproc 0).step_remove m
              hact0m hff0m hlt0m hmem2 (st.femAttempts + 1)) s' r h
      · -- mirror rejected by its check: only the primary removal stands
        simp only [if_neg hmres] at h
        simp only [hmres2] at h
        by_cases hval : ps.validateFem = true
        swap
        · rw [if_neg hval] at h
          exact ih _ hcrest
            (hInv.step_remove nid hcand1 hcand2 hcand3 hproc st.femAttempts) s' r h
        rw [if_pos hval] at h
        rcases hsol : solveStructure o.sp (removeNode st.cur nid) with _ | ⟨u4, cur4⟩
        · rw [hsol] at h
          simp only [] at h
          cases h
        rw [hsol] at h
        have hc4 : cur4 = removeNode st.cur nid := solveStructure_state _ _ u4 cur4 hsol
        subst hc4
        rcases u4 with _ | uvec
        · simp only [] at h
          have hres : restoreNode (removeNode st.cur nid) nid = st.cur :=
            restore_exact hInv.sc nid hltc hactcur
          have herase : (nid :: st.processed).erase nid = st.processed := by simp
          rw [hres, herase] at h
          by_cases hbrk : 0 < ps.maxFemAttempts ∧ ps.maxFemAttempts ≤ st.femAttempts + 1
          · rw [if_pos hbrk] at h
            injection h with h1
            injection h1 with h2 h3
            subst h2
            subst h3
            exact hInv.concl
          · rw [if_neg hbrk] at h
            exact ih _ hcrest (hInv.withFa (st.femAttempts + 1)) s' r h
        · simp only [] at h
          exact ih _ hcrest
            (hInv.step_remove nid hcand1 hcand2 hcand3 hproc (st.femAttempts + 1)) s' r h

/-- `optimization_batch` conclusions on a well-formed, spring-consistent
entry state: skeleton and spring consistency preserved, activity only
lost, fixed or loaded nodes untouched, and the returned removal count
is exactly the drop in active node count. -/
theorem optimizationBatch_spec {o : Orac} {s : Structure} {ps : BatchPs}
    (hwf : WF s) (hsc : SC s) :
    ∀ s' r, optimizationBatch o s ps = .ok (s', r) →
      skelEq s s' ∧ SC s' ∧
      (∀ j, activeAt s' j = true → activeAt s j = true) ∧
      (∀ j, ffAt s j = true → activeAt s' j = activeAt s j) ∧
      activeNodeCount s' + r = activeNodeCount s := by
  intro s' r h
  simp only [optimizationBatch] at h
  by_cases hne : (computeNodeEnergies o s ps.u).isEmpty = true
  · rw [if_pos hne] at h
    injection h with h1
    injection h1 with h2 h3
    subst h2
    subst h3
    exact ⟨skelEq_refl s, hsc, fun j hj => hj, fun j _ => rfl, rfl⟩
  · rw [if_neg hne] at h
    refine batchGo_spec o s ps _ _ _ ?_ ?_ s' r h
    · intro p hp
      obtain ⟨a, b⟩ := p
      exact nodeEnergies_key hwf ((List.perm_insertionSort _ _).mem_iff.mp hp)
    · exact ⟨skelEq_refl s, hsc, fun j => by simp, fun j hj => absurd hj (List.not_mem_nil j),
        List.nodup_nil, rfl, rfl⟩

/-- The running relation maintained by the cleanup operations and fold
steps: skeleton preserved, spring consistency, activity only lost,
protected nodes untouched, and the removal count exact. -/
def CleanRel (s t : Structure) (removed : Nat) : Prop :=
  skelEq s t ∧ SC t ∧
  (∀ j, activeAt t j = true → activeAt s j = true) ∧
  (∀ j, ffAt s j = true → activeAt t j = activeAt s j) ∧
  activeNodeCount t + removed = activeNodeCount s

theorem CleanRel.refl (s : Structure) (hsc : SC s) : CleanRel s s 0 :=
  ⟨skelEq_refl s, hsc, fun _ hj => hj, fun _ _ => rfl, rfl⟩

/-- Composition of the cleanup relation. -/
theorem CleanRel.comp {s t u : Structure} {r1 r2 : Nat}
    (h1 : CleanRel s t r1) (h2 : CleanRel t u r2) : CleanRel s u (r1 + r2) := by
  obtain ⟨hk1, hc1, hm1, hf1, hn1⟩ := h1
  obtain ⟨hk2, hc2, hm2, hf2, hn2⟩ := h2
  refine ⟨skelEq_trans hk1 hk2, hc2, fun j hj => hm1 j (hm2 j hj), ?_, by omega⟩
  intro j hj
  have hft : ffAt t j = true := by rw [← ffAt_of_skelEq hk1 j]; exact hj
  rw [hf2 j hft, hf1 j hj]

/-- One removal extends the cleanup relation. -/
theorem CleanRel.remove {s t : Structure} {r : Nat} (h : CleanRel s t r) (i : Nat)
    (hact : activeAt t i = true) (hffs : ffAt s i = false) :
    CleanRel s (removeNode t i) (r + 1) := by
  obtain ⟨hk, hc, hm, hf, hn⟩ := h
  refine ⟨skelEq_trans hk (skelEq_removeNode t i), SC_removeNode hc i, ?_, ?_, ?_⟩
  · intro j hj
    rw [activeAt_removeNode] at hj
    by_cases hji : j = i
    · rw [if_pos hji] at hj
      cases hj
    · rw [if_neg hji] at hj
      exact hm j hj
  · intro j hj
    have hji : ¬ j = i := fun he => by rw [he, hffs] at hj; cases hj
    rw [activeAt_removeNode, if_neg hji]
    exact hf j hj
  · have hcnt := count_removeNode t i
    rw [hact] at hcnt
    simp at hcnt
    omega

/-- One step of the `_cleanup_dangling` sweep fold preserves the
cleanup relation. -/
theorem cleanupPass_step {s : Structure} (hwf : WF s) {acc : Structure × Nat} (i : Nat)
    (h : CleanRel s acc.1 acc.2) :
    CleanRel s
      (match acc.1.nodes[i]? with
        | none => acc
        | some n =>
          if ¬ n.active then acc
          else if n.fix_x ∨ n.fix_y then acc
          else if n.force_x.nz ∨ n.force_y.nz then acc
          else if activeDegree s n.id ≤ 1 then (removeNode acc.1 n.id, acc.2 + 1)
          else acc).1
      (match acc.1.nodes[i]? with
        | none => acc
        | some n =>
          if ¬ n.active then acc
          else if n.fix_x ∨ n.fix_y then acc
          else if n.force_x.nz ∨ n.force_y.nz then acc
          else if activeDegree s n.id ≤ 1 then (removeNode acc.1 n.id, acc.2 + 1)
          else acc).2 := by
  rcases hni : acc.1.nodes[i]? with _ | n
  · exact h
  simp only []
  by_cases h1 : ¬ n.active = true
  · rw [if_pos h1]
    exact h
  rw [if_neg h1]
  by_cases h2 : n.fix_x = true ∨ n.fix_y = true
  · rw [if_pos h2]
    exact h
  rw [if_neg h2]
  by_cases h3 : n.force_x.nz = true ∨ n.force_y.nz = true
  · rw [if_pos h3]
    exact h
  rw [if_neg h3]
  by_cases h4 : activeDegree s n.id ≤ 1
  swap
  · rw [if_neg h4]
    exact h
  rw [if_pos h4]
  have hid : n.id = i := (WF_of_skelEq h.1 hwf).1 i n hni
  have hact : activeAt acc.1 n.id = true := by
    unfold activeAt activeInList
    rw [hid, hni]
    simpa using h1
  have hffc : ffAt acc.1 n.id = false := by
    unfold ffAt
    rw [hid, hni]
    have e1 : n.fix_x = false := by
      rcases hx : n.fix_x with _ | _
      · rfl
      · exact absurd (Or.inl hx) h2
    have e2 : n.fix_y = false := by
      rcases hx : n.fix_y with _ | _
      · rfl
      · exact absurd (Or.inr hx) h2
    have e3 : n.force_x.nz = false := by
      rcases hx : n.force_x.nz with _ | _
      · rfl
      · exact absurd (Or.inl hx) h3
    have e4 : n.force_y.nz = false := by
      rcases hx : n.force_y.nz with _ | _
      · rfl
      · exact absurd (Or.inr hx) h3
    simp [e1, e2, e3, e4]
  have hffs : ffAt s n.id = false := by
    rw [ffAt_of_skelEq h.1 n.id]
    exact hffc
  exact h.remove n.id hact hffs

/-- The whole sweep fold of `_cleanup_dangling` preserves the cleanup
relation (stated over an arbitrary index list). -/
theorem cleanupPass_fold {s : Structure} (hwf : WF s) :
    ∀ (l : List Nat) (acc : Structure × Nat), CleanRel s acc.1 acc.2 →
      CleanRel s
        (l.foldl (fun acc i =>
          match acc.1.nodes[i]? with
          | none => acc
          | some n =>
            if ¬ n.active then acc
            else if n.fix_x ∨ n.fix_y then acc
            else if n.force_x.nz ∨ n.force_y.nz then acc
            else if activeDegree s n.id ≤ 1 then (removeNode acc.1 n.id, acc.2 + 1)
            else acc) acc).1
        (l.foldl (fun acc i =>
          match acc.1.nodes[i]? with
          | none => acc
          | some n =>
            if ¬ n.active then acc
            else if n.fix_x ∨ n.fix_y then acc
            else if n.force_x.nz ∨ n.force_y.nz then acc
            else if activeDegree s n.id ≤ 1 then (removeNode acc.1 n.id, acc.2 + 1)
            else acc) acc).2 := by
  intro l
  induction l with
  | nil => intro acc h; exact h
  | cons i rest ih =>
    intro acc h
    simp only [List.foldl_cons]
    exact ih _ (cleanupPass_step hwf i h)

/-- One sweep of `_cleanup_dangling` satisfies the cleanup relation. -/
theorem cleanupPass_spec {s : Structure} (hwf : WF s) (hsc : SC s) :
    CleanRel s (cleanupPass s).1 (cleanupPass s).2 := by
  unfold cleanupPass
  exact cleanupPass_fold hwf _ (s, 0) (CleanRel.refl s hsc)

/-- The `while changed` loop of `_cleanup_dangling` satisfies the
cleanup relation, with the totals accumulated additively. -/
theorem cleanupGo_spec : ∀ (fuel : Nat) (s : Structure) (tot : Nat), WF s → SC s →
    CleanRel s (cleanupGo fuel s tot).1 ((cleanupGo fuel s tot).2 - tot) ∧
      tot ≤ (cleanupGo fuel s tot).2 := by
  intro fuel
  induction fuel with
  | zero =>
    intro s tot hwf hsc
    simp only [cleanupGo, Nat.sub_self]
    exact ⟨CleanRel.refl s hsc, Nat.le_refl _⟩
  | succ n ih =>
    intro s tot hwf hsc
    simp only [cleanupGo]
    by_cases hz : (cleanupPass s).2 = 0
    · rw [if_pos hz]
      simp only [Nat.sub_self]
      exact ⟨CleanRel.refl s hsc, Nat.le_refl _⟩
    · rw [if_neg hz]
      have hpass := cleanupPass_spec hwf hsc
      have hwf1 : WF (cleanupPass s).1 := WF_of_skelEq hpass.1 hwf
      have hsc1 : SC (cleanupPass s).1 := hpass.2.1
      have hrec := ih (cleanupPass s).1 (tot + (cleanupPass s).2) hwf1 hsc1
      refine ⟨?_, by omega⟩
      have hcomp := hpass.comp hrec.1
      have harith : (cleanupPass s).2 +
          ((cleanupGo n (cleanupPass s).1 (tot + (cleanupPass s).2)).2 -
            (tot + (cleanupPass s).2)) =
          (cleanupGo n (cleanupPass s).1 (tot + (cleanupPass s).2)).2 - tot := by
        have := hrec.2
        omega
      rwa [harith] at hcomp

/-- `_cleanup_dangling` satisfies the cleanup relation. -/
theorem cleanupDangling_spec {s : Structure} (hwf : WF s) (hsc : SC s) :
    CleanRel s (cleanupDangling s).1 (cleanupDangling s).2 := by
  have := (cleanupGo_spec (s.nodes.length + 1) s 0 hwf hsc).1
  simpa [cleanupDangling] using this

/-- The `_halving_fallback` retry loop: every round restarts from the
snapshot state `s`, so a successful exit either removed nothing and
hands back `s` itself, or removed a positive number of nodes and
satisfies the cleanup relation. -/
theorem halvingGo_spec {o : Orac} {u : List Frac} {fm : Bool} {s : Structure}
    (hwf : WF s) (hsc : SC s) :
    ∀ (fuel : Nat) (bs : Int) (s' : Structure) (removed : Nat),
      halvingGo o u fm (takeSnapshot s) fuel bs s = .ok (s', removed) →
      (s' = s ∧ removed = 0) ∨ (0 < removed ∧ CleanRel s s' removed) := by
  intro fuel
  induction fuel with
  | zero =>
    intro bs s' removed h
    simp only [halvingGo] at h
    injection h with h1
    injection h1 with h2 h3
    exact Or.inl ⟨h2.symm, h3.symm⟩
  | succ n ih =>
    intro bs s' removed h
    simp only [halvingGo] at h
    rcases hb : optimizationBatch o s
        { u := u, batchSize := bs, validateFem := false, fastMode := fm,
          maxFemAttempts := 0, useSymmetry := false } with _ | ⟨s1, r1⟩
    · rw [hb] at h
      simp only [] at h
      cases h
    rw [hb] at h
    simp only [] at h
    have hbs := optimizationBatch_spec hwf hsc s1 r1 hb
    have hrest : restoreSnapshot s1 (takeSnapshot s) = s :=
      restore_takeSnapshot hbs.1
    by_cases hr : 0 < r1
    · rw [if_pos hr] at h
      rcases hsol : solveStructure o.sp s1 with _ | ⟨u2, s2⟩
      · rw [hsol] at h
        simp only [] at h
        cases h
      rw [hsol] at h
      have hs2 : s2 = s1 := solveStructure_state _ _ u2 s2 hsol
      subst hs2
      rcases u2 with _ | uv
      · simp only [] at h
        rw [hrest] at h
        exact ih _ _ _ h
      · simp only [] at h
        injection h with h1
        injection h1 with h2 h3
        subst h2
        subst h3
        exact Or.inr ⟨hr, hbs⟩
    · rw [if_neg hr] at h
      rw [hrest] at h
      exact ih _ _ _ h

/-- `_halving_fallback` satisfies the cleanup relation whenever it
reports a positive removal count, and otherwise returns the entry
state unchanged. -/
theorem halvingFallback_spec {o : Orac} {s : Structure} {u : List Frac} {remaining : Int}
    {fm : Bool} (hwf : WF s) (hsc : SC s) :
    ∀ s' removed, halvingFallback o s u remaining fm = .ok (s', removed) →
      (s' = s ∧ removed = 0) ∨ (0 < removed ∧ CleanRel s s' removed) := by
  intro s' removed h
  exact halvingGo_spec hwf hsc 6 _ s' removed h

/-- The frame part of the cleanup relation: skeleton preserved, spring
consistency, activity only lost, protected nodes untouched, count not
increased. -/
def FrameRel (s t : Structure) : Prop :=
  skelEq s t ∧ SC t ∧
  (∀ j, activeAt t j = true → activeAt s j = true) ∧
  (∀ j, ffAt s j = true → activeAt t j = activeAt s j) ∧
  activeNodeCount t ≤ activeNodeCount s

theorem CleanRel.frame {s t : Structure} {r : Nat} (h : CleanRel s t r) : FrameRel s t :=
  ⟨h.1, h.2.1, h.2.2.1, h.2.2.2.1, by have := h.2.2.2.2; omega⟩

theorem FrameRel.frefl (s : Structure) (hsc : SC s) : FrameRel s s :=
  ⟨skelEq_refl s, hsc, fun _ hj => hj, fun _ _ => rfl, Nat.le_refl _⟩

theorem FrameRel.ftrans {s t u : Structure} (h1 : FrameRel s t) (h2 : FrameRel t u) :
    FrameRel s u := by
  obtain ⟨hk1, hc1, hm1, hf1, hn1⟩ := h1
  obtain ⟨hk2, hc2, hm2, hf2, hn2⟩ := h2
  refine ⟨skelEq_trans hk1 hk2, hc2, fun j hj => hm1 j (hm2 j hj), ?_, by omega⟩
  intro j hj
  have hft : ffAt t j = true := by rw [← ffAt_of_skelEq hk1 j]; exact hj
  rw [hf2 j hft, hf1 j hj]

/-- The node-bit count recorded in a snapshot is the active node count
of the state it was taken from. -/
theorem countP_takeSnapshot (t : Structure) :
    (takeSnapshot t).1.countP id = activeNodeCount t := by
  unfold takeSnapshot activeNodeCount
  rw [List.countP_map]
  rfl

/-- Arithmetic core of the loop-measure decrease: the flattened
lexicographic comparison.  Index `a` is the new state, `b` the old. -/
theorem runMeasure_lt {N ba sa ca fa bb sb cb fb : Nat}
    (h : (2 * ba + sa < 2 * bb + sb ∧ ca ≤ N) ∨
      (2 * ba + sa = 2 * bb + sb ∧ (ca < cb ∨ (ca = cb ∧ 3 - fa < 3 - fb)))) :
    4 * (N + 1) * (2 * ba + sa) + 4 * ca + (3 - fa) <
      4 * (N + 1) * (2 * bb + sb) + 4 * cb + (3 - fb) := by
  rcases h with ⟨hlt, hca⟩ | ⟨heq, hrest⟩
  · have h2 : 4 * (N + 1) * (2 * ba + sa) + 4 * (N + 1) ≤ 4 * (N + 1) * (2 * bb + sb) := by
      calc 4 * (N + 1) * (2 * ba + sa) + 4 * (N + 1)
          = 4 * (N + 1) * ((2 * ba + sa) + 1) := by ring
        _ ≤ 4 * (N + 1) * (2 * bb + sb) := Nat.mul_le_mul_left _ (by omega)
    generalize hP : 4 * (N + 1) * (2 * ba + sa) = P at h2 ⊢
    generalize hR : 4 * (N + 1) * (2 * bb + sb) = R at h2 ⊢
    omega
  · have h2 : 4 * (N + 1) * (2 * ba + sa) = 4 * (N + 1) * (2 * bb + sb) := by rw [heq]
    generalize hP : 4 * (N + 1) * (2 * ba + sa) = P at h2 ⊢
    generalize hR : 4 * (N + 1) * (2 * bb + sb) = R at h2 ⊢
    omega

/-- Invariant of the `run` main loop relative to the entry structure:
frame relation, failure allowance, and a pending snapshot dominated by
a recorded intermediate state. -/
structure LoopInv (s0 : Structure) (st : RunSt) : Prop where
  rel : FrameRel s0 st.s
  fail : st.failures ≤ 2
  snapOk : ∀ bits snapU, st.snap = some (bits, snapU) →
    ∃ t, FrameRel s0 t ∧ takeSnapshot t = bits ∧ activeNodeCount st.s ≤ activeNodeCount t

/-- What holds of a loop state at any exit, stagnation included. -/
structure LoopExitInv (s0 : Structure) (st : RunSt) : Prop where
  rel : FrameRel s0 st.s
  snapOk : ∀ bits snapU, st.snap = some (bits, snapU) →
    ∃ t, FrameRel s0 t ∧ takeSnapshot t = bits

theorem LoopInv.exit {s0 : Structure} {st : RunSt} (h : LoopInv s0 st) : LoopExitInv s0 st :=
  ⟨h.rel, fun bits snapU he => (h.snapOk bits snapU he).imp fun _ ht => ⟨ht.1, ht.2.1⟩⟩

/-- The rollback branch of a `run` iteration: halts satisfy the exit
conditions, continuations keep the invariant and strictly decrease the
measure. -/
theorem runStepB_spec {o : Orac} {fm sym : Bool} {total target toRemove : Nat}
    {s0 : Structure} (hwf : WF s0) (hsc : SC s0) {st : RunSt} (hInv : LoopInv s0 st) :
    ∀ out, runStepB o fm sym total target toRemove st = .ok out →
      (∀ st', out = .halt st' → LoopExitInv s0 st') ∧
      (∀ st', out = .cont st' → LoopInv s0 st' ∧ runMeasure st' < runMeasure st) := by
  intro out h
  have hlenc : st.s.nodes.length = s0.nodes.length := (skelEq_nodes_length hInv.rel.1).symm
  simp only [runStepB] at h
  rcases hsnap : st.snap with _ | ⟨bits, snapU⟩
  · rw [hsnap] at h
    simp only [] at h
    injection h with h1
    refine ⟨?_, ?_⟩
    · intro st' he
      rw [← h1] at he
      injection he with he2
      subst he2
      exact hInv.exit
    · intro st' he
      rw [← h1] at he
      cases he
  · rw [hsnap] at h
    simp only [] at h
    obtain ⟨t, htF, htb, htc⟩ := hInv.snapOk bits snapU hsnap
    have hwft : WF t := WF_of_skelEq htF.1 hwf
    have hsct : SC t := htF.2.1
    have hts : skelEq t st.s := skelEq_trans (skelEq_symm htF.1) hInv.rel.1
    have hrest : restoreSnapshot st.s bits = t := by
      rw [← htb]
      exact restore_takeSnapshot hts
    rw [hrest] at h
    by_cases hfast : fm = true
    · rw [if_pos hfast] at h
      rcases hh : halvingFallback o t snapU ((st.nActiveVar : Int) - (target : Int)) true
        with _ | ⟨s3, halved⟩
      · rw [hh] at h
        simp only [] at h
        cases h
      rw [hh] at h
      simp only [] at h
      have hhs := halvingFallback_spec hwft hsct s3 halved hh
      by_cases hz : halved = 0
      · rw [if_pos hz] at h
        injection h with h1
        have hs3 : s3 = t := by
          rcases hhs with ⟨he, _⟩ | ⟨hpos, _⟩
          · exact he
          · omega
        refine ⟨?_, ?_⟩
        · intro st' he
          rw [← h1] at he
          injection he with he2
          subst he2
          refine ⟨?_, ?_⟩
          · show FrameRel s0 s3
            rw [hs3]
            exact htF
          · intro b u2 he2
            simp at he2
        · intro st' he
          rw [← h1] at he
          cases he
      · rw [if_neg hz] at h
        have hcr : CleanRel t s3 halved := by
          rcases hhs with ⟨_, hz2⟩ | hR
          · exact absurd hz2 hz
          · exact hR.2
        injection h with h1
        refine ⟨?_, ?_⟩
        · intro st' he
          rw [← h1] at he
          cases he
        · intro st' he
          rw [← h1] at he
          injection he with he2
          subst he2
          have hF3 : FrameRel s0 s3 := htF.ftrans hcr.frame
          refine ⟨⟨hF3, hInv.fail, fun b u2 he2 => by simp at he2⟩, ?_⟩
          have hcnt : activeNodeCount s3 < activeNodeCount t := by
            have h5 := hcr.2.2.2.2
            omega
          have hlen3 : s3.nodes.length = s0.nodes.length := (skelEq_nodes_length hF3.1).symm
          have hc3N := activeNodeCount_le_length s3
          simp only [runMeasure, hsnap]
          rw [← htb, countP_takeSnapshot, hlen3, hlenc]
          exact runMeasure_lt (Or.inl ⟨by omega, by omega⟩)
    · rw [if_neg hfast] at h
      rcases hb : optimizationBatch o t
          { u := snapU, batchSize := 1, validateFem := true, fastMode := false,
            maxFemAttempts := 0, useSymmetry := sym } with _ | ⟨s3, removed⟩
      · rw [hb] at h
        simp only [] at h
        cases h
      rw [hb] at h
      simp only [] at h
      have hcr : CleanRel t s3 removed := optimizationBatch_spec hwft hsct s3 removed hb
      have hF3 : FrameRel s0 s3 := htF.ftrans hcr.frame
      by_cases hz : removed = 0
      · rw [if_pos hz] at h
        injection h with h1
        refine ⟨?_, ?_⟩
        · intro st' he
          rw [← h1] at he
          injection he with he2
          subst he2
          exact ⟨hF3, fun b u2 he2 => by simp at he2⟩
        · intro st' he
          rw [← h1] at he
          cases he
      · rw [if_neg hz] at h
        injection h with h1
        refine ⟨?_, ?_⟩
        · intro st' he
          rw [← h1] at he
          cases he
        · intro st' he
          rw [← h1] at he
          injection he with he2
          subst he2
          refine ⟨⟨hF3, hInv.fail, fun b u2 he2 => by simp at he2⟩, ?_⟩
          have hcnt : activeNodeCount s3 < activeNodeCount t := by
            have h5 := hcr.2.2.2.2
            omega
          have hlen3 : s3.nodes.length = s0.nodes.length := (skelEq_nodes_length hF3.1).symm
          have hc3N := activeNodeCount_le_length s3
          simp only [runMeasure, hsnap]
          rw [← htb, countP_takeSnapshot, hlen3, hlenc]
          exact runMeasure_lt (Or.inl ⟨by omega, by omega⟩)

/-- The optimization branch of a `run` iteration: halts satisfy the
exit conditions, continuations keep the invariant and strictly
decrease the measure. -/
theorem runStepA_spec {o : Orac} {fm sym : Bool} {total target toRemove : Nat} {u : List Frac}
    {s0 : Structure} (hwf : WF s0) (hsc : SC s0) {st : RunSt} (hInv : LoopInv s0 st) :
    ∀ out, runStepA o fm sym total target toRemove u st = .ok out →
      (∀ st', out = .halt st' → LoopExitInv s0 st') ∧
      (∀ st', out = .cont st' → LoopInv s0 st' ∧ runMeasure st' < runMeasure st) := by
  intro out h
  have hwfc : WF st.s := WF_of_skelEq hInv.rel.1 hwf
  have hscc : SC st.s := hInv.rel.2.1
  have hlenc : st.s.nodes.length = s0.nodes.length := (skelEq_nodes_length hInv.rel.1).symm
  simp only [runStepA] at h
  split at h
  · cases h
  rename_i s3 removed heq
  have hcr : CleanRel st.s s3 removed := optimizationBatch_spec hwfc hscc s3 removed heq
  have hF3 : FrameRel s0 s3 := FrameRel.ftrans hInv.rel hcr.frame
  have hc3 := hcr.2.2.2.2
  by_cases hz : removed = 0
  · rw [if_pos hz] at h
    have hceq : activeNodeCount s3 = activeNodeCount st.s := by omega
    by_cases hbrk : 3 ≤ st.failures + 1
    · rw [if_pos hbrk] at h
      injection h with h1
      refine ⟨?_, ?_⟩
      · intro st' he
        rw [← h1] at he
        injection he with he2
        subst he2
        refine ⟨hF3, ?_⟩
        intro b u2 he2
        simp only [] at he2
        injection he2 with hp
        injection hp with hb hu
        exact ⟨st.s, hInv.rel, hb⟩
      · intro st' he
        rw [← h1] at he
        cases he
    · rw [if_neg hbrk] at h
      injection h with h1
      refine ⟨?_, ?_⟩
      · intro st' he
        rw [← h1] at he
        cases he
      · intro st' he
        rw [← h1] at he
        injection he with he2
        subst he2
        refine ⟨⟨hF3, show st.failures + 1 ≤ 2 by omega, ?_⟩, ?_⟩
        · intro b u2 he2
          simp only [] at he2
          injection he2 with hp
          injection hp with hb hu
          exact ⟨st.s, hInv.rel, hb, show activeNodeCount s3 ≤ activeNodeCount st.s by omega⟩
        · rcases hsnap : st.snap with _ | ⟨bits, snapU⟩
          · simp only [runMeasure, hsnap]
            simp only [countP_takeSnapshot]
            have hlen3 : s3.nodes.length = s0.nodes.length :=
              (skelEq_nodes_length hF3.1).symm
            rw [hlen3, hlenc]
            have hc3N := activeNodeCount_le_length s3
            exact runMeasure_lt (Or.inl ⟨by omega, by omega⟩)
          · obtain ⟨t, htF, htb, htc⟩ := hInv.snapOk bits snapU hsnap
            simp only [runMeasure, hsnap]
            rw [← htb]
            simp only [countP_takeSnapshot]
            have hlen3 : s3.nodes.length = s0.nodes.length :=
              (skelEq_nodes_length hF3.1).symm
            rw [hlen3, hlenc]
            have hc3N := activeNodeCount_le_length s3
            have hfail := hInv.fail
            rcases Nat.lt_or_ge (activeNodeCount st.s) (activeNodeCount t) with hlt | hge
            · exact runMeasure_lt (Or.inl ⟨by omega, by omega⟩)
            · have heqc : activeNodeCount st.s = activeNodeCount t := by omega
              exact runMeasure_lt (Or.inr ⟨by omega, Or.inr ⟨by omega, by omega⟩⟩)
  · rw [if_neg hz] at h
    have hwf3 : WF s3 := WF_of_skelEq hF3.1 hwf
    have hsc3 : SC s3 := hF3.2.1
    have hcl : CleanRel s3 (cleanupDangling s3).1 (cleanupDangling s3).2 :=
      cleanupDangling_spec hwf3 hsc3
    have hF4 : FrameRel s0 (cleanupDangling s3).1 := hF3.ftrans hcl.frame
    have hc4 := hcl.2.2.2.2
    have hc4lt : activeNodeCount (cleanupDangling s3).1 < activeNodeCount st.s := by omega
    injection h with h1
    refine ⟨?_, ?_⟩
    · intro st' he
      rw [← h1] at he
      cases he
    · intro st' he
      rw [← h1] at he
      injection he with he2
      subst he2
      refine ⟨⟨hF4, show (0 : Nat) ≤ 2 by omega, ?_⟩, ?_⟩
      · intro b u2 he2
        simp only [] at he2
        injection he2 with hp
        injection hp with hb hu
        exact ⟨st.s, hInv.rel, hb,
          show activeNodeCount (cleanupDangling s3).1 ≤ activeNodeCount st.s by omega⟩
      · have hlen4 : (cleanupDangling s3).1.nodes.length = s0.nodes.length :=
          (skelEq_nodes_length hF4.1).symm
        have hc4N := activeNodeCount_le_length (cleanupDangling s3).1
        rcases hsnap : st.snap with _ | ⟨bits, snapU⟩
        · simp only [runMeasure, hsnap]
          simp only [countP_takeSnapshot]
          rw [hlen4, hlenc]
          exact runMeasure_lt (Or.inl ⟨by omega, by omega⟩)
        · obtain ⟨t, htF, htb, htc⟩ := hInv.snapOk bits snapU hsnap
          simp only [runMeasure, hsnap]
          rw [← htb]
          simp only [countP_takeSnapshot]
          rw [hlen4, hlenc]
          rcases Nat.lt_or_ge (activeNodeCount st.s) (activeNodeCount t) with hlt | hge
          · exact runMeasure_lt (Or.inl ⟨by omega, by omega⟩)
          · have heqc : activeNodeCount st.s = activeNodeCount t := by omega
            exact runMeasure_lt (Or.inr ⟨by omega, Or.inl (by omega)⟩)

/-- One iteration of the `run` loop: a halt satisfies the exit
conditions, a continuation keeps the invariant and strictly decreases
the measure. -/
theorem runStep_spec {o : Orac} {fm sym : Bool} {total target toRemove : Nat}
    {si : Option (Frac × Frac)} {s0 : Structure} (hwf : WF s0) (hsc : SC s0)
    {st : RunSt} (hInv : LoopInv s0 st) :
    ∀ out, runStep o fm sym total target toRemove si st = .ok out →
      (∀ st', out = .halt st' → LoopExitInv s0 st') ∧
      (∀ st', out = .cont st' → LoopInv s0 st' ∧ runMeasure st' < runMeasure st) := by
  intro out h
  simp only [runStep] at h
  by_cases hT : ¬ target < activeNodeCount st.s
  · rw [if_pos hT] at h
    injection h with h1
    refine ⟨?_, ?_⟩
    · intro st' he
      rw [← h1] at he
      injection he with he2
      subst he2
      exact hInv.exit
    · intro st' he
      rw [← h1] at he
      cases he
  rw [if_neg hT] at h
  rcases hsol : solveStructure o.sp st.s with _ | ⟨u1, s1⟩
  · rw [hsol] at h
    simp only [] at h
    cases h
  rw [hsol] at h
  have hs1 : s1 = st.s := solveStructure_state _ _ u1 s1 hsol
  subst hs1
  rcases u1 with _ | u
  · simp only [] at h
    exact runStepB_spec hwf hsc hInv out h
  · simp only [] at h
    rcases si with _ | ⟨limit, sref⟩
    · simp only [] at h
      rw [if_neg (by simp)] at h
      exact runStepA_spec hwf hsc hInv out h
    · simp only [] at h
      by_cases hsb : (if ¬ (computeSpringStresses o st.s u).isEmpty then
          limit.blt ((Frac.lmax ((computeSpringStresses o st.s u).map (·.2))).div sref)
        else false) = true
      · rw [if_pos hsb] at h
        injection h with h1
        refine ⟨?_, ?_⟩
        · intro st' he
          rw [← h1] at he
          injection he with he2
          subst he2
          exact hInv.exit
        · intro st' he
          rw [← h1] at he
          cases he
      · rw [if_neg hsb] at h
        exact runStepA_spec hwf hsc hInv out h

/-- The fuelled `run` loop: with fuel above the measure it never
exhausts its fuel, and every normal exit satisfies the loop exit
conditions. -/
theorem runLoop_spec {o : Orac} {fm sym : Bool} {total target toRemove : Nat}
    {si : Option (Frac × Frac)} {s0 : Structure} (hwf : WF s0) (hsc : SC s0) :
    ∀ (fuel : Nat) (st : RunSt), LoopInv s0 st → runMeasure st < fuel →
      (runLoop o fm sym total target toRemove si fuel st ≠ .fuelex) ∧
      (∀ stF, runLoop o fm sym total target toRemove si fuel st = .out stF →
        LoopExitInv s0 stF) := by
  intro fuel
  induction fuel with
  | zero =>
    intro st hInv hm
    exact absurd hm (Nat.not_lt_zero _)
  | succ n ih =>
    intro st hInv hm
    simp only [runLoop]
    rcases hstep : runStep o fm sym total target toRemove si st with _ | out
    · refine ⟨fun hc => LoopRes.noConfusion hc, fun stF hF => LoopRes.noConfusion hF⟩
    rcases out with st' | st'
    · refine ⟨fun hc => LoopRes.noConfusion hc, ?_⟩
      intro stF hF
      injection hF with h2
      subst h2
      exact (runStep_spec hwf hsc hInv _ hstep).1 st' rfl
    · obtain ⟨hInv', hlt⟩ := (runStep_spec hwf hsc hInv _ hstep).2 st' rfl
      exact ih st' hInv' (by omega)

/-- The initial loop state satisfies the invariant. -/
theorem runSt0_inv {total target : Nat} {s0 : Structure} (hsc : SC s0) :
    LoopInv s0 (runSt0 total target s0) :=
  ⟨FrameRel.frefl s0 hsc, show (0 : Nat) ≤ 2 by omega,
    fun b u2 he2 => by simp [runSt0] at he2⟩

/-- The main loop of `run` with its post-processing preserves the
frame relation from the loop entry state. -/
theorem runMain_spec {o : Orac} {fm sym : Bool} {total target : Nat}
    {si : Option (Frac × Frac)} {s0 : Structure} (hwf : WF s0) (hsc : SC s0) :
    ∀ sF hist ev, runMain o fm sym total target si s0 = .ok (sF, hist, ev) →
      FrameRel s0 sF := by
  intro sF hist ev h
  simp only [runMain] at h
  have hInv0 : LoopInv s0 (runSt0 total target s0) := runSt0_inv hsc
  rcases hloop : runLoop o fm sym total target (total - target) si
      (runMeasure (runSt0 total target s0) + 1) (runSt0 total target s0) with _ | stF | _
  · rw [hloop] at h
    simp only [] at h
    cases h
  · rw [hloop] at h
    simp only [] at h
    have hexit := (runLoop_spec hwf hsc _ _ hInv0 (Nat.lt_succ_self _)).2 stF hloop
    rcases hsn : stF.snap with _ | sn
    · rw [hsn] at h
      simp only [] at h
      injection h with h1
      injection h1 with h2 h3
      subst h2
      have hwfF : WF stF.s := WF_of_skelEq hexit.rel.1 hwf
      exact hexit.rel.ftrans (cleanupDangling_spec hwfF hexit.rel.2.1).frame
    · rw [hsn] at h
      simp only [] at h
      obtain ⟨t, htF, htb⟩ := hexit.snapOk sn.1 sn.2 (by rw [hsn])
      rcases hps : solveStructure o.sp stF.s with _ | ⟨uR, s2⟩
      · rw [hps] at h
        simp only [] at h
        cases h
      rw [hps] at h
      have hs2 : s2 = stF.s := solveStructure_state _ _ uR s2 hps
      subst hs2
      rcases uR with _ | uvec
      · simp only [] at h
        have hrest : restoreSnapshot stF.s sn.1 = t := by
          rw [← htb]
          exact restore_takeSnapshot (skelEq_trans (skelEq_symm htF.1) hexit.rel.1)
        rw [hrest] at h
        injection h with h1
        injection h1 with h2 h3
        subst h2
        have hwft : WF t := WF_of_skelEq htF.1 hwf
        exact htF.ftrans (cleanupDangling_spec hwft htF.2.1).frame
      · simp only [] at h
        injection h with h1
        injection h1 with h2 h3
        subst h2
        have hwfF : WF stF.s := WF_of_skelEq hexit.rel.1 hwf
        exact hexit.rel.ftrans (cleanupDangling_spec hwfF hexit.rel.2.1).frame
  · rw [hloop] at h
    simp only [] at h
    cases h

/-- `run` preserves the frame relation: valid inputs only ever lose
activity. -/
theorem run_frame {o : Orac} {s : Structure} {mf : Frac} {srl : Option Frac}
    {fm sym : Bool} (hwf : WF s) (hsc : SC s) :
    ∀ sF hist ev, run o s mf srl fm sym = .ok (sF, hist, ev) → FrameRel s sF := by
  intro sF hist ev h
  simp only [run] at h
  by_cases hb : ¬ (Frac.zero.blt mf = true ∧ mf.blt Frac.one = true)
  · rw [if_pos hb] at h
    cases h
  rw [if_neg hb] at h
  rcases srl with _ | limit
  · simp only [] at h
    exact runMain_spec hwf hsc sF hist ev h
  · simp only [] at h
    rcases hps : solveStructure o.sp s with _ | ⟨uR, s2⟩
    · rw [hps] at h
      simp only [] at h
      cases h
    rw [hps] at h
    have hs2 : s2 = s := solveStructure_state _ _ uR s2 hps
    subst s2
    rcases uR with _ | uvec
    · simp only [] at h
      exact runMain_spec hwf hsc sF hist ev h
    · simp only [] at h
      by_cases hre : (computeSpringStresses o s uvec).isEmpty = true
      · rw [if_pos hre] at h
        simp only [] at h
        exact runMain_spec hwf hsc sF hist ev h
      · rw [if_neg hre] at h
        simp only [] at h
        exact runMain_spec hwf hsc sF hist ev h

/-- On spring-consistent input, stored spring activity is also only
ever lost across the frame relation. -/
theorem springActiveAt_mono {s t : Structure} (hscs : SC s) (hF : FrameRel s t) :
    ∀ i, springActiveAt t i = true → springActiveAt s i = true := by
  intro i h
  unfold springActiveAt at h ⊢
  rcases ht : t.springs[i]? with _ | sp
  · rw [ht] at h
    cases h
  rw [ht] at h
  have hstr := skelEq_spring_strip hF.1 i
  rcases hs : s.springs[i]? with _ | sp'
  · rw [hs, ht] at hstr
    simp at hstr
  rw [hs, ht] at hstr
  simp at hstr
  simp only [] at h ⊢
  have hmem : sp ∈ t.springs := List.mem_iff_getElem?.mpr ⟨i, ht⟩
  have hsct := hF.2.1 sp hmem
  rw [h] at hsct
  have hab := (Bool.and_eq_true _ _).mp hsct.symm
  have ha : sp'.a = sp.a := by
    have h2 := congrArg Spring.a hstr
    exact h2
  have hb : sp'.b = sp.b := by
    have h2 := congrArg Spring.b hstr
    exact h2
  have hmem' : sp' ∈ s.springs := List.mem_iff_getElem?.mpr ⟨i, hs⟩
  have hscs' := hscs sp' hmem'
  rw [hscs', ha, hb, hF.2.2.1 sp.a hab.1, hF.2.2.1 sp.b hab.2]
  rfl

/-- C1 (theorem, amended): on well-formed, spring-consistent input the
fuel budgeted for the main loop — one more than the termination
measure of the initial state — is never exhausted, for any target and
stress configuration: the `while` loop always terminates.  Moreover a
successful `run` never increases the active node count.  The claimed
target bound `max 2 ⌊N·f⌋` itself is not guaranteed: the loop may exit
by stagnation far above the target. -/
theorem run_terminates_and_monotone {o : Orac} {s : Structure} {mf : Frac}
    {srl : Option Frac} {fm sym : Bool} (hwf : WF s) (hsc : SC s) :
    (∀ (total target : Nat) (si : Option (Frac × Frac)),
      runLoop o fm sym total target (total - target) si
        (runMeasure (runSt0 total target s) + 1) (runSt0 total target s) ≠ .fuelex) ∧
    (∀ sF hist ev, run o s mf srl fm sym = .ok (sF, hist, ev) →
      activeNodeCount sF ≤ activeNodeCount s) := by
  constructor
  · intro total target si
    exact (runLoop_spec hwf hsc _ _ (runSt0_inv hsc) (Nat.lt_succ_self _)).1
  · intro sF hist ev h
    exact (run_frame hwf hsc sF hist ev h).2.2.2.2

/-- C1 (witness): the 2×2 demo run terminates and does not increase
the count. -/
theorem run_terminates_and_monotone_witness :
    WF fix22 ∧ SC fix22 ∧
    (runLoop oAll false false 4 2 2 none
      (runMeasure (runSt0 4 2 fix22) + 1) (runSt0 4 2 fix22) ≠ .fuelex) ∧
    (∃ sF hist ev, run oAll fix22 ⟨1, 2⟩ none false false = .ok (sF, hist, ev) ∧
      activeNodeCount sF ≤ activeNodeCount fix22) := by
  have hwf : WF fix22 := wf_of_check fix22 (by decide) (by decide)
  have hsc : SC fix22 := by decide
  refine ⟨hwf, hsc,
    (@run_terminates_and_monotone oAll fix22 ⟨1, 2⟩ none false false hwf hsc).1 4 2 none, ?_⟩
  have hne : (match run oAll fix22 ⟨1, 2⟩ none false false with
      | .raises => false
      | .ok _ => true) = true := by decide
  rcases hr : run oAll fix22 ⟨1, 2⟩ none false false with _ | ⟨S, H, E⟩
  · rw [hr] at hne
    simp only [] at hne
    cases hne
  · exact ⟨S, H, E, rfl,
      (run_terminates_and_monotone hwf hsc).2 S H E hr⟩

/-- C1 (counterexample): with every node of a 3×3 grid fixed, nothing
is removable; `run` with mass fraction 1/4 succeeds by stagnation with
all 9 nodes active, while the claimed bound is `max 2 ⌊9/4⌋ = 2` — the
excess grows with the grid, so no fixed small slack repairs the
claim. -/
theorem run_misses_target_bound :
    (match run oAll cexAllFix ⟨1, 4⟩ none false false with
      | .ok p => some (activeNodeCount p.1)
      | .raises => none) = some 9 ∧
    max 2 ((Frac.mul ⟨(cexAllFix.nodes.length : Int), 1⟩ ⟨1, 4⟩).truncz.toNat) = 2 := by
  decide

/-- C8 (theorem, amended): across a whole successful `run` on a
well-formed, spring-consistent lattice, the node and spring sequences
keep their length, ids and rest geometry (the skeleton), and every
node and every stored spring active at return was already active at
call — net mutation is deactivation only. -/
theorem run_deactivation_only {o : Orac} {s : Structure} {mf : Frac}
    {srl : Option Frac} {fm sym : Bool} (hwf : WF s) (hsc : SC s) :
    ∀ sF hist ev, run o s mf srl fm sym = .ok (sF, hist, ev) →
      skelEq s sF ∧
      (∀ j, activeAt sF j = true → activeAt s j = true) ∧
      (∀ i, springActiveAt sF i = true → springActiveAt s i = true) := by
  intro sF hist ev h
  have hF := run_frame hwf hsc sF hist ev h
  exact ⟨hF.1, hF.2.2.1, springActiveAt_mono hsc hF⟩

/-- C8 (witness): the 2×2 demo run only deactivates. -/
theorem run_deactivation_only_witness :
    WF fix22 ∧ SC fix22 ∧
    (∃ sF hist ev, run oAll fix22 ⟨1, 2⟩ none false false = .ok (sF, hist, ev) ∧
      skelEq fix22 sF ∧
      (∀ i, springActiveAt sF i = true → springActiveAt fix22 i = true)) := by
  have hwf : WF fix22 := wf_of_check fix22 (by decide) (by decide)
  have hsc : SC fix22 := by decide
  refine ⟨hwf, hsc, ?_⟩
  have hne : (match run oAll fix22 ⟨1, 2⟩ none false false with
      | .raises => false
      | .ok _ => true) = true := by decide
  rcases hr : run oAll fix22 ⟨1, 2⟩ none false false with _ | ⟨S, H, E⟩
  · rw [hr] at hne
    simp only [] at hne
    cases hne
  · have hcc := run_deactivation_only hwf hsc S H E hr
    exact ⟨S, H, E, rfl, hcc.1, hcc.2.2⟩

/-- C8 (counterexample): on an input violating spring consistency —
one inactive spring between two active endpoints — the per-node undo
inside the rollback batch re-activates that spring, so `run` returns
with a spring active that was inactive when `run` was called. -/
theorem run_reactivates_rogue_spring :
    springActiveAt cex8 4 = false ∧
    (match run oCount9 cex8 ⟨1, 2⟩ none false false with
      | .ok p => springActiveAt p.1 4
      | .raises => false) = true := by
  decide

/-! ### The fresh grid and the reachability invariant -/

/-- The fresh grid node list in closed positional form. -/
theorem gridNodes_eq (w h : Nat) :
    gridNodes w h = (List.range (h * w)).map
      (fun j => mkNode j (Int.ofNat (j % w)) (Int.ofNat (j / w))) := by
  induction h with
  | zero => simp [gridNodes]
  | succ n ih =>
    have hsplit : gridNodes w (n + 1) = gridNodes w n ++
        (List.range w).map (fun x => mkNode (n * w + x) (Int.ofNat x) (Int.ofNat n)) := by
      unfold gridNodes
      rw [List.range_succ, List.flatMap_append]
      simp
    rw [hsplit, ih]
    have hrange : (n + 1) * w = n * w + w := by ring
    rw [hrange, List.range_add, List.map_append, List.map_map]
    congr 1
    apply List.map_congr_left
    intro x hx
    have hxw : x < w := List.mem_range.mp hx
    have hw : 0 < w := by omega
    have hmod : (n * w + x) % w = x := by
      rw [Nat.mul_comm n w, Nat.mul_add_mod, Nat.mod_eq_of_lt hxw]
    have hdiv : (n * w + x) / w = n := by
      rw [Nat.mul_comm n w, Nat.mul_add_div hw, Nat.div_eq_of_lt hxw]
      omega
    simp only [Function.comp]
    rw [hmod, hdiv]

theorem mkStructure_nodes (w h : Nat) : (mkStructure w h).nodes = gridNodes w h := rfl

theorem mkStructure_nodes_length (w h : Nat) :
    (mkStructure w h).nodes.length = h * w := by
  rw [mkStructure_nodes, gridNodes_eq]
  simp

/-- Every node of a fresh grid is active. -/
theorem activeAt_mkStructure (w h j : Nat) (hj : j < h * w) :
    activeAt (mkStructure w h) j = true := by
  unfold activeAt activeInList
  rw [mkStructure_nodes, gridNodes_eq]
  simp [List.getElem?_map, List.getElem?_range, hj, mkNode]

/-- Every generated spring endpoint is in range. -/
theorem gridSpringPairs_bounds (w h : Nat) :
    ∀ p ∈ gridSpringPairs w h, p.1 < h * w ∧ p.2 < h * w := by
  intro p hp
  unfold gridSpringPairs at hp
  rcases List.mem_flatMap.mp hp with ⟨y, hy, hp2⟩
  rcases List.mem_flatMap.mp hp2 with ⟨x, hx, hp3⟩
  have hyh : y < h := List.mem_range.mp hy
  have hxw : x < w := List.mem_range.mp hx
  have hm1 : (y + 1) * w = y * w + w := by ring
  have hm2 : (y + 2) * w = y * w + w + w := by ring
  have hle1 : y + 1 ≤ h → (y + 1) * w ≤ h * w := fun hh => Nat.mul_le_mul_right w hh
  have hle2 : y + 2 ≤ h → (y + 2) * w ≤ h * w := fun hh => Nat.mul_le_mul_right w hh
  simp only [List.mem_append] at hp3
  rcases hp3 with ((h1 | h2) | h3) | h4
  · split at h1
    · rename_i hc
      rw [List.mem_singleton] at h1
      subst h1
      have := hle1 (by omega)
      constructor <;> simp <;> omega
    · cases h1
  · split at h2
    · rename_i hc
      rw [List.mem_singleton] at h2
      subst h2
      have := hle2 (by omega)
      constructor <;> simp <;> omega
    · cases h2
  · split at h3
    · rename_i hc
      rw [List.mem_singleton] at h3
      subst h3
      have := hle2 (by omega)
      constructor <;> simp <;> omega
    · cases h3
  · split at h4
    · rename_i hc
      rw [List.mem_singleton] at h4
      subst h4
      have := hle2 (by omega)
      constructor <;> simp <;> omega
    · cases h4

/-- The spring stored at each position of a fresh grid. -/
theorem mkStructure_spring_mem (w h : Nat) {sp : Spring}
    (hsp : sp ∈ (mkStructure w h).springs) :
    sp.active = true ∧ sp.a < h * w ∧ sp.b < h * w := by
  have hsp' : sp ∈ (gridSpringPairs w h).enum.map
      (fun p => (⟨p.1, p.2.1, p.2.2, none, true⟩ : Spring)) := hsp
  rcases List.mem_map.mp hsp' with ⟨q, hq, hqe⟩
  obtain ⟨i, pr⟩ := q
  have hpr : (gridSpringPairs w h)[i]? = some pr := List.mem_enum_iff_getElem?.mp hq
  have hmem : pr ∈ gridSpringPairs w h := List.mem_iff_getElem?.mpr ⟨i, hpr⟩
  have hb := gridSpringPairs_bounds w h pr hmem
  subst hqe
  exact ⟨rfl, hb.1, hb.2⟩

/-- A fresh grid is well-formed. -/
theorem WF_mkStructure (w h : Nat) : WF (mkStructure w h) := by
  constructor
  · intro i n hin
    rw [mkStructure_nodes, gridNodes_eq, List.getElem?_map] at hin
    by_cases hi : i < h * w
    · rw [List.getElem?_range hi] at hin
      simp only [Option.map_some'] at hin
      injection hin with h2
      rw [← h2]
      rfl
    · rw [List.getElem?_eq_none (by simpa using Nat.le_of_not_lt hi)] at hin
      cases hin
  · intro sp hsp
    have hb := mkStructure_spring_mem w h hsp
    rw [mkStructure_nodes_length]
    exact ⟨hb.2.1, hb.2.2⟩

/-- A fresh grid is spring-consistent. -/
theorem SC_mkStructure (w h : Nat) : SC (mkStructure w h) := by
  intro sp hsp
  have hb := mkStructure_spring_mem w h hsp
  rw [hb.1, activeAt_mkStructure w h sp.a hb.2.1, activeAt_mkStructure w h sp.b hb.2.2]
  rfl

/-- The structures reachable from a freshly constructed grid through
the public mutating operations: `remove_node`, `can_remove_node` (on
an active node — the source asserts activity before mutating, so a
call on an inactive node raises without touching the state),
`optimization_batch`, and a whole successful `run`. -/
inductive Reach : Structure → Prop where
  | base (w h : Nat) : Reach (mkStructure w h)
  | remove {s : Structure} (hs : Reach s) (nid : Nat) : Reach (removeNode s nid)
  | canrem {s : Structure} (hs : Reach s) (nid : Nat) (hact : activeAt s nid = true) :
      Reach (canRemoveNode s nid).2
  | batch {s s' : Structure} {r : Nat} (hs : Reach s) (o : Orac) (ps : BatchPs)
      (hb : optimizationBatch o s ps = .ok (s', r)) : Reach s'
  | runr {s sF : Structure} {hist : List Frac} {ev : List (Frac × Nat × Nat)}
      (hs : Reach s) (o : Orac) (mf : Frac) (srl : Option Frac) (fm sym : Bool)
      (hr : run o s mf srl fm sym = .ok (sF, hist, ev)) : Reach sF

/-- Reachable structures are well-formed and spring-consistent. -/
theorem reach_WF_SC {s : Structure} (h : Reach s) : WF s ∧ SC s := by
  induction h with
  | base w h => exact ⟨WF_mkStructure w h, SC_mkStructure w h⟩
  | remove hs nid ih =>
    exact ⟨WF_of_skelEq (skelEq_removeNode _ nid) ih.1, SC_removeNode ih.2 nid⟩
  | canrem hs nid hact ih =>
    rw [canRemoveNode_state _ nid hact]
    exact ih
  | batch hs o ps hb ih =>
    have hsp := optimizationBatch_spec ih.1 ih.2 _ _ hb
    exact ⟨WF_of_skelEq hsp.1 ih.1, hsp.2.1⟩
  | runr hs o mf srl fm sym hr ih =>
    have hF := run_frame ih.1 ih.2 _ _ _ hr
    exact ⟨WF_of_skelEq hF.1 ih.1, hF.2.1⟩

/-- C10 (theorem): starting from a freshly constructed grid, after any
sequence of the public mutating operations a spring is active exactly
when both of its endpoint nodes are active. -/
theorem reach_SC {s : Structure} (h : Reach s) : SC s := (reach_WF_SC h).2

/-- C10 (witness): spring consistency after a removal on the 2×2 grid
and after a speculative check on the 3×3 grid. -/
theorem reach_SC_witness :
    SC (removeNode (mkStructure 2 2) 0) ∧
    activeAt (mkStructure 3 3) 4 = true ∧ SC ((canRemoveNode (mkStructure 3 3) 4).2) :=
  ⟨reach_SC (Reach.remove (Reach.base 2 2) 0), by decide,
    reach_SC (Reach.canrem (Reach.base 3 3) 4 (by decide))⟩

/-! ### Monotonicity of the progress callback sequence -/

/-- Cross-multiplication `≤` agrees with the rational order on
positive denominators. -/
theorem Frac.ble_iff_toRat {a b : Frac} (ha : 0 < a.den) (hb : 0 < b.den) :
    Frac.ble a b = true ↔ a.toRat ≤ b.toRat := by
  unfold Frac.ble Frac.toRat
  rw [decide_eq_true_eq]
  rw [div_le_div_iff (by exact_mod_cast ha) (by exact_mod_cast hb)]
  constructor
  · intro h
    exact_mod_cast h
  · intro h
    exact_mod_cast h

theorem Frac.fmax_den_pos {a b : Frac} (ha : 0 < a.den) (hb : 0 < b.den) :
    0 < (Frac.fmax a b).den := by
  unfold Frac.fmax
  split
  · exact ha
  · exact hb

theorem Frac.toRat_fmax_left {a b : Frac} (ha : 0 < a.den) (hb : 0 < b.den) :
    a.toRat ≤ (Frac.fmax a b).toRat := by
  unfold Frac.fmax
  by_cases hc : Frac.ble b a = true
  · rw [if_pos hc]
  · rw [if_neg hc]
    have hnb : ¬ b.toRat ≤ a.toRat := fun hle => hc ((Frac.ble_iff_toRat hb ha).mpr hle)
    exact le_of_not_le hnb

/-- The progress fraction always has a positive denominator. -/
theorem progressOf_den_pos (a b c : Nat) : 0 < (progressOf a b c).den := by
  unfold progressOf Frac.fmin Frac.mk' Frac.one
  by_cases hb : 0 < b
  · rw [if_pos hb]
    have hd : ¬ ((Int.ofNat b) < 0) := Int.not_lt.mpr (Int.ofNat_nonneg b)
    rw [if_neg hd]
    split
    · show (0 : Int) < Int.ofNat b
      exact Int.ofNat_pos.mpr hb
    · show (0 : Int) < 1
      omega
  · rw [if_neg hb]
    show (0 : Int) < 1
    omega

/-- Appending an upper bound to a chain keeps it a chain. -/
theorem chain_snoc_of_all {α : Type} {R : α → α → Prop} :
    ∀ {l : List α} {x : α}, List.Chain' R l → (∀ y ∈ l, R y x) →
      List.Chain' R (l ++ [x]) := by
  intro l
  induction l with
  | nil =>
    intro x _ _
    simp
  | cons a t ih =>
    intro x hc hall
    rcases t with _ | ⟨b, t2⟩
    · simp only [List.nil_append, List.singleton_append]
      exact List.chain'_pair.mpr (hall a (by simp))
    · rw [List.cons_append]
      rw [List.chain'_cons] at hc
    -- hmm placement
      rw [List.cons_append, List.chain'_cons]
      exact ⟨hc.1, by
        have := @ih x hc.2 (fun y hy => hall y (List.mem_cons_of_mem _ hy))
        simpa using this⟩

/-- Soundness state of the progress-callback stream: the running
clamp has positive denominator, dominates every emitted fraction, and
the emitted fractions form a non-decreasing chain. -/
def EvOk (mp : Frac) (ev : List (Frac × Nat × Nat)) : Prop :=
  0 < mp.den ∧ (∀ e ∈ ev, 0 < e.1.den ∧ e.1.toRat ≤ mp.toRat) ∧
  List.Chain' (fun e1 e2 => e1.1.toRat ≤ e2.1.toRat) ev

/-- One progress emission preserves the stream invariant. -/
theorem EvOk_emit {mp : Frac} {ev : List (Frac × Nat × Nat)} (h : EvOk mp ev)
    (p : Frac) (hp : 0 < p.den) (ma tg : Nat) :
    EvOk (Frac.fmax mp p) (ev ++ [(Frac.fmax mp p, ma, tg)]) := by
  obtain ⟨hmp, hall, hchain⟩ := h
  have hfd : 0 < (Frac.fmax mp p).den := Frac.fmax_den_pos hmp hp
  have hmple : mp.toRat ≤ (Frac.fmax mp p).toRat := Frac.toRat_fmax_left hmp hp
  refine ⟨hfd, ?_, ?_⟩
  · intro e he
    rcases List.mem_append.mp he with he1 | he2
    · have h2 := hall e he1
      exact ⟨h2.1, h2.2.trans hmple⟩
    · rw [List.mem_singleton] at he2
      subst he2
      exact ⟨hfd, le_refl _⟩
  · apply chain_snoc_of_all hchain
    intro y hy
    exact (hall y hy).2.trans hmple

/-- The initial stream of `run` is sound. -/
theorem EvOk_init (a b : Nat) : EvOk Frac.zero [(Frac.zero, a, b)] := by
  refine ⟨by norm_num [Frac.zero], ?_, by simp⟩
  intro e he
  rw [List.mem_singleton] at he
  subst he
  exact ⟨by norm_num [Frac.zero], le_refl _⟩

/-- The rollback branch preserves the stream invariant. -/
theorem runStepB_ev {o : Orac} {fm sym : Bool} {total target toRemove : Nat} {st : RunSt}
    (hev : EvOk st.maxProg st.events) :
    ∀ out, runStepB o fm sym total target toRemove st = .ok out →
      ∀ st', (out = .halt st' ∨ out = .cont st') → EvOk st'.maxProg st'.events := by
  intro out h st' hout
  simp only [runStepB] at h
  rcases hsnap : st.snap with _ | ⟨bits, snapU⟩
  · rw [hsnap] at h
    simp only [] at h
    injection h with h1
    rcases hout with he | he <;> rw [← h1] at he
    · injection he with he2
      subst he2
      exact hev
    · cases he
  · rw [hsnap] at h
    simp only [] at h
    by_cases hfast : fm = true
    · rw [if_pos hfast] at h
      rcases hh : halvingFallback o (restoreSnapshot st.s bits) snapU
          ((st.nActiveVar : Int) - (target : Int)) true with _ | ⟨s3, halved⟩
      · rw [hh] at h
        simp only [] at h
        cases h
      rw [hh] at h
      simp only [] at h
      by_cases hz : halved = 0
      · rw [if_pos hz] at h
        injection h with h1
        rcases hout with he | he <;> rw [← h1] at he
        · injection he with he2
          subst he2
          exact hev
        · cases he
      · rw [if_neg hz] at h
        injection h with h1
        rcases hout with he | he <;> rw [← h1] at he
        · cases he
        · injection he with he2
          subst he2
          exact EvOk_emit hev (progressOf total toRemove (activeNodeCount s3))
            (progressOf_den_pos _ _ _) (min st.minActive (activeNodeCount s3)) target
    · rw [if_neg hfast] at h
      rcases hb : optimizationBatch o (restoreSnapshot st.s bits)
          { u := snapU, batchSize := 1, validateFem := true, fastMode := false,
            maxFemAttempts := 0, useSymmetry := sym } with _ | ⟨s3, removed⟩
      · rw [hb] at h
        simp only [] at h
        cases h
      rw [hb] at h
      simp only [] at h
      by_cases hz : removed = 0
      · rw [if_pos hz] at h
        injection h with h1
        rcases hout with he | he <;> rw [← h1] at he
        · injection he with he2
          subst he2
          exact hev
        · cases he
      · rw [if_neg hz] at h
        injection h with h1
        rcases hout with he | he <;> rw [← h1] at he
        · cases he
        · injection he with he2
          subst he2
          exact EvOk_emit hev (progressOf total toRemove (activeNodeCount s3))
            (progressOf_den_pos _ _ _) (min st.minActive (activeNodeCount s3)) target

/-- The optimization branch preserves the stream invariant. -/
theorem runStepA_ev {o : Orac} {fm sym : Bool} {total target toRemove : Nat} {u : List Frac}
    {st : RunSt} (hev : EvOk st.maxProg st.events) :
    ∀ out, runStepA o fm sym total target toRemove u st = .ok out →
      ∀ st', (out = .halt st' ∨ out = .cont st') → EvOk st'.maxProg st'.events := by
  intro out h st' hout
  simp only [runStepA] at h
  split at h
  · cases h
  rename_i s3 removed heq
  by_cases hz : removed = 0
  · rw [if_pos hz] at h
    by_cases hbrk : 3 ≤ st.failures + 1
    · rw [if_pos hbrk] at h
      injection h with h1
      rcases hout with he | he <;> rw [← h1] at he
      · injection he with he2
        subst he2
        exact hev
      · cases he
    · rw [if_neg hbrk] at h
      injection h with h1
      rcases hout with he | he <;> rw [← h1] at he
      · cases he
      · injection he with he2
        subst he2
        exact hev
  · rw [if_neg hz] at h
    injection h with h1
    rcases hout with he | he <;> rw [← h1] at he
    · cases he
    · injection he with he2
      subst he2
      exact EvOk_emit hev
        (progressOf total toRemove (activeNodeCount (cleanupDangling s3).1))
        (progressOf_den_pos _ _ _)
        (min st.minActive (activeNodeCount (cleanupDangling s3).1)) target

/-- One loop iteration preserves the stream invariant. -/
theorem runStep_ev {o : Orac} {fm sym : Bool} {total target toRemove : Nat}
    {si : Option (Frac × Frac)} {st : RunSt} (hev : EvOk st.maxProg st.events) :
    ∀ out, runStep o fm sym total target toRemove si st = .ok out →
      ∀ st', (out = .halt st' ∨ out = .cont st') → EvOk st'.maxProg st'.events := by
  intro out h st' hout
  simp only [runStep] at h
  by_cases hT : ¬ target < activeNodeCount st.s
  · rw [if_pos hT] at h
    injection h with h1
    rcases hout with he | he <;> rw [← h1] at he
    · injection he with he2
      subst he2
      exact hev
    · cases he
  rw [if_neg hT] at h
  rcases hsol : solveStructure o.sp st.s with _ | ⟨u1, s1⟩
  · rw [hsol] at h
    simp only [] at h
    cases h
  rw [hsol] at h
  rcases u1 with _ | u
  · simp only [] at h
    exact @runStepB_ev o fm sym total target toRemove { st with s := s1 } hev out h st' hout
  · simp only [] at h
    rcases si with _ | ⟨limit, sref⟩
    · simp only [] at h
      rw [if_neg (by simp)] at h
      exact @runStepA_ev o fm sym total target toRemove u { st with s := s1 } hev out h st' hout
    · simp only [] at h
      by_cases hsb : (if ¬ (computeSpringStresses o s1 u).isEmpty then
          limit.blt ((Frac.lmax ((computeSpringStresses o s1 u).map (·.2))).div sref)
        else false) = true
      · rw [if_pos hsb] at h
        injection h with h1
        rcases hout with he | he <;> rw [← h1] at he
        · injection he with he2
          subst he2
          exact hev
        · cases he
      · rw [if_neg hsb] at h
        exact @runStepA_ev o fm sym total target toRemove u { st with s := s1 } hev out h st' hout

/-- The fuelled loop preserves the stream invariant up to any normal
exit. -/
theorem runLoop_ev {o : Orac} {fm sym : Bool} {total target toRemove : Nat}
    {si : Option (Frac × Frac)} :
    ∀ (fuel : Nat) (st : RunSt), EvOk st.maxProg st.events →
      ∀ stF, runLoop o fm sym total target toRemove si fuel st = .out stF →
        EvOk stF.maxProg stF.events := by
  intro fuel
  induction fuel with
  | zero =>
    intro st hev stF hF
    simp only [runLoop] at hF
    cases hF
  | succ n ih =>
    intro st hev stF hF
    simp only [runLoop] at hF
    rcases hstep : runStep o fm sym total target toRemove si st with _ | out
    · rw [hstep] at hF
      simp only [] at hF
      cases hF
    rw [hstep] at hF
    rcases out with st' | st'
    · simp only [] at hF
      injection hF with h2
      subst h2
      exact runStep_ev hev _ hstep st' (Or.inl rfl)
    · simp only [] at hF
      exact ih st' (runStep_ev hev _ hstep st' (Or.inr rfl)) stF hF

/-- The returned callback stream of the main loop is a sound stream. -/
theorem runMain_ev {o : Orac} {fm sym : Bool} {total target : Nat}
    {si : Option (Frac × Frac)} {s0 : Structure} :
    ∀ sF hist ev, runMain o fm sym total target si s0 = .ok (sF, hist, ev) →
      List.Chain' (fun e1 e2 => e1.1.toRat ≤ e2.1.toRat) ev := by
  intro sF hist ev h
  simp only [runMain] at h
  rcases hloop : runLoop o fm sym total target (total - target) si
      (runMeasure (runSt0 total target s0) + 1) (runSt0 total target s0) with _ | stF | _
  · rw [hloop] at h
    simp only [] at h
    cases h
  · rw [hloop] at h
    simp only [] at h
    have hex : EvOk stF.maxProg stF.events :=
      runLoop_ev _ _ (EvOk_init total target) stF hloop
    rcases hsn : stF.snap with _ | sn
    · rw [hsn] at h
      simp only [] at h
      injection h with h1
      injection h1 with h2 h3
      injection h3 with h4 h5
      subst h5
      exact hex.2.2
    · rw [hsn] at h
      simp only [] at h
      rcases hps : solveStructure o.sp stF.s with _ | ⟨uR, s2⟩
      · rw [hps] at h
        simp only [] at h
        cases h
      rw [hps] at h
      rcases uR with _ | uvec
      · simp only [] at h
        injection h with h1
        injection h1 with h2 h3
        injection h3 with h4 h5
        subst h5
        exact hex.2.2
      · simp only [] at h
        injection h with h1
        injection h1 with h2 h3
        injection h3 with h4 h5
        subst h5
        exact hex.2.2
  · rw [hloop] at h
    simp only [] at h
    cases h

/-- C9 (theorem): for every run of the optimizer, the sequence of
progress fractions passed to the callback is non-decreasing over the
whole run — each emitted fraction is the running maximum of the raw
progress, so the clamp holds even across rollback iterations that
temporarily raise the active node count. -/
theorem run_progress_monotone (o : Orac) (s : Structure) (mf : Frac)
    (srl : Option Frac) (fm sym : Bool) :
    ∀ sF hist ev, run o s mf srl fm sym = .ok (sF, hist, ev) →
      List.Chain' (fun e1 e2 => e1.1.toRat ≤ e2.1.toRat) ev := by
  intro sF hist ev h
  simp only [run] at h
  by_cases hb : ¬ (Frac.zero.blt mf = true ∧ mf.blt Frac.one = true)
  · rw [if_pos hb] at h
    cases h
  rw [if_neg hb] at h
  rcases srl with _ | limit
  · simp only [] at h
    exact runMain_ev _ _ _ h
  · simp only [] at h
    rcases hps : solveStructure o.sp s with _ | ⟨uR, s2⟩
    · rw [hps] at h
      simp only [] at h
      cases h
    rw [hps] at h
    rcases uR with _ | uvec
    · simp only [] at h
      exact runMain_ev _ _ _ h
    · simp only [] at h
      by_cases hre : (computeSpringStresses o s2 uvec).isEmpty = true
      · rw [if_pos hre] at h
        simp only [] at h
        exact runMain_ev _ _ _ h
      · rw [if_neg hre] at h
        simp only [] at h
        exact runMain_ev _ _ _ h

/-- C9 (witness): the stream of the 2×2 demo run. -/
theorem run_progress_monotone_witness :
    ∃ sF hist ev, run oAll fix22 ⟨1, 2⟩ none false false = .ok (sF, hist, ev) ∧
      List.Chain' (fun e1 e2 => e1.1.toRat ≤ e2.1.toRat) ev := by
  have hne : (match run oAll fix22 ⟨1, 2⟩ none false false with
      | .raises => false
      | .ok _ => true) = true := by decide
  rcases hr : run oAll fix22 ⟨1, 2⟩ none false false with _ | ⟨S, H, E⟩
  · rw [hr] at hne
    simp only [] at hne
    cases hne
  · exact ⟨S, H, E, rfl, run_progress_monotone oAll fix22 ⟨1, 2⟩ none false false S H E hr⟩

/-! ### Reachability theory for the breadth-first closure -/

/-- The adjacency relation of an edge list, as a proposition. -/
def adjRel (edges : List (Nat × Nat)) (u v : Nat) : Prop := adjacent edges u v = true

theorem adjRel_symm {edges : List (Nat × Nat)} {u v : Nat} (h : adjRel edges u v) :
    adjRel edges v u := by
  unfold adjRel adjacent at h ⊢
  rcases List.any_eq_true.mp h with ⟨e, he, hcond⟩
  refine List.any_eq_true.mpr ⟨e, he, ?_⟩
  simp only [decide_eq_true_eq] at hcond ⊢
  tauto

/-- The breadth-first iteration underlying `reachFrom`. -/
def iterSet (edges : List (Nat × Nat)) (verts : List Nat) (r : Nat) : Nat → List Nat
  | 0 => [r]
  | n + 1 => stepSet edges verts (iterSet edges verts r n)

theorem reachFrom_eq_iter (edges : List (Nat × Nat)) (verts : List Nat) (r : Nat) :
    reachFrom edges verts r = iterSet edges verts r verts.length := by
  unfold reachFrom
  induction verts.length with
  | zero => rfl
  | succ n ih =>
    simp only [iterSet]
    rw [ih]

theorem mem_stepSet {edges : List (Nat × Nat)} {verts S : List Nat} {x : Nat} :
    x ∈ stepSet edges verts S ↔
      x ∈ S ∨ (x ∈ verts ∧ ¬ x ∈ S ∧ ∃ u ∈ S, adjacent edges u x = true) := by
  unfold stepSet
  simp only [List.mem_append, List.mem_filter, decide_eq_true_eq, List.any_eq_true]

theorem subset_stepSet {edges : List (Nat × Nat)} {verts S : List Nat} {x : Nat}
    (h : x ∈ S) : x ∈ stepSet edges verts S :=
  mem_stepSet.mpr (Or.inl h)

theorem r_mem_iterSet (edges : List (Nat × Nat)) (verts : List Nat) (r : Nat) :
    ∀ n, r ∈ iterSet edges verts r n := by
  intro n
  induction n with
  | zero => simp [iterSet]
  | succ n ih => exact subset_stepSet ih

theorem iterSet_subset_cons {edges : List (Nat × Nat)} {verts : List Nat} {r : Nat} :
    ∀ n, ∀ x ∈ iterSet edges verts r n, x ∈ r :: verts := by
  intro n
  induction n with
  | zero =>
    intro x hx
    rw [show iterSet edges verts r 0 = [r] from rfl, List.mem_singleton] at hx
    simp [hx]
  | succ n ih =>
    intro x hx
    rcases mem_stepSet.mp hx with hx1 | ⟨hxv, _, _⟩
    · exact ih x hx1
    · exact List.mem_cons_of_mem _ hxv

theorem nodup_iterSet {edges : List (Nat × Nat)} {verts : List Nat} {r : Nat}
    (hV : verts.Nodup) : ∀ n, (iterSet edges verts r n).Nodup := by
  intro n
  induction n with
  | zero => simp [iterSet]
  | succ n ih =>
    show (iterSet edges verts r n ++ _).Nodup
    rw [List.nodup_append]
    refine ⟨ih, List.Nodup.filter _ hV, ?_⟩
    intro a ha hb
    have := List.of_mem_filter hb
    simp only [decide_eq_true_eq] at this
    exact this.1 ha

theorem iterSet_stable {edges : List (Nat × Nat)} {verts : List Nat} {r : Nat} {n : Nat}
    (h : iterSet edges verts r (n + 1) = iterSet edges verts r n) :
    ∀ m, iterSet edges verts r (n + m) = iterSet edges verts r n := by
  intro m
  induction m with
  | zero => rfl
  | succ m ih =>
    have : n + (m + 1) = (n + m) + 1 := by omega
    rw [this]
    show stepSet edges verts (iterSet edges verts r (n + m)) = _
    rw [ih]
    exact h

theorem append_grow_or_fix {α : Type} (l F : List α) :
    l ++ F = l ∨ l.length + 1 ≤ (l ++ F).length := by
  rcases F with _ | ⟨a, F⟩
  · left
    simp
  · right
    simp only [List.length_append, List.length_cons]
    omega

theorem iterSet_grow_or_fix (edges : List (Nat × Nat)) (verts : List Nat) (r : Nat)
    (n : Nat) :
    iterSet edges verts r (n + 1) = iterSet edges verts r n ∨
      (iterSet edges verts r n).length + 1 ≤ (iterSet edges verts r (n + 1)).length :=
  append_grow_or_fix _ _

theorem iterSet_length_le {edges : List (Nat × Nat)} {verts : List Nat} {r : Nat}
    (hV : verts.Nodup) (n : Nat) :
    (iterSet edges verts r n).length ≤ verts.length + 1 := by
  have hsub : iterSet edges verts r n ⊆ r :: verts := fun x hx =>
    iterSet_subset_cons n x hx
  have := (List.Nodup.subperm (nodup_iterSet hV n) hsub).length_le
  simpa using this

/-- The breadth-first closure reaches its fixpoint within
`verts.length` iterations. -/
theorem reachFrom_fix {edges : List (Nat × Nat)} {verts : List Nat} {r : Nat}
    (hV : verts.Nodup) :
    stepSet edges verts (reachFrom edges verts r) = reachFrom edges verts r := by
  rw [reachFrom_eq_iter]
  have key : ∀ n, iterSet edges verts r (n + 1) = iterSet edges verts r n ∨
      n + 1 ≤ (iterSet edges verts r n).length := by
    intro n
    induction n with
    | zero =>
      right
      simp [iterSet]
    | succ n ih =>
      rcases ih with hstab | hlen
      · left
        rw [show n + 1 + 1 = n + 2 from rfl, iterSet_stable hstab 2]
        exact (iterSet_stable hstab 1).symm
      · rcases iterSet_grow_or_fix edges verts r n with hfix | hgrow
        · left
          rw [show n + 1 + 1 = n + 2 from rfl, iterSet_stable hfix 2]
          exact hfix.symm
        · right
          omega
  rcases key verts.length with hstab | hlen
  · exact hstab
  · have hle := @iterSet_length_le edges verts r hV verts.length
    have hle1 := @iterSet_length_le edges verts r hV (verts.length + 1)
    rcases iterSet_grow_or_fix edges verts r verts.length with hfix | hgrow
    · exact hfix
    · omega

theorem reachFrom_closed {edges : List (Nat × Nat)} {verts : List Nat} {r : Nat}
    (hV : verts.Nodup) {u v : Nat} (hu : u ∈ reachFrom edges verts r) (hv : v ∈ verts)
    (hadj : adjacent edges u v = true) : v ∈ reachFrom edges verts r := by
  have hfix := @reachFrom_fix edges verts r hV
  rw [← hfix]
  exact mem_stepSet.mpr (by by_cases hvS : v ∈ reachFrom edges verts r
                            · exact Or.inl hvS
                            · exact Or.inr ⟨hv, hvS, u, hu, hadj⟩)

theorem iterSet_sound {edges : List (Nat × Nat)} {verts : List Nat} {r : Nat} :
    ∀ (n : Nat) (x : Nat), x ∈ iterSet edges verts r n →
      Relation.ReflTransGen (adjRel edges) r x := by
  intro n
  induction n with
  | zero =>
    intro x h
    rw [show iterSet edges verts r 0 = [r] from rfl, List.mem_singleton] at h
    subst h
    exact Relation.ReflTransGen.refl
  | succ n ih =>
    intro x h
    rcases mem_stepSet.mp h with h1 | ⟨_, _, u, hu, hadj⟩
    · exact ih x h1
    · exact Relation.ReflTransGen.tail (ih u hu) hadj

theorem reachFrom_sound {edges : List (Nat × Nat)} {verts : List Nat} {r : Nat} {x : Nat}
    (h : x ∈ reachFrom edges verts r) : Relation.ReflTransGen (adjRel edges) r x := by
  rw [reachFrom_eq_iter] at h
  exact iterSet_sound _ _ h

theorem reachFrom_complete {edges : List (Nat × Nat)} {verts : List Nat} {r : Nat}
    (hV : verts.Nodup) (hclose : ∀ a b, adjacent edges a b = true → b ∈ verts) :
    ∀ {x : Nat}, Relation.ReflTransGen (adjRel edges) r x →
      x ∈ reachFrom edges verts r := by
  intro x h
  induction h with
  | refl =>
    rw [reachFrom_eq_iter]
    exact r_mem_iterSet edges verts r _
  | tail hu hadj ih =>
    rename_i b c
    exact reachFrom_closed hV ih (hclose b c hadj) hadj

/-- Membership in the breadth-first closure is exactly reachability,
whenever the vertex list has no duplicates and contains every edge
endpoint. -/
theorem reachFrom_iff {edges : List (Nat × Nat)} {verts : List Nat} {r x : Nat}
    (hV : verts.Nodup) (hclose : ∀ a b, adjacent edges a b = true → b ∈ verts) :
    x ∈ reachFrom edges verts r ↔ Relation.ReflTransGen (adjRel edges) r x :=
  ⟨reachFrom_sound, reachFrom_complete hV hclose⟩

theorem rtg_symm {E : List (Nat × Nat)} {u v : Nat}
    (h : Relation.ReflTransGen (adjRel E) u v) : Relation.ReflTransGen (adjRel E) v u :=
  Relation.ReflTransGen.symmetric (fun _ _ hab => adjRel_symm hab) h

/-! ### The structure graph under well-formedness and consistency -/

theorem nodes_map_id {s : Structure} (hwf : WF s) :
    s.nodes.map (·.id) = List.range s.nodes.length := by
  apply list_ext_opt
  intro i
  rw [List.getElem?_map]
  by_cases hi : i < s.nodes.length
  · rcases hx : s.nodes[i]? with _ | n
    · rw [List.getElem?_eq_none_iff] at hx
      omega
    · rw [List.getElem?_range hi]
      have := hwf.1 i n hx
      simp [this]
  · have h1 : s.nodes[i]? = none := List.getElem?_eq_none (by omega)
    have h2 : (List.range s.nodes.length)[i]? = none :=
      List.getElem?_eq_none (by simp; omega)
    rw [h1, h2]
    rfl

/-- A stored node sits at the position given by its id. -/
theorem mem_node_pos {s : Structure} (hwf : WF s) {n : Node} (hn : n ∈ s.nodes) :
    s.nodes[n.id]? = some n := by
  rcases List.mem_iff_getElem?.mp hn with ⟨i, hi⟩
  have hid := hwf.1 i n hi
  rw [hid]
  exact hi

theorem mem_activeIds {s : Structure} (hwf : WF s) {j : Nat} :
    j ∈ activeIds s ↔ activeAt s j = true := by
  unfold activeIds activeAt activeInList
  constructor
  · intro h
    rcases List.mem_map.mp h with ⟨n, hn, hid⟩
    have hn2 := List.mem_filter.mp hn
    have hpos := mem_node_pos hwf hn2.1
    rw [← hid, hpos]
    simpa using hn2.2
  · intro h
    rcases hx : s.nodes[j]? with _ | n
    · rw [hx] at h
      cases h
    · rw [hx] at h
      have hid := hwf.1 j n hx
      have hmem : n ∈ s.nodes := List.mem_iff_getElem?.mpr ⟨j, hx⟩
      exact List.mem_map.mpr ⟨n, List.mem_filter.mpr ⟨hmem, by simpa using h⟩, hid⟩

theorem nodup_activeIds {s : Structure} (hwf : WF s) : (activeIds s).Nodup := by
  have hsub : List.Sublist (activeIds s) (s.nodes.map (·.id)) :=
    List.Sublist.map _ (List.filter_sublist _)
  rw [nodes_map_id hwf] at hsub
  exact List.Nodup.sublist hsub (List.nodup_range _)

theorem mem_activeEdges {s : Structure} {e : Nat × Nat} :
    e ∈ activeEdges s ↔ ∃ sp ∈ s.springs, sp.active = true ∧ e = (sp.a, sp.b) := by
  unfold activeEdges
  simp only [List.mem_map, List.mem_filter]
  constructor
  · rintro ⟨sp, ⟨h1, h2⟩, h3⟩
    exact ⟨sp, h1, by simpa using h2, h3.symm⟩
  · rintro ⟨sp, h1, h2, h3⟩
    exact ⟨sp, ⟨h1, by simpa using h2⟩, h3.symm⟩

theorem adjacent_char {s : Structure} {u v : Nat} :
    adjacent (activeEdges s) u v = true ↔
      ∃ sp ∈ s.springs, sp.active = true ∧
        ((sp.a = u ∧ sp.b = v) ∨ (sp.a = v ∧ sp.b = u)) := by
  unfold adjacent
  rw [List.any_eq_true]
  constructor
  · rintro ⟨e, he, hc⟩
    rcases mem_activeEdges.mp he with ⟨sp, hsp, hact, hee⟩
    subst hee
    simp only [decide_eq_true_eq] at hc
    exact ⟨sp, hsp, hact, hc⟩
  · rintro ⟨sp, hsp, hact, hc⟩
    refine ⟨(sp.a, sp.b), mem_activeEdges.mpr ⟨sp, hsp, hact, rfl⟩, ?_⟩
    simp only [decide_eq_true_eq]
    exact hc

theorem adj_endpoint_verts {s : Structure} :
    ∀ a b, adjacent (activeEdges s) a b = true → b ∈ graphVerts s := by
  intro a b h
  rcases adjacent_char.mp h with ⟨sp, hsp, hact, hc⟩
  unfold graphVerts
  rw [List.mem_dedup]
  apply List.mem_append.mpr
  right
  rw [List.mem_flatMap]
  refine ⟨(sp.a, sp.b), mem_activeEdges.mpr ⟨sp, hsp, hact, rfl⟩, ?_⟩
  rcases hc with ⟨h1, h2⟩ | ⟨h1, h2⟩
  · simp [h2]
  · simp [h1]

theorem nodup_graphVerts (s : Structure) : (graphVerts s).Nodup := List.nodup_dedup _

theorem mem_graphVerts {s : Structure} (hwf : WF s) (hsc : SC s) {j : Nat} :
    j ∈ graphVerts s ↔ activeAt s j = true := by
  unfold graphVerts
  rw [List.mem_dedup, List.mem_append]
  constructor
  · intro h
    rcases h with h | h
    · exact (mem_activeIds hwf).mp h
    · rcases List.mem_flatMap.mp h with ⟨e, he, hj⟩
      rcases mem_activeEdges.mp he with ⟨sp, hsp, hact, hee⟩
      subst hee
      have hcons := hsc sp hsp
      rw [hact] at hcons
      have hab := (Bool.and_eq_true _ _).mp hcons.symm
      simp only [List.mem_cons, List.mem_singleton, List.not_mem_nil, or_false] at hj
      rcases hj with hj | hj
      · rw [hj]
        exact hab.1
      · rw [hj]
        exact hab.2
  · intro h
    exact Or.inl ((mem_activeIds hwf).mpr h)

/-- `is_connected` says exactly: any two active nodes are joined by a
path of active springs. -/
theorem isConnected_spec {s : Structure} (hwf : WF s) (hsc : SC s) :
    isConnected s = true ↔
      ∀ u v, activeAt s u = true → activeAt s v = true →
        Relation.ReflTransGen (adjRel (activeEdges s)) u v := by
  unfold isConnected
  by_cases hle : (activeIds s).length ≤ 1
  · rw [if_pos hle]
    simp only [true_iff]
    intro u v hu hv
    have hu' := (mem_activeIds hwf).mpr hu
    have hv' := (mem_activeIds hwf).mpr hv
    have huv : u = v := by
      rcases hl : activeIds s with _ | ⟨a, rest⟩
      · rw [hl] at hu'
        cases hu'
      · rcases rest with _ | ⟨b, r2⟩
        · rw [hl] at hu' hv'
          simp only [List.mem_singleton] at hu' hv'
          rw [hu', hv']
        · rw [hl] at hle
          simp at hle
    rw [huv]
  · rw [if_neg hle]
    rcases hgv : graphVerts s with _ | ⟨r0, rest⟩
    · exfalso
      rcases hl : activeIds s with _ | ⟨a, rest2⟩
      · rw [hl] at hle
        simp at hle
      · have ha : a ∈ activeIds s := by
          rw [hl]
          simp
        have := (mem_graphVerts hwf hsc).mpr ((mem_activeIds hwf).mp ha)
        rw [hgv] at this
        cases this
    · rw [List.all_eq_true]
      constructor
      · intro hall u v hu hv2
        have hu' : u ∈ graphVerts s := (mem_graphVerts hwf hsc).mpr hu
        have hv' : v ∈ graphVerts s := (mem_graphVerts hwf hsc).mpr hv2
        rw [hgv] at hu' hv'
        have h1 := hall u hu'
        have h2 := hall v hv'
        simp only [decide_eq_true_eq] at h1 h2
        exact Relation.ReflTransGen.trans (rtg_symm (reachFrom_sound h1))
          (reachFrom_sound h2)
      · intro hrel x hx
        have hr0 : r0 ∈ graphVerts s := by
          rw [hgv]
          simp
        have hr0a : activeAt s r0 = true := (mem_graphVerts hwf hsc).mp hr0
        have hxa : activeAt s x = true := (mem_graphVerts hwf hsc).mp (by
          rw [hgv]
          exact hx)
        have hreach := hrel r0 x hr0a hxa
        have hnd : (r0 :: rest).Nodup := by
          rw [← hgv]
          exact nodup_graphVerts s
        have hcl : ∀ a b, adjacent (activeEdges s) a b = true → b ∈ r0 :: rest := by
          intro a b hab
          rw [← hgv]
          exact adj_endpoint_verts a b hab
        have := reachFrom_complete hnd hcl hreach
        simpa using this

/-! ### Graph effect of removing one node -/

theorem mem_activeEdges_removeNode {s : Structure} {nid : Nat} {e : Nat × Nat} :
    e ∈ activeEdges (removeNode s nid) ↔
      ∃ sp ∈ s.springs, sp.active = true ∧ ¬ (sp.a = nid ∨ sp.b = nid) ∧
        e = (sp.a, sp.b) := by
  rw [mem_activeEdges]
  constructor
  · rintro ⟨sp', hsp', hact', he⟩
    rw [removeNode_springs] at hsp'
    rcases List.mem_map.mp hsp' with ⟨sp, hsp, hg⟩
    by_cases hc : sp.a = nid ∨ sp.b = nid
    · rw [if_pos hc] at hg
      rw [← hg] at hact'
      simp at hact'
    · rw [if_neg hc] at hg
      subst hg
      exact ⟨sp, hsp, hact', hc, he⟩
  · rintro ⟨sp, hsp, hact, hninc, he⟩
    refine ⟨sp, ?_, hact, he⟩
    rw [removeNode_springs]
    refine List.mem_map.mpr ⟨sp, hsp, ?_⟩
    rw [if_neg hninc]

theorem adjacent_removeNode {s : Structure} {nid u v : Nat} :
    adjacent (activeEdges (removeNode s nid)) u v = true ↔
      ∃ sp ∈ s.springs, sp.active = true ∧ ¬ (sp.a = nid ∨ sp.b = nid) ∧
        ((sp.a = u ∧ sp.b = v) ∨ (sp.a = v ∧ sp.b = u)) := by
  unfold adjacent
  rw [List.any_eq_true]
  constructor
  · rintro ⟨e, he, hc⟩
    rcases mem_activeEdges_removeNode.mp he with ⟨sp, hsp, hact, hninc, hee⟩
    subst hee
    simp only [decide_eq_true_eq] at hc
    exact ⟨sp, hsp, hact, hninc, hc⟩
  · rintro ⟨sp, hsp, hact, hninc, hc⟩
    refine ⟨(sp.a, sp.b), mem_activeEdges_removeNode.mpr ⟨sp, hsp, hact, hninc, rfl⟩, ?_⟩
    simp only [decide_eq_true_eq]
    exact hc

/-- Adjacency away from the removed node survives the removal. -/
theorem adjRel_removeNode_of {s : Structure} {nid u v : Nat} (hu : ¬ u = nid)
    (hv : ¬ v = nid) (h : adjRel (activeEdges s) u v) :
    adjRel (activeEdges (removeNode s nid)) u v := by
  rcases adjacent_char.mp h with ⟨sp, hsp, hact, hc⟩
  refine adjacent_removeNode.mpr ⟨sp, hsp, hact, ?_, hc⟩
  rintro (ha | hb) <;> rcases hc with ⟨h1, h2⟩ | ⟨h1, h2⟩ <;> simp_all

theorem countP_le_one_unique {α : Type} {l : List α} {p : α → Bool}
    (h : l.countP p ≤ 1) : ∀ a ∈ l, ∀ b ∈ l, p a = true → p b = true → a = b := by
  induction l with
  | nil =>
    intro a ha
    cases ha
  | cons x t ih =>
    intro a ha b hb hpa hpb
    rw [List.countP_cons] at h
    by_cases hx : p x = true
    · have h2 : t.countP p + 1 ≤ 1 := by simpa [hx] using h
      have hz : t.countP p = 0 := by omega
      have hnone : ∀ c ∈ t, ¬ p c = true := by
        intro c hc hpc
        have := List.countP_pos.mpr ⟨c, hc, hpc⟩
        omega
      rcases List.mem_cons.mp ha with rfl | ha2
      · rcases List.mem_cons.mp hb with rfl | hb2
        · rfl
        · exact absurd hpb (hnone b hb2)
      · exact absurd hpa (hnone a ha2)
    · have hxf : p x = false := by
        rcases hx2 : p x with _ | _
        · rfl
        · exact absurd hx2 hx
      rw [hxf] at h
      simp only [Bool.false_eq_true, if_false] at h
      rcases List.mem_cons.mp ha with rfl | ha2
      · rw [hpa] at hxf
        cases hxf
      · rcases List.mem_cons.mp hb with rfl | hb2
        · rw [hpb] at hxf
          cases hxf
        · exact ih (by omega) a ha2 b hb2 hpa hpb

theorem countP_or_le {α : Type} {l : List α} {q p1 p2 : α → Bool}
    (himp : ∀ x, q x = true → p1 x = true ∨ p2 x = true) :
    l.countP q ≤ l.countP p1 + l.countP p2 := by
  induction l with
  | nil => simp
  | cons x t ih =>
    simp only [List.countP_cons]
    by_cases hq : q x = true
    · rcases himp x hq with h1 | h2
      · simp only [hq, if_pos rfl, h1]
        omega
      · simp only [hq, if_pos rfl, h2]
        omega
    · have hqf : q x = false := by
        rcases hq2 : q x with _ | _
        · rfl
        · exact absurd hq2 hq
      simp only [hqf, Bool.false_eq_true, if_false]
      have : (if p1 x = true then 1 else 0) + (if p2 x = true then 1 else 0) ≥ 0 := by omega
      split <;> split <;> omega

/-- A node of active degree one has a unique incident active edge,
towards a distinct mirror endpoint. -/
theorem degree_one_mirror {s : Structure} {nid : Nat}
    (hdeg1 : activeDegree s nid = 1) :
    ∃ m, ¬ m = nid ∧
      ∀ e ∈ activeEdges s, (e.1 = nid ∨ e.2 = nid) → e = (nid, m) ∨ e = (m, nid) := by
  unfold activeDegree at hdeg1
  have hex : ∃ sp ∈ s.springs, sp.active = true ∧ (sp.a = nid ∨ sp.b = nid) := by
    by_cases h1 : s.springs.countP (fun sp => sp.active ∧ sp.a = nid) = 0
    · have h2 : 0 < s.springs.countP (fun sp => sp.active ∧ sp.b = nid) := by omega
      rcases List.countP_pos.mp h2 with ⟨sp, hsp, hp⟩
      simp only [decide_eq_true_eq] at hp
      exact ⟨sp, hsp, hp.1, Or.inr hp.2⟩
    · have h2 : 0 < s.springs.countP (fun sp => sp.active ∧ sp.a = nid) := by omega
      rcases List.countP_pos.mp h2 with ⟨sp, hsp, hp⟩
      simp only [decide_eq_true_eq] at hp
      exact ⟨sp, hsp, hp.1, Or.inl hp.2⟩
  obtain ⟨sp0, hsp0, hact0, hinc0⟩ := hex
  have hnoself : ¬ (sp0.a = nid ∧ sp0.b = nid) := by
    rintro ⟨ha, hb⟩
    have h1 : 0 < s.springs.countP (fun sp => sp.active ∧ sp.a = nid) :=
      List.countP_pos.mpr ⟨sp0, hsp0, by simp [hact0, ha]⟩
    have h2 : 0 < s.springs.countP (fun sp => sp.active ∧ sp.b = nid) :=
      List.countP_pos.mpr ⟨sp0, hsp0, by simp [hact0, hb]⟩
    omega
  have huniq : ∀ sp1 ∈ s.springs, ∀ sp2 ∈ s.springs,
      (sp1.active = true ∧ (sp1.a = nid ∨ sp1.b = nid)) →
      (sp2.active = true ∧ (sp2.a = nid ∨ sp2.b = nid)) → sp1 = sp2 := by
    have hq : s.springs.countP
        (fun sp => decide (sp.active = true ∧ (sp.a = nid ∨ sp.b = nid))) ≤ 1 := by
      have hle := @countP_or_le Spring s.springs
        (fun sp => decide (sp.active = true ∧ (sp.a = nid ∨ sp.b = nid)))
        (fun sp => sp.active ∧ sp.a = nid)
        (fun sp => sp.active ∧ sp.b = nid)
        (by
          intro sp hsp
          simp only [decide_eq_true_eq] at hsp ⊢
          tauto)
      omega
    intro sp1 h1 sp2 h2 hc1 hc2
    exact countP_le_one_unique hq sp1 h1 sp2 h2 (by simp [hc1.1, hc1.2])
      (by simp [hc2.1, hc2.2])
  refine ⟨if sp0.a = nid then sp0.b else sp0.a, ?_, ?_⟩
  · split
    · rename_i hA
      intro hb
      exact hnoself ⟨hA, hb⟩
    · rename_i hA
      intro ha
      exact hA ha
  · intro e he hincE
    rcases mem_activeEdges.mp he with ⟨sp, hsp, hact, hee⟩
    subst hee
    have hspinc : sp.a = nid ∨ sp.b = nid := hincE
    have heq := huniq sp hsp sp0 hsp0 ⟨hact, hspinc⟩ ⟨hact0, hinc0⟩
    subst heq
    by_cases hA : sp.a = nid
    · left
      rw [if_pos hA, hA]
    · right
      have hB : sp.b = nid := by tauto
      rw [if_neg hA, hB]

/-- Path surgery: any walk between vertices other than a degree-one
node can avoid that node. -/
theorem reach_avoid {E E' : List (Nat × Nat)} {nid m : Nat} (hm : ¬ m = nid)
    (hinc : ∀ e ∈ E, (e.1 = nid ∨ e.2 = nid) → e = (nid, m) ∨ e = (m, nid))
    (hsub : ∀ u v, ¬ u = nid → ¬ v = nid → adjRel E u v → adjRel E' u v) :
    ∀ u w, Relation.ReflTransGen (adjRel E) u w → ¬ u = nid →
      (¬ w = nid → Relation.ReflTransGen (adjRel E') u w) ∧
      (w = nid → Relation.ReflTransGen (adjRel E') u m) := by
  intro u w h hu
  induction h with
  | refl => exact ⟨fun _ => Relation.ReflTransGen.refl, fun hw => absurd hw hu⟩
  | @tail b c hstep hadj ih =>
    constructor
    · intro hw
      by_cases hv : b = nid
      · subst hv
        have hcm : c = m := by
          rcases List.any_eq_true.mp hadj with ⟨e, he, hcnd⟩
          simp only [decide_eq_true_eq] at hcnd
          have hincE : e.1 = b ∨ e.2 = b := by tauto
          rcases hinc e he hincE with he1 | he1 <;> subst he1 <;>
            rcases hcnd with ⟨h1, h2⟩ | ⟨h1, h2⟩ <;> simp_all
        rw [hcm]
        exact ih.2 rfl
      · exact Relation.ReflTransGen.tail (ih.1 hv) (hsub b c hv hw hadj)
    · intro hw
      subst hw
      have hbm : b = m := by
        rcases List.any_eq_true.mp hadj with ⟨e, he, hcnd⟩
        simp only [decide_eq_true_eq] at hcnd
        have hincE : e.1 = c ∨ e.2 = c := by tauto
        rcases hinc e he hincE with he1 | he1 <;> subst he1 <;>
          rcases hcnd with ⟨h1, h2⟩ | ⟨h1, h2⟩ <;> simp_all
      rw [← hbm]
      exact ih.1 (by rw [hbm]; exact hm)

/-- `has_load_paths` says exactly: some active node is supported, and
every active loaded node reaches an active supported node through active
springs. -/
theorem hasLoadPaths_spec {s : Structure} (hwf : WF s) (hsc : SC s) :
    hasLoadPaths s = true ↔
      ((∃ k ∈ s.nodes, k.active = true ∧ (k.fix_x = true ∨ k.fix_y = true)) ∧
       ∀ n ∈ s.nodes, n.active = true → (n.force_x.nz = true ∨ n.force_y.nz = true) →
         ∃ k ∈ s.nodes, k.active = true ∧ (k.fix_x = true ∨ k.fix_y = true) ∧
           Relation.ReflTransGen (adjRel (activeEdges s)) n.id k.id) := by
  have hmemsup : ∀ sid : Nat,
      sid ∈ (s.nodes.filter fun n => n.active ∧ (n.fix_x ∨ n.fix_y)).map (·.id) ↔
      ∃ k ∈ s.nodes, k.active = true ∧ (k.fix_x = true ∨ k.fix_y = true) ∧ k.id = sid := by
    intro sid
    simp only [List.mem_map, List.mem_filter, decide_eq_true_eq]
    constructor
    · rintro ⟨k, ⟨hk, hp⟩, hid⟩
      exact ⟨k, hk, hp.1, hp.2, hid⟩
    · rintro ⟨k, hk, h1, h2, hid⟩
      exact ⟨k, ⟨hk, h1, h2⟩, hid⟩
  have hreach : ∀ j x : Nat, x ∈ reachFrom (activeEdges s) (graphVerts s) j ↔
      Relation.ReflTransGen (adjRel (activeEdges s)) j x := fun j x =>
    reachFrom_iff (nodup_graphVerts s) adj_endpoint_verts
  simp only [hasLoadPaths]
  by_cases hemp :
      ((s.nodes.filter fun n => n.active ∧ (n.fix_x ∨ n.fix_y)).map (·.id)).isEmpty = true
  · rw [if_pos hemp]
    simp only [Bool.false_eq_true, false_iff]
    rintro ⟨⟨k, hk, h1, h2⟩, _⟩
    rw [List.isEmpty_eq_true] at hemp
    have hmem := (hmemsup k.id).mpr ⟨k, hk, h1, h2, rfl⟩
    rw [hemp] at hmem
    cases hmem
  · rw [if_neg hemp]
    rw [List.all_eq_true]
    constructor
    · intro hall
      constructor
      · have hne : ¬ ((s.nodes.filter fun n => n.active ∧ (n.fix_x ∨ n.fix_y)).map (·.id)) = [] := by
          intro hc
          rw [← List.isEmpty_eq_true] at hc
          exact hemp hc
        rcases List.exists_mem_of_ne_nil _ hne with ⟨sid, hsid⟩
        rcases (hmemsup sid).mp hsid with ⟨k, hk, h1, h2, _⟩
        exact ⟨k, hk, h1, h2⟩
      · intro n hn hact hload
        have hthis := hall n hn
        rw [if_pos ⟨hact, hload⟩] at hthis
        rcases List.any_eq_true.mp hthis with ⟨sid, hsid, hr⟩
        simp only [decide_eq_true_eq] at hr
        rcases (hmemsup sid).mp hsid with ⟨k, hk, h1, h2, hid⟩
        refine ⟨k, hk, h1, h2, ?_⟩
        rw [hid]
        exact (hreach n.id sid).mp hr
    · rintro ⟨_, hpath⟩ n hn
      by_cases hcond : n.active = true ∧ (n.force_x.nz = true ∨ n.force_y.nz = true)
      · rw [if_pos hcond]
        rcases hpath n hn hcond.1 hcond.2 with ⟨k, hk, h1, h2, hrtg⟩
        apply List.any_eq_true.mpr
        refine ⟨k.id, (hmemsup k.id).mpr ⟨k, hk, h1, h2, rfl⟩, ?_⟩
        simp only [decide_eq_true_eq]
        exact (hreach n.id k.id).mpr hrtg
      · rw [if_neg hcond]

/-- Removing an inactive node of a spring-consistent structure is a
no-op: the node flag is already down and every incident spring is
already inactive. -/
theorem removeNode_inactive {s : Structure} (hsc : SC s) {nid : Nat}
    (h : activeAt s nid = false) : removeNode s nid = s := by
  have hn : modifyAt (fun n => { n with active := false }) nid s.nodes = s.nodes := by
    apply modifyAt_eq_self
    intro a ha
    have ha2 : a.active = false := by
      unfold activeAt activeInList at h
      rw [ha] at h
      exact h
    cases a
    simp_all
  have hsp : (s.springs.map fun sp =>
      if sp.a = nid ∨ sp.b = nid then { sp with active := false } else sp) = s.springs := by
    have h1 : (s.springs.map fun sp =>
        if sp.a = nid ∨ sp.b = nid then { sp with active := false } else sp) =
        s.springs.map id := by
      apply List.map_congr_left
      intro sp hspm
      by_cases hc : sp.a = nid ∨ sp.b = nid
      · rw [if_pos hc]
        have hcons := hsc sp hspm
        have hf : sp.active = false := by
          rcases hc with hc | hc <;> rw [hc] at hcons <;> rw [hcons, h] <;> simp
        cases sp
        simp_all
      · rw [if_neg hc]
        rfl
    rw [h1, List.map_id]
  unfold removeNode
  rw [hn, hsp]

/-- Any adjacency at a node forces positive active degree there. -/
theorem adj_degree_pos {s : Structure} {nid b : Nat}
    (h : adjRel (activeEdges s) nid b) : 0 < activeDegree s nid := by
  rcases adjacent_char.mp h with ⟨sp, hsp, hact, hc⟩
  unfold activeDegree
  rcases hc with ⟨h1, _⟩ | ⟨_, h2⟩
  · have hpos : 0 < s.springs.countP fun sp => sp.active ∧ sp.a = nid :=
      List.countP_pos.mpr ⟨sp, hsp, by simp [hact, h1]⟩
    omega
  · have hpos : 0 < s.springs.countP fun sp => sp.active ∧ sp.b = nid :=
      List.countP_pos.mpr ⟨sp, hsp, by simp [hact, h2]⟩
    omega

/-- Positive active degree exhibits an incident active spring. -/
theorem degree_pos_incident {s : Structure} {nid : Nat}
    (h : 0 < activeDegree s nid) :
    ∃ sp ∈ s.springs, sp.active = true ∧ (sp.a = nid ∨ sp.b = nid) := by
  unfold activeDegree at h
  by_cases h1 : s.springs.countP (fun sp => sp.active ∧ sp.a = nid) = 0
  · have h2 : 0 < s.springs.countP fun sp => sp.active ∧ sp.b = nid := by omega
    rcases List.countP_pos.mp h2 with ⟨sp, hsp, hp⟩
    simp only [decide_eq_true_eq] at hp
    exact ⟨sp, hsp, hp.1, Or.inr hp.2⟩
  · have h2 : 0 < s.springs.countP fun sp => sp.active ∧ sp.a = nid := by omega
    rcases List.countP_pos.mp h2 with ⟨sp, hsp, hp⟩
    simp only [decide_eq_true_eq] at hp
    exact ⟨sp, hsp, hp.1, Or.inl hp.2⟩

/-- Stored nodes at positions other than the removed one are unchanged. -/
theorem removeNode_node_other {s : Structure} {nid j : Nat} (h : ¬ nid = j) :
    (removeNode s nid).nodes[j]? = s.nodes[j]? := by
  show (modifyAt (fun n => { n with active := false }) nid s.nodes)[j]? = s.nodes[j]?
  rw [modifyAt_getElem?, if_neg h]

/-- Removing a node that is neither fixed nor loaded and has active
degree at most one keeps the structure connected and keeps all load
paths, provided both held before. -/
theorem leaf_removal {s : Structure} {nid : Nat} (hwf : WF s) (hsc : SC s)
    (hff : ffAt s nid = false) (hdeg : activeDegree s nid ≤ 1)
    (hconn : isConnected s = true) (hlp : hasLoadPaths s = true) :
    isConnected (removeNode s nid) = true ∧ hasLoadPaths (removeNode s nid) = true := by
  rcases hact : activeAt s nid with _ | _
  · rw [removeNode_inactive hsc hact]
    exact ⟨hconn, hlp⟩
  have hwf' : WF (removeNode s nid) := WF_of_skelEq (skelEq_removeNode s nid) hwf
  have hsc' : SC (removeNode s nid) := SC_removeNode hsc nid
  obtain ⟨⟨k0, hk0, hk0a, hk0f⟩, hpaths⟩ := (hasLoadPaths_spec hwf hsc).mp hlp
  have hfix_ne : ∀ k : Node, k ∈ s.nodes →
      (k.fix_x = true ∨ k.fix_y = true) → ¬ k.id = nid := by
    intro k hk hkf he
    have hpos := mem_node_pos hwf hk
    rw [he] at hpos
    have hff2 : ffAt s nid = false := hff
    unfold ffAt at hff2
    rw [hpos] at hff2
    simp only [] at hff2
    rcases hkf with hx | hx <;> rw [hx] at hff2 <;> simp at hff2
  have hconn2 := (isConnected_spec hwf hsc).mp hconn
  have hk0ne : ¬ k0.id = nid := hfix_ne k0 hk0 hk0f
  have hk0act : activeAt s k0.id = true := by
    have hpos := mem_node_pos hwf hk0
    unfold activeAt activeInList
    rw [hpos]
    exact hk0a
  have hdeg1 : activeDegree s nid = 1 := by
    rcases Nat.lt_or_ge 0 (activeDegree s nid) with hp | hz
    · omega
    · exfalso
      have hrtg := hconn2 nid k0.id hact hk0act
      rcases Relation.ReflTransGen.cases_head hrtg with heq | ⟨b, hstep, _⟩
      · exact hk0ne heq.symm
      · have := adj_degree_pos hstep
        omega
  obtain ⟨m, hm, hinc⟩ := degree_one_mirror hdeg1
  obtain ⟨sp0, hsp0, hact0, hinc0⟩ :=
    @degree_pos_incident s nid (by rw [hdeg1]; exact Nat.one_pos)
  have hmact : activeAt s m = true := by
    have he0 : (sp0.a, sp0.b) ∈ activeEdges s := mem_activeEdges.mpr ⟨sp0, hsp0, hact0, rfl⟩
    have hcons := hsc sp0 hsp0
    rw [hact0] at hcons
    have hab := (Bool.and_eq_true _ _).mp hcons.symm
    rcases hinc (sp0.a, sp0.b) he0 hinc0 with he | he
    · have h2 := congrArg Prod.snd he
      simp only [] at h2
      rw [← h2]
      exact hab.2
    · have h2 := congrArg Prod.fst he
      simp only [] at h2
      rw [← h2]
      exact hab.1
  have hsub : ∀ u v, ¬ u = nid → ¬ v = nid →
      adjRel (activeEdges s) u v → adjRel (activeEdges (removeNode s nid)) u v :=
    fun _ _ hu hv h => adjRel_removeNode_of hu hv h
  have havoid := reach_avoid hm hinc hsub
  have hactR : ∀ j, activeAt (removeNode s nid) j = true →
      activeAt s j = true ∧ ¬ j = nid := by
    intro j hj
    rw [activeAt_removeNode] at hj
    by_cases hje : j = nid
    · rw [if_pos hje] at hj
      cases hj
    · rw [if_neg hje] at hj
      exact ⟨hj, hje⟩
  constructor
  · rw [isConnected_spec hwf' hsc']
    intro u v hu hv
    obtain ⟨hu1, hu2⟩ := hactR u hu
    obtain ⟨hv1, hv2⟩ := hactR v hv
    exact (havoid u v (hconn2 u v hu1 hv1) hu2).1 hv2
  · rw [hasLoadPaths_spec hwf' hsc']
    constructor
    · refine ⟨k0, ?_, hk0a, hk0f⟩
      apply List.mem_iff_getElem?.mpr
      refine ⟨k0.id, ?_⟩
      rw [removeNode_node_other fun hc => hk0ne hc.symm]
      exact mem_node_pos hwf hk0
    · intro n hn hnact hnload
      rcases List.mem_iff_getElem?.mp hn with ⟨i, hi⟩
      have hi2 : (modifyAt (fun n => { n with active := false }) nid s.nodes)[i]? = some n := hi
      rw [modifyAt_getElem?] at hi2
      by_cases hni : nid = i
      · exfalso
        rw [if_pos hni] at hi2
        rcases hx : s.nodes[i]? with _ | n0
        · rw [hx] at hi2
          cases hi2
        · rw [hx] at hi2
          have hi3 : some { n0 with active := false } = some n := hi2
          injection hi3 with hi4
          have hf := congrArg Node.active hi4
          simp only [] at hf
          rw [hnact] at hf
          cases hf
      · rw [if_neg hni] at hi2
        have hnmem : n ∈ s.nodes := List.mem_iff_getElem?.mpr ⟨i, hi2⟩
        have hnid : n.id = i := hwf.1 i n hi2
        have hnne : ¬ n.id = nid := by
          rw [hnid]
          intro hc
          exact hni hc.symm
        rcases hpaths n hnmem hnact hnload with ⟨k, hk, hka, hkf, hrtg⟩
        have hkne : ¬ k.id = nid := hfix_ne k hk hkf
        refine ⟨k, ?_, hka, hkf, ?_⟩
        · apply List.mem_iff_getElem?.mpr
          refine ⟨k.id, ?_⟩
          rw [removeNode_node_other fun hc => hkne hc.symm]
          exact mem_node_pos hwf hk
        · exact (havoid n.id k.id hrtg hnne).1 hkne

/-! ### Connectivity preservation through the optimizer (normal mode) -/

theorem countP_le_pointwise {α : Type} {l1 l2 : List α} {p q : α → Bool}
    (hlen : l1.length = l2.length)
    (h : ∀ (i : Nat) (a b : α), l1[i]? = some a → l2[i]? = some b →
      p a = true → q b = true) :
    l1.countP p ≤ l2.countP q := by
  induction l1 generalizing l2 with
  | nil => simp
  | cons x t ih =>
    rcases l2 with _ | ⟨y, t2⟩
    · simp at hlen
    · simp only [List.countP_cons]
      have htail : t.countP p ≤ t2.countP q := by
        apply ih (by simpa using hlen)
        intro i a b ha hb hpa
        exact h (i + 1) a b (by simpa using ha) (by simpa using hb) hpa
      by_cases hx : p x = true
      · have hy : q y = true := h 0 x y (by simp) (by simp) hx
        simp only [hx, hy, if_pos rfl]
        omega
      · have hxf : p x = false := by
          rcases h2 : p x with _ | _
          · rfl
          · exact absurd h2 hx
        simp only [hxf, Bool.false_eq_true, if_false]
        split <;> omega

/-- Across the frame-type relations of the optimizer, a node's active
degree only ever drops. -/
theorem activeDegree_le {s t : Structure} (hskel : skelEq s t) (hscs : SC s) (hsct : SC t)
    (hmono : ∀ j, activeAt t j = true → activeAt s j = true) (nid : Nat) :
    activeDegree t nid ≤ activeDegree s nid := by
  have hlen : t.springs.length = s.springs.length := (skelEq_springs_length hskel).symm
  have hkey : ∀ (i : Nat) (sp sp' : Spring), t.springs[i]? = some sp →
      s.springs[i]? = some sp' → sp.active = true →
      sp'.active = true ∧ sp'.a = sp.a ∧ sp'.b = sp.b := by
    intro i sp sp' ht hs hact
    have hstr := skelEq_spring_strip hskel i
    rw [ht, hs] at hstr
    have hstr2 : stripS sp' = stripS sp := Option.some.inj hstr
    have ha' := congrArg Spring.a hstr2
    have hb' := congrArg Spring.b hstr2
    have ha : sp'.a = sp.a := ha'
    have hb : sp'.b = sp.b := hb'
    have hmem : sp ∈ t.springs := List.mem_iff_getElem?.mpr ⟨i, ht⟩
    have hmem' : sp' ∈ s.springs := List.mem_iff_getElem?.mpr ⟨i, hs⟩
    have hct := hsct sp hmem
    rw [hact] at hct
    have hab := (Bool.and_eq_true _ _).mp hct.symm
    have hcs := hscs sp' hmem'
    rw [hcs, ha, hb, hmono sp.a hab.1, hmono sp.b hab.2]
    exact ⟨rfl, rfl, rfl⟩
  unfold activeDegree
  have h1 : (t.springs.countP fun sp => sp.active ∧ sp.a = nid) ≤
      s.springs.countP fun sp => sp.active ∧ sp.a = nid := by
    apply countP_le_pointwise hlen
    intro i a b ha hb hpa
    simp only [decide_eq_true_eq] at hpa ⊢
    obtain ⟨hact, hc, _⟩ := hkey i a b ha hb hpa.1
    exact ⟨hact, by rw [hc]; exact hpa.2⟩
  have h2 : (t.springs.countP fun sp => sp.active ∧ sp.b = nid) ≤
      s.springs.countP fun sp => sp.active ∧ sp.b = nid := by
    apply countP_le_pointwise hlen
    intro i a b ha hb hpa
    simp only [decide_eq_true_eq] at hpa ⊢
    obtain ⟨hact, _, hc⟩ := hkey i a b ha hb hpa.1
    exact ⟨hact, by rw [hc]; exact hpa.2⟩
  omega

/-- The speculative state built inside `can_remove_node` coincides with
`remove_node` of the entry state: the two differ only in springs that
are incident but already inactive, which both leave inactive. -/
theorem canRemoveNode_spec_state (s : Structure) (nid : Nat) :
    ({ s with
        nodes := modifyAt (fun n => { n with active := false }) nid s.nodes
        springs := s.springs.map fun sp =>
          if sp.active ∧ (sp.a = nid ∨ sp.b = nid) then { sp with active := false } else sp }
      : Structure) = removeNode s nid := by
  unfold removeNode
  have hmap : (s.springs.map fun sp =>
      if sp.active ∧ (sp.a = nid ∨ sp.b = nid) then { sp with active := false } else sp) =
      s.springs.map fun sp =>
        if sp.a = nid ∨ sp.b = nid then { sp with active := false } else sp := by
    apply List.map_congr_left
    intro sp _
    by_cases hinc : sp.a = nid ∨ sp.b = nid
    · rcases ha : sp.active with _ | _
      · rw [if_neg (by simp), if_pos hinc]
        cases sp
        simp_all
      · rw [if_pos ⟨rfl, hinc⟩, if_pos hinc]
    · rw [if_neg (by tauto), if_neg hinc]
  rw [hmap]

/-- A true `can_remove_node` verdict certifies that the hypothetical
removal keeps connectivity and load paths. -/
theorem canRemoveNode_true {s : Structure} {nid : Nat}
    (h : (canRemoveNode s nid).1 = true) :
    isConnected (removeNode s nid) = true ∧ hasLoadPaths (removeNode s nid) = true := by
  by_cases hns : ¬ neighborsStable s nid = true
  · have hF : (canRemoveNode s nid).1 = false := by
      unfold canRemoveNode
      rw [if_pos hns]
    rw [hF] at h
    cases h
  · have h1 : (canRemoveNode s nid).1 =
        (isConnected (removeNode s nid) &&
          (if isConnected (removeNode s nid) then hasLoadPaths (removeNode s nid)
           else false)) := by
      unfold canRemoveNode
      rw [if_neg hns]
      show (isConnected { s with
          nodes := modifyAt (fun n => { n with active := false }) nid s.nodes
          springs := s.springs.map fun sp =>
            if sp.active ∧ (sp.a = nid ∨ sp.b = nid) then { sp with active := false }
            else sp } &&
        (if isConnected { s with
            nodes := modifyAt (fun n => { n with active := false }) nid s.nodes
            springs := s.springs.map fun sp =>
              if sp.active ∧ (sp.a = nid ∨ sp.b = nid) then { sp with active := false }
              else sp }
         then hasLoadPaths { s with
            nodes := modifyAt (fun n => { n with active := false }) nid s.nodes
            springs := s.springs.map fun sp =>
              if sp.active ∧ (sp.a = nid ∨ sp.b = nid) then { sp with active := false }
              else sp }
         else false)) = _
      rw [canRemoveNode_spec_state]
    rw [h1] at h
    have hab := (Bool.and_eq_true _ _).mp h
    have hconn := hab.1
    have hlp := hab.2
    rw [if_pos hconn] at hlp
    exact ⟨hconn, hlp⟩

/-- In normal mode, a positive candidate check certifies connectivity
and load-path preservation of the removal: either the full
`can_remove_node` ran, or the candidate had stale degree at most one
and the removal is a leaf removal. -/
theorem checkCandidate_normal_true {prot : List Nat} {s0 cur : Structure} {nid : Nat}
    (h : (checkCandidate false prot s0 cur nid).1 = true)
    (hwfc : WF cur) (hscc : SC cur) (hff : ffAt cur nid = false)
    (hdegle : activeDegree cur nid ≤ activeDegree s0 nid)
    (hconn : isConnected cur = true) (hlp : hasLoadPaths cur = true) :
    isConnected (removeNode cur nid) = true ∧
      hasLoadPaths (removeNode cur nid) = true := by
  unfold checkCandidate at h
  rw [if_neg Bool.false_ne_true] at h
  by_cases hdeg : activeDegree s0 nid ≤ 1
  · rw [if_pos hdeg] at h
    exact leaf_removal hwfc hscc hff (le_trans hdegle hdeg) hconn hlp
  · rw [if_neg hdeg] at h
    exact canRemoveNode_true h

/-- One step of the `_cleanup_dangling` sweep fold keeps connectivity
and load paths: the only mutation is a leaf removal. -/
theorem cleanupPass_conn_step {s : Structure} (hwf : WF s) (hsc : SC s)
    {acc : Structure × Nat} (i : Nat) (h : CleanRel s acc.1 acc.2)
    (hconn : isConnected acc.1 = true) (hlp : hasLoadPaths acc.1 = true) :
    isConnected (match acc.1.nodes[i]? with
        | none => acc
        | some n =>
          if ¬ n.active then acc
          else if n.fix_x ∨ n.fix_y then acc
          else if n.force_x.nz ∨ n.force_y.nz then acc
          else if activeDegree s n.id ≤ 1 then (removeNode acc.1 n.id, acc.2 + 1)
          else acc).1 = true ∧
      hasLoadPaths (match acc.1.nodes[i]? with
        | none => acc
        | some n =>
          if ¬ n.active then acc
          else if n.fix_x ∨ n.fix_y then acc
          else if n.force_x.nz ∨ n.force_y.nz then acc
          else if activeDegree s n.id ≤ 1 then (removeNode acc.1 n.id, acc.2 + 1)
          else acc).1 = true := by
  rcases hni : acc.1.nodes[i]? with _ | n
  · exact ⟨hconn, hlp⟩
  simp only []
  by_cases h1 : ¬ n.active = true
  · rw [if_pos h1]
    exact ⟨hconn, hlp⟩
  rw [if_neg h1]
  by_cases h2 : n.fix_x = true ∨ n.fix_y = true
  · rw [if_pos h2]
    exact ⟨hconn, hlp⟩
  rw [if_neg h2]
  by_cases h3 : n.force_x.nz = true ∨ n.force_y.nz = true
  · rw [if_pos h3]
    exact ⟨hconn, hlp⟩
  rw [if_neg h3]
  by_cases h4 : activeDegree s n.id ≤ 1
  swap
  · rw [if_neg h4]
    exact ⟨hconn, hlp⟩
  rw [if_pos h4]
  have hid : n.id = i := (WF_of_skelEq h.1 hwf).1 i n hni
  have hffc : ffAt acc.1 n.id = false := by
    unfold ffAt
    rw [hid, hni]
    have e1 : n.fix_x = false := by
      rcases hx : n.fix_x with _ | _
      · rfl
      · exact absurd (Or.inl hx) h2
    have e2 : n.fix_y = false := by
      rcases hx : n.fix_y with _ | _
      · rfl
      · exact absurd (Or.inr hx) h2
    have e3 : n.force_x.nz = false := by
      rcases hx : n.force_x.nz with _ | _
      · rfl
      · exact absurd (Or.inl hx) h3
    have e4 : n.force_y.nz = false := by
      rcases hx : n.force_y.nz with _ | _
      · rfl
      · exact absurd (Or.inr hx) h3
    simp [e1, e2, e3, e4]
  have hdegc : activeDegree acc.1 n.id ≤ activeDegree s n.id :=
    activeDegree_le h.1 hsc h.2.1 h.2.2.1 n.id
  exact leaf_removal (WF_of_skelEq h.1 hwf) h.2.1 hffc (le_trans hdegc h4) hconn hlp

/-- The whole sweep fold of `_cleanup_dangling` keeps connectivity and
load paths. -/
theorem cleanupPass_conn_fold {s : Structure} (hwf : WF s) (hsc : SC s) :
    ∀ (l : List Nat) (acc : Structure × Nat), CleanRel s acc.1 acc.2 →
      isConnected acc.1 = true → hasLoadPaths acc.1 = true →
      isConnected (l.foldl (fun acc i =>
        match acc.1.nodes[i]? with
        | none => acc
        | some n =>
          if ¬ n.active then acc
          else if n.fix_x ∨ n.fix_y then acc
          else if n.force_x.nz ∨ n.force_y.nz then acc
          else if activeDegree s n.id ≤ 1 then (removeNode acc.1 n.id, acc.2 + 1)
          else acc) acc).1 = true ∧
      hasLoadPaths (l.foldl (fun acc i =>
        match acc.1.nodes[i]? with
        | none => acc
        | some n =>
          if ¬ n.active then acc
          else if n.fix_x ∨ n.fix_y then acc
          else if n.force_x.nz ∨ n.force_y.nz then acc
          else if activeDegree s n.id ≤ 1 then (removeNode acc.1 n.id, acc.2 + 1)
          else acc) acc).1 = true := by
  intro l
  induction l with
  | nil =>
    intro acc h hc hl
    exact ⟨hc, hl⟩
  | cons i rest ih =>
    intro acc h hc hl
    simp only [List.foldl_cons]
    have hstep := cleanupPass_step hwf i h
    have hcs := cleanupPass_conn_step hwf hsc i h hc hl
    exact ih _ hstep hcs.1 hcs.2

/-- One sweep of `_cleanup_dangling` keeps connectivity and load paths. -/
theorem cleanupPass_conn {s : Structure} (hwf : WF s) (hsc : SC s)
    (hconn : isConnected s = true) (hlp : hasLoadPaths s = true) :
    isConnected (cleanupPass s).1 = true ∧ hasLoadPaths (cleanupPass s).1 = true := by
  unfold cleanupPass
  exact cleanupPass_conn_fold hwf hsc _ (s, 0) (CleanRel.refl s hsc) hconn hlp

/-- The `while changed` loop of `_cleanup_dangling` keeps connectivity
and load paths. -/
theorem cleanupGo_conn : ∀ (fuel : Nat) (s : Structure) (tot : Nat), WF s → SC s →
    isConnected s = true → hasLoadPaths s = true →
    isConnected (cleanupGo fuel s tot).1 = true ∧
      hasLoadPaths (cleanupGo fuel s tot).1 = true := by
  intro fuel
  induction fuel with
  | zero =>
    intro s tot _ _ hc hl
    simp only [cleanupGo]
    exact ⟨hc, hl⟩
  | succ n ih =>
    intro s tot hwf hsc hc hl
    simp only [cleanupGo]
    by_cases hz : (cleanupPass s).2 = 0
    · rw [if_pos hz]
      exact ⟨hc, hl⟩
    · rw [if_neg hz]
      have hpass := cleanupPass_spec hwf hsc
      have hcp := cleanupPass_conn hwf hsc hc hl
      exact ih (cleanupPass s).1 (tot + (cleanupPass s).2)
        (WF_of_skelEq hpass.1 hwf) hpass.2.1 hcp.1 hcp.2

/-- `_cleanup_dangling` keeps connectivity and load paths. -/
theorem cleanupDangling_conn {s : Structure} (hwf : WF s) (hsc : SC s)
    (hconn : isConnected s = true) (hlp : hasLoadPaths s = true) :
    isConnected (cleanupDangling s).1 = true ∧
      hasLoadPaths (cleanupDangling s).1 = true := by
  unfold cleanupDangling
  exact cleanupGo_conn (s.nodes.length + 1) s 0 hwf hsc hconn hlp

/-- The candidate loop of `optimization_batch` in normal mode keeps
connectivity and load paths: every accepted removal is certified by
`can_remove_node` or is a leaf removal, and every rollback restores
the pre-removal state exactly. -/
theorem batchGo_conn (o : Orac) (s0 : Structure) (ps : BatchPs) (prot : List Nat)
    (hfm : ps.fastMode = false) (hwf0 : WF s0) (hsc0 : SC s0) :
    ∀ (cands : List (Nat × Frac)) (st : BatchSt),
      (∀ p ∈ cands, activeAt s0 p.1 = true ∧ ffAt s0 p.1 = false ∧ p.1 < s0.nodes.length) →
      BatchInv s0 st → isConnected st.cur = true → hasLoadPaths st.cur = true →
      ∀ s' r, batchGo o s0 ps prot cands st = .ok (s', r) →
        isConnected s' = true ∧ hasLoadPaths s' = true := by
  intro cands
  induction cands with
  | nil =>
    intro st hc hInv hconn hlp s' r h
    simp only [batchGo] at h
    injection h with h1
    injection h1 with h2 h3
    subst h2
    exact ⟨hconn, hlp⟩
  | cons cand rest ih =>
    obtain ⟨nid, e⟩ := cand
    intro st hc hInv hconn hlp s' r h
    have hcand1 : activeAt s0 nid = true := (hc (nid, e) (List.mem_cons_self _ _)).1
    have hcand2 : ffAt s0 nid = false := (hc (nid, e) (List.mem_cons_self _ _)).2.1
    have hcand3 : nid < s0.nodes.length := (hc (nid, e) (List.mem_cons_self _ _)).2.2
    have hcrest : ∀ p ∈ rest, activeAt s0 p.1 = true ∧ ffAt s0 p.1 = false ∧
        p.1 < s0.nodes.length := fun p hp => hc p (List.mem_cons_of_mem _ hp)
    simp only [batchGo] at h
    by_cases hstop : ps.batchSize ≤ (st.removed : Int)
    · rw [if_pos hstop] at h
      injection h with h1
      injection h1 with h2 h3
      subst h2
      exact ⟨hconn, hlp⟩
    rw [if_neg hstop] at h
    by_cases hproc : nid ∈ st.processed
    · rw [if_pos hproc] at h
      exact ih st hcrest hInv hconn hlp s' r h
    rw [if_neg hproc] at h
    have hactcur : activeAt st.cur nid = true := by
      rw [hInv.nodeRel nid, hcand1]
      simp [hproc]
    have hltc : nid < st.cur.nodes.length := by
      rw [← skelEq_nodes_length hInv.skel]
      exact hcand3
    have hck2 : (checkCandidate ps.fastMode prot s0 st.cur nid).2 = st.cur :=
      checkCandidate_state _ _ _ _ _ hactcur
    rw [hck2] at h
    by_cases hcan : (checkCandidate ps.fastMode prot s0 st.cur nid).1 = true
    swap
    · rw [if_pos hcan] at h
      exact ih st hcrest hInv hconn hlp s' r h
    rw [if_neg (not_not_intro hcan)] at h
    have hffc : ffAt st.cur nid = false := by
      rw [← ffAt_of_skelEq hInv.skel nid]
      exact hcand2
    have hwfc : WF st.cur := WF_of_skelEq hInv.skel hwf0
    have hmono : ∀ j, activeAt st.cur j = true → activeAt s0 j = true := by
      intro j hj
      have hrel := hInv.nodeRel j
      rw [hj] at hrel
      exact (Bool.and_eq_true _ _ |>.mp hrel.symm).1
    have hdegle := activeDegree_le hInv.skel hsc0 hInv.sc hmono nid
    have hcan' : (checkCandidate false prot s0 st.cur nid).1 = true := by
      rw [← hfm]
      exact hcan
    have hrm := checkCandidate_normal_true hcan' hwfc hInv.sc hffc hdegle hconn hlp
    rcases hmir : mirrorCandidate ps.useSymmetry s0.width nid st.processed st.cur with _ | m
    · -- no mirror candidate
      rw [hmir] at h
      simp only [] at h
      by_cases hval : ps.validateFem = true
      swap
      · rw [if_neg hval] at h
        exact ih _ hcrest
          (hInv.step_remove nid hcand1 hcand2 hcand3 hproc st.femAttempts)
          hrm.1 hrm.2 s' r h
      rw [if_pos hval] at h
      rcases hsol : solveStructure o.sp (removeNode st.cur nid) with _ | ⟨u4, cur4⟩
      · rw [hsol] at h
        simp only [] at h
        cases h
      rw [hsol] at h
      have hc4 : cur4 = removeNode st.cur nid := solveStructure_state _ _ u4 cur4 hsol
      subst hc4
      rcases u4 with _ | uvec
      · simp only [] at h
        have hres : restoreNode (removeNode st.cur nid) nid = st.cur :=
          restore_exact hInv.sc nid hltc hactcur
        have herase : (nid :: st.processed).erase nid = st.processed := by simp
        rw [hres, herase] at h
        by_cases hbrk : 0 < ps.maxFemAttempts ∧ ps.maxFemAttempts ≤ st.femAttempts + 1
        · rw [if_pos hbrk] at h
          injection h with h1
          injection h1 with h2 h3
          subst h2
          exact ⟨hconn, hlp⟩
        · rw [if_neg hbrk] at h
          exact ih _ hcrest (hInv.withFa (st.femAttempts + 1)) hconn hlp s' r h
      · simp only [] at h
        exact ih _ hcrest
          (hInv.step_remove nid hcand1 hcand2 hcand3 hproc (st.femAttempts + 1))
          hrm.1 hrm.2 s' r h
    · -- mirror candidate m accepted by the symmetry filter
      rw [hmir] at h
      simp only [] at h
      obtain ⟨hmnid, hmproc, hmact, hmff, hmlt⟩ := mirrorCandidate_some hmir
      have hact0m : activeAt s0 m = true := by
        have hrel := hInv.nodeRel m
        rw [hmact] at hrel
        exact (Bool.and_eq_true _ _ |>.mp hrel.symm).1
      have hff0m : ffAt s0 m = false := by
        rw [ffAt_of_skelEq hInv.skel m]
        exact hmff
      have hlt0m : m < s0.nodes.length := by
        rw [skelEq_nodes_length hInv.skel]
        exact hmlt
      have hactm2 : activeAt (removeNode st.cur nid) m = true := by
        rw [activeAt_removeNode, if_neg hmnid]
        exact hmact
      have hmres2 : (checkCandidate ps.fastMode prot s0 (removeNode st.cur nid) m).2 =
          removeNode st.cur nid :=
        checkCandidate_state _ _ _ _ _ hactm2
      by_cases hmres : (checkCandidate ps.fastMode prot s0 (removeNode st.cur nid) m).1 = true
      · -- mirror also removed
        simp only [if_pos hmres] at h
        simp only [hmres2] at h
        have hmem2 : ¬ m ∈ nid :: st.processed := by
          simp [List.mem_cons, hmnid, hmproc]
        have hInv2 := hInv.step_remove nid hcand1 hcand2 hcand3 hproc 0
        have hffm2 : ffAt (removeNode st.cur nid) m = false := by
          rw [← ffAt_of_skelEq (skelEq_removeNode st.cur nid) m]
          exact hmff
        have hwfc2 : WF (removeNode st.cur nid) := WF_of_skelEq hInv2.skel hwf0
        have hmono2 : ∀ j, activeAt (removeNode st.cur nid) j = true →
            activeAt s0 j = true := by
          intro j hj
          have hrel := hInv2.nodeRel j
          rw [hj] at hrel
          exact (Bool.and_eq_true _ _ |>.mp hrel.symm).1
        have hdegle2 := activeDegree_le hInv2.skel hsc0 hInv2.sc hmono2 m
        have hmres' : (checkCandidate false prot s0 (removeNode st.cur nid) m).1 = true := by
          rw [← hfm]
          exact hmres
        have hrm2 := checkCandidate_normal_true hmres' hwfc2 hInv2.sc hffm2 hdegle2
          hrm.1 hrm.2
        by_cases hval : ps.validateFem = true
        swap
        · rw [if_neg hval] at h
          exact ih _ hcrest
            ((hInv.step_remove nid hcand1 hcand2 hcand3 hproc 0).step_remove m
              hact0m hff0m hlt0m hmem2 st.femAttempts) hrm2.1 hrm2.2 s' r h
        rw [if_pos hval] at h
        rcases hsol : solveStructure o.sp (removeNode (removeNode st.cur nid) m)
          with _ | ⟨u4, cur4⟩
        · rw [hsol] at h
          simp only [] at h
          cases h
        rw [hsol] at h
        have hc4 : cur4 = removeNode (removeNode st.cur nid) m :=
          solveStructure_state _ _ u4 cur4 hsol
        subst hc4
        rcases u4 with _ | uvec
        · simp only [] at h
          have hr1 : restoreNode (removeNode (removeNode st.cur nid) m) nid =
              removeNode st.cur m :=
            restore_after_two hInv.sc nid m hltc hactcur (Ne.symm hmnid)
          have hr2 : restoreNode (removeNode st.cur m) m = st.cur :=
            restore_exact hInv.sc m hmlt hmact
          have he1 : (m :: nid :: st.processed).erase nid = m :: st.processed := by
            simp [List.erase_cons, hmnid]
          rw [hr1, hr2, he1] at h
          have he2 : (m :: st.processed).erase m = st.processed := by
            simp [List.erase_cons]
          rw [he2] at h
          by_cases hbrk : 0 < ps.maxFemAttempts ∧ ps.maxFemAttempts ≤ st.femAttempts + 1
          · rw [if_pos hbrk] at h
            injection h with h1
            injection h1 with h2 h3
            subst h2
            exact ⟨hconn, hlp⟩
          · rw [if_neg hbrk] at h
            exact ih _ hcrest (hInv.withFa (st.femAttempts + 1)) hconn hlp s' r h
        · simp only [] at h
          exact ih _ hcrest
            ((hInv.step_remove nid hcand1 hcand2 hcand3 hproc 0).step_remove m
              hact0m hff0m hlt0m hmem2 (st.femAttempts + 1)) hrm2.1 hrm2.2 s' r h
      · -- mirror rejected by its check: only the primary removal stands
        simp only [if_neg hmres] at h
        simp only [hmres2] at h
        by_cases hval : ps.validateFem = true
        swap
        · rw [if_neg hval] at h
          exact ih _ hcrest
            (hInv.step_remove nid hcand1 hcand2 hcand3 hproc st.femAttempts)
            hrm.1 hrm.2 s' r h
        rw [if_pos hval] at h
        rcases hsol : solveStructure o.sp (removeNode st.cur nid) with _ | ⟨u4, cur4⟩
        · rw [hsol] at h
          simp only [] at h
          cases h
        rw [hsol] at h
        have hc4 : cur4 = removeNode st.cur nid := solveStructure_state _ _ u4 cur4 hsol
        subst hc4
        rcases u4 with _ | uvec
        · simp only [] at h
          have hres : restoreNode (removeNode st.cur nid) nid = st.cur :=
            restore_exact hInv.sc nid hltc hactcur
          have herase : (nid :: st.processed).erase nid = st.processed := by simp
          rw [hres, herase] at h
          by_cases hbrk : 0 < ps.maxFemAttempts ∧ ps.maxFemAttempts ≤ st.femAttempts + 1
          · rw [if_pos hbrk] at h
            injection h with h1
            injection h1 with h2 h3
            subst h2
            exact ⟨hconn, hlp⟩
          · rw [if_neg hbrk] at h
            exact ih _ hcrest (hInv.withFa (st.femAttempts + 1)) hconn hlp s' r h
        · simp only [] at h
          exact ih _ hcrest
            (hInv.step_remove nid hcand1 hcand2 hcand3 hproc (st.femAttempts + 1))
            hrm.1 hrm.2 s' r h

/-- `optimization_batch` in normal mode keeps connectivity and load
paths. -/
theorem optimizationBatch_conn {o : Orac} {s : Structure} {ps : BatchPs}
    (hfm : ps.fastMode = false) (hwf : WF s) (hsc : SC s)
    (hconn : isConnected s = true) (hlp : hasLoadPaths s = true) :
    ∀ s' r, optimizationBatch o s ps = .ok (s', r) →
      isConnected s' = true ∧ hasLoadPaths s' = true := by
  intro s' r h
  simp only [optimizationBatch] at h
  by_cases hne : (computeNodeEnergies o s ps.u).isEmpty = true
  · rw [if_pos hne] at h
    injection h with h1
    injection h1 with h2 h3
    subst h2
    exact ⟨hconn, hlp⟩
  · rw [if_neg hne] at h
    refine batchGo_conn o s ps _ hfm hwf hsc _ _ ?_ ?_ hconn hlp s' r h
    · intro p hp
      obtain ⟨a, b⟩ := p
      exact nodeEnergies_key hwf ((List.perm_insertionSort _ _).mem_iff.mp hp)
    · exact ⟨skelEq_refl s, hsc, fun j => by simp, fun j hj => absurd hj (List.not_mem_nil j),
        List.nodup_nil, rfl, rfl⟩

/-- Connectivity invariant of the `run` main loop in normal mode: the
frame relation, connectivity and load paths of the current state, and
a recorded snapshot state that itself is connected with load paths. -/
structure ConnInv (s0 : Structure) (st : RunSt) : Prop where
  rel : FrameRel s0 st.s
  conn : isConnected st.s = true
  lp : hasLoadPaths st.s = true
  snapOk : ∀ bits snapU, st.snap = some (bits, snapU) →
    ∃ t, FrameRel s0 t ∧ takeSnapshot t = bits ∧
      isConnected t = true ∧ hasLoadPaths t = true

/-- The rollback branch of a `run` iteration keeps the connectivity
invariant in normal mode: the snapshot restore lands exactly on the
recorded connected state, and the recovery batch preserves both
properties. -/
theorem runStepB_conn {o : Orac} {sym : Bool} {total target toRemove : Nat}
    {s0 : Structure} (hwf : WF s0) (hsc : SC s0) {st : RunSt} (hInv : ConnInv s0 st) :
    ∀ out, runStepB o false sym total target toRemove st = .ok out →
      (∀ st', out = .halt st' → ConnInv s0 st') ∧
      (∀ st', out = .cont st' → ConnInv s0 st') := by
  intro out h
  simp only [runStepB] at h
  rcases hsnap : st.snap with _ | ⟨bits, snapU⟩
  · rw [hsnap] at h
    simp only [] at h
    injection h with h1
    refine ⟨?_, ?_⟩
    · intro st' he
      rw [← h1] at he
      injection he with he2
      subst he2
      exact hInv
    · intro st' he
      rw [← h1] at he
      cases he
  · rw [hsnap] at h
    simp only [] at h
    obtain ⟨t, htF, htb, htconn, htlp⟩ := hInv.snapOk bits snapU hsnap
    have hwft : WF t := WF_of_skelEq htF.1 hwf
    have hsct : SC t := htF.2.1
    have hts : skelEq t st.s := skelEq_trans (skelEq_symm htF.1) hInv.rel.1
    have hrest : restoreSnapshot st.s bits = t := by
      rw [← htb]
      exact restore_takeSnapshot hts
    rw [hrest] at h
    rw [if_neg Bool.false_ne_true] at h
    rcases hb : optimizationBatch o t
        { u := snapU, batchSize := 1, validateFem := true, fastMode := false,
          maxFemAttempts := 0, useSymmetry := sym } with _ | ⟨s3, removed⟩
    · rw [hb] at h
      simp only [] at h
      cases h
    rw [hb] at h
    simp only [] at h
    have hcr : CleanRel t s3 removed := optimizationBatch_spec hwft hsct s3 removed hb
    have hF3 : FrameRel s0 s3 := htF.ftrans hcr.frame
    have hc3 := optimizationBatch_conn rfl hwft hsct htconn htlp s3 removed hb
    by_cases hz : removed = 0
    · rw [if_pos hz] at h
      injection h with h1
      refine ⟨?_, ?_⟩
      · intro st' he
        rw [← h1] at he
        injection he with he2
        subst he2
        exact ⟨hF3, hc3.1, hc3.2, fun b u2 he2 => by simp at he2⟩
      · intro st' he
        rw [← h1] at he
        cases he
    · rw [if_neg hz] at h
      injection h with h1
      refine ⟨?_, ?_⟩
      · intro st' he
        rw [← h1] at he
        cases he
      · intro st' he
        rw [← h1] at he
        injection he with he2
        subst he2
        exact ⟨hF3, hc3.1, hc3.2, fun b u2 he2 => by simp at he2⟩

/-- The optimization branch of a `run` iteration keeps the
connectivity invariant in normal mode. -/
theorem runStepA_conn {o : Orac} {sym : Bool} {total target toRemove : Nat} {u : List Frac}
    {s0 : Structure} (hwf : WF s0) (hsc : SC s0) {st : RunSt} (hInv : ConnInv s0 st) :
    ∀ out, runStepA o false sym total target toRemove u st = .ok out →
      (∀ st', out = .halt st' → ConnInv s0 st') ∧
      (∀ st', out = .cont st' → ConnInv s0 st') := by
  intro out h
  have hwfc : WF st.s := WF_of_skelEq hInv.rel.1 hwf
  have hscc : SC st.s := hInv.rel.2.1
  simp only [runStepA] at h
  split at h
  · cases h
  rename_i s3 removed heq
  have hcr : CleanRel st.s s3 removed := optimizationBatch_spec hwfc hscc s3 removed heq
  have hF3 : FrameRel s0 s3 := FrameRel.ftrans hInv.rel hcr.frame
  have hc3 := optimizationBatch_conn rfl hwfc hscc hInv.conn hInv.lp s3 removed heq
  by_cases hz : removed = 0
  · rw [if_pos hz] at h
    by_cases hbrk : 3 ≤ st.failures + 1
    · rw [if_pos hbrk] at h
      injection h with h1
      refine ⟨?_, ?_⟩
      · intro st' he
        rw [← h1] at he
        injection he with he2
        subst he2
        refine ⟨hF3, hc3.1, hc3.2, ?_⟩
        intro b u2 he2
        simp only [] at he2
        injection he2 with hp
        injection hp with hbs hu
        exact ⟨st.s, hInv.rel, hbs, hInv.conn, hInv.lp⟩
      · intro st' he
        rw [← h1] at he
        cases he
    · rw [if_neg hbrk] at h
      injection h with h1
      refine ⟨?_, ?_⟩
      · intro st' he
        rw [← h1] at he
        cases he
      · intro st' he
        rw [← h1] at he
        injection he with he2
        subst he2
        refine ⟨hF3, hc3.1, hc3.2, ?_⟩
        intro b u2 he2
        simp only [] at he2
        injection he2 with hp
        injection hp with hbs hu
        exact ⟨st.s, hInv.rel, hbs, hInv.conn, hInv.lp⟩
  · rw [if_neg hz] at h
    have hwf3 : WF s3 := WF_of_skelEq hF3.1 hwf
    have hsc3 : SC s3 := hF3.2.1
    have hcl : CleanRel s3 (cleanupDangling s3).1 (cleanupDangling s3).2 :=
      cleanupDangling_spec hwf3 hsc3
    have hF4 : FrameRel s0 (cleanupDangling s3).1 := hF3.ftrans hcl.frame
    have hc4 := cleanupDangling_conn hwf3 hsc3 hc3.1 hc3.2
    injection h with h1
    refine ⟨?_, ?_⟩
    · intro st' he
      rw [← h1] at he
      cases he
    · intro st' he
      rw [← h1] at he
      injection he with he2
      subst he2
      refine ⟨hF4, hc4.1, hc4.2, ?_⟩
      intro b u2 he2
      simp only [] at he2
      injection he2 with hp
      injection hp with hbs hu
      exact ⟨st.s, hInv.rel, hbs, hInv.conn, hInv.lp⟩

/-- One iteration of the `run` loop keeps the connectivity invariant
in normal mode. -/
theorem runStep_conn {o : Orac} {sym : Bool} {total target toRemove : Nat}
    {si : Option (Frac × Frac)} {s0 : Structure} (hwf : WF s0) (hsc : SC s0)
    {st : RunSt} (hInv : ConnInv s0 st) :
    ∀ out, runStep o false sym total target toRemove si st = .ok out →
      (∀ st', out = .halt st' → ConnInv s0 st') ∧
      (∀ st', out = .cont st' → ConnInv s0 st') := by
  intro out h
  simp only [runStep] at h
  by_cases hT : ¬ target < activeNodeCount st.s
  · rw [if_pos hT] at h
    injection h with h1
    refine ⟨?_, ?_⟩
    · intro st' he
      rw [← h1] at he
      injection he with he2
      subst he2
      exact hInv
    · intro st' he
      rw [← h1] at he
      cases he
  rw [if_neg hT] at h
  rcases hsol : solveStructure o.sp st.s with _ | ⟨u1, s1⟩
  · rw [hsol] at h
    simp only [] at h
    cases h
  rw [hsol] at h
  have hs1 : s1 = st.s := solveStructure_state _ _ u1 s1 hsol
  subst hs1
  rcases u1 with _ | u
  · simp only [] at h
    exact runStepB_conn hwf hsc hInv out h
  · simp only [] at h
    rcases si with _ | ⟨limit, sref⟩
    · simp only [] at h
      rw [if_neg (by simp)] at h
      exact runStepA_conn hwf hsc hInv out h
    · simp only [] at h
      by_cases hsb : (if ¬ (computeSpringStresses o st.s u).isEmpty then
          limit.blt ((Frac.lmax ((computeSpringStresses o st.s u).map (·.2))).div sref)
        else false) = true
      · rw [if_pos hsb] at h
        injection h with h1
        refine ⟨?_, ?_⟩
        · intro st' he
          rw [← h1] at he
          injection he with he2
          subst he2
          exact hInv
        · intro st' he
          rw [← h1] at he
          cases he
      · rw [if_neg hsb] at h
        exact runStepA_conn hwf hsc hInv out h

/-- The fuelled `run` loop keeps the connectivity invariant to any
normal exit, in normal mode. -/
theorem runLoop_conn {o : Orac} {sym : Bool} {total target toRemove : Nat}
    {si : Option (Frac × Frac)} {s0 : Structure} (hwf : WF s0) (hsc : SC s0) :
    ∀ (fuel : Nat) (st : RunSt), ConnInv s0 st →
      ∀ stF, runLoop o false sym total target toRemove si fuel st = .out stF →
        ConnInv s0 stF := by
  intro fuel
  induction fuel with
  | zero =>
    intro st hInv stF hF
    simp only [runLoop] at hF
    cases hF
  | succ n ih =>
    intro st hInv stF hF
    simp only [runLoop] at hF
    rcases hstep : runStep o false sym total target toRemove si st with _ | out2
    · rw [hstep] at hF
      simp only [] at hF
      cases hF
    rw [hstep] at hF
    rcases out2 with st' | st'
    · simp only [] at hF
      injection hF with h2
      subst h2
      exact (runStep_conn hwf hsc hInv _ hstep).1 st' rfl
    · simp only [] at hF
      exact ih st' ((runStep_conn hwf hsc hInv _ hstep).2 st' rfl) stF hF

/-- The initial loop state satisfies the connectivity invariant. -/
theorem runSt0_conn {total target : Nat} {s0 : Structure} (hsc : SC s0)
    (hconn : isConnected s0 = true) (hlp : hasLoadPaths s0 = true) :
    ConnInv s0 (runSt0 total target s0) :=
  ⟨FrameRel.frefl s0 hsc, hconn, hlp, fun b u2 he2 => by simp [runSt0] at he2⟩

/-- The main loop of `run` with its post-processing keeps connectivity
and load paths, in normal mode. -/
theorem runMain_conn {o : Orac} {sym : Bool} {total target : Nat}
    {si : Option (Frac × Frac)} {s0 : Structure} (hwf : WF s0) (hsc : SC s0)
    (hconn : isConnected s0 = true) (hlp : hasLoadPaths s0 = true) :
    ∀ sF hist ev, runMain o false sym total target si s0 = .ok (sF, hist, ev) →
      isConnected sF = true ∧ hasLoadPaths sF = true := by
  intro sF hist ev h
  simp only [runMain] at h
  rcases hloop : runLoop o false sym total target (total - target) si
      (runMeasure (runSt0 total target s0) + 1) (runSt0 total target s0) with _ | stF | _
  · rw [hloop] at h
    simp only [] at h
    cases h
  · rw [hloop] at h
    simp only [] at h
    have hexit := runLoop_conn hwf hsc _ _ (runSt0_conn hsc hconn hlp) stF hloop
    rcases hsn : stF.snap with _ | sn
    · rw [hsn] at h
      simp only [] at h
      injection h with h1
      injection h1 with h2 h3
      subst h2
      have hwfF : WF stF.s := WF_of_skelEq hexit.rel.1 hwf
      exact cleanupDangling_conn hwfF hexit.rel.2.1 hexit.conn hexit.lp
    · rw [hsn] at h
      simp only [] at h
      obtain ⟨t, htF, htb, htc, htl⟩ := hexit.snapOk sn.1 sn.2 (by rw [hsn])
      rcases hps : solveStructure o.sp stF.s with _ | ⟨uR, s2⟩
      · rw [hps] at h
        simp only [] at h
        cases h
      rw [hps] at h
      have hs2 : s2 = stF.s := solveStructure_state _ _ uR s2 hps
      subst hs2
      rcases uR with _ | uvec
      · simp only [] at h
        have hrest : restoreSnapshot stF.s sn.1 = t := by
          rw [← htb]
          exact restore_takeSnapshot (skelEq_trans (skelEq_symm htF.1) hexit.rel.1)
        rw [hrest] at h
        injection h with h1
        injection h1 with h2 h3
        subst h2
        have hwft : WF t := WF_of_skelEq htF.1 hwf
        exact cleanupDangling_conn hwft htF.2.1 htc htl
      · simp only [] at h
        injection h with h1
        injection h1 with h2 h3
        subst h2
        have hwfF : WF stF.s := WF_of_skelEq hexit.rel.1 hwf
        exact cleanupDangling_conn hwfF hexit.rel.2.1 hexit.conn hexit.lp
  · rw [hloop] at h
    simp only [] at h
    cases h

/-- C2 (theorem, amended): on well-formed, spring-consistent input
that is connected and has load paths, a successful
`TopologyOptimizer.run` in normal mode returns a lattice that is again
connected and has load paths, and every node with a fixed degree of
freedom or a non-zero applied force that was active at entry is still
active at return. -/
theorem run_preserves_connectivity {o : Orac} {s : Structure} {mf : Frac}
    {srl : Option Frac} {sym : Bool} (hwf : WF s) (hsc : SC s)
    (hconn : isConnected s = true) (hlp : hasLoadPaths s = true) :
    ∀ sF hist ev, run o s mf srl false sym = .ok (sF, hist, ev) →
      isConnected sF = true ∧ hasLoadPaths sF = true ∧
      (∀ j, ffAt s j = true → activeAt s j = true → activeAt sF j = true) := by
  intro sF hist ev h
  have hffp : ∀ j, ffAt s j = true → activeAt s j = true → activeAt sF j = true := by
    intro j h1 h2
    have hF := run_frame hwf hsc sF hist ev h
    rw [hF.2.2.2.1 j h1]
    exact h2
  simp only [run] at h
  by_cases hb : ¬ (Frac.zero.blt mf = true ∧ mf.blt Frac.one = true)
  · rw [if_pos hb] at h
    cases h
  rw [if_neg hb] at h
  rcases srl with _ | limit
  · simp only [] at h
    have hc := runMain_conn hwf hsc hconn hlp sF hist ev h
    exact ⟨hc.1, hc.2, hffp⟩
  · simp only [] at h
    rcases hps : solveStructure o.sp s with _ | ⟨uR, s2⟩
    · rw [hps] at h
      simp only [] at h
      cases h
    rw [hps] at h
    have hs2 : s2 = s := solveStructure_state _ _ uR s2 hps
    subst s2
    rcases uR with _ | uvec
    · simp only [] at h
      have hc := runMain_conn hwf hsc hconn hlp sF hist ev h
      exact ⟨hc.1, hc.2, hffp⟩
    · simp only [] at h
      by_cases hre : (computeSpringStresses o s uvec).isEmpty = true
      · rw [if_pos hre] at h
        simp only [] at h
        have hc := runMain_conn hwf hsc hconn hlp sF hist ev h
        exact ⟨hc.1, hc.2, hffp⟩
      · rw [if_neg hre] at h
        simp only [] at h
        have hc := runMain_conn hwf hsc hconn hlp sF hist ev h
        exact ⟨hc.1, hc.2, hffp⟩

/-- C2 (witness): the 2×2 demo run in normal mode returns a connected
lattice with load paths. -/
theorem run_preserves_connectivity_witness :
    WF fix22 ∧ SC fix22 ∧ isConnected fix22 = true ∧ hasLoadPaths fix22 = true ∧
    (∃ sF hist ev, run oAll fix22 ⟨1, 2⟩ none false false = .ok (sF, hist, ev) ∧
      isConnected sF = true ∧ hasLoadPaths sF = true) := by
  have hwf : WF fix22 := wf_of_check fix22 (by decide) (by decide)
  have hsc : SC fix22 := by decide
  have hconn : isConnected fix22 = true := by decide
  have hlp : hasLoadPaths fix22 = true := by decide
  refine ⟨hwf, hsc, hconn, hlp, ?_⟩
  have hne : (match run oAll fix22 ⟨1, 2⟩ none false false with
      | .raises => false
      | .ok _ => true) = true := by decide
  rcases hr : run oAll fix22 ⟨1, 2⟩ none false false with _ | ⟨S, H, E⟩
  · rw [hr] at hne
    simp only [] at hne
    cases hne
  · have hcc := run_preserves_connectivity hwf hsc hconn hlp S H E hr
    exact ⟨S, H, E, rfl, hcc.1, hcc.2.1⟩

/-- C2 (counterexample): on a lattice that `run` accepts and completes
on — three active nodes with node 0 isolated — the returned lattice
satisfies neither `is_connected` nor `has_load_paths`: the claim holds
for no mode without an assumption on the input. -/
theorem run_returns_disconnected :
    (match run oAll cex2 ⟨1, 2⟩ none false false with
      | .ok p => isConnected p.1 || hasLoadPaths p.1
      | .raises => true) = false := by
  decide

end TopOpt
